import Mathlib

/-!
# Verification of `poset.cc`

A shallow embedding of the poset registry of `poset.cc` and proofs of its
contract.

* `std::map<K, V>` is an association list `List (K × V)`; `find` returns the
  first binding of a key, `operator[] =` on an absent key inserts in key order,
  a write through a reference to an existing entry rewrites the entry in place.
* `std::vector<number>` is `List number`.
* `number` (`unsigned long`) is `Nat`; the only arithmetic of the program,
  `new_id++`, is taken modulo `2 ^ 64`.
* `char const*` is `Option String`, `none` being `nullptr`.
* The global `posets()` is passed explicitly: a function that may write to it
  returns the new registry next to its result.
* `random_number()` is an extra argument `r` of the two callers.
* The diagnostic output on `std::cerr` is not modelled.
-/

namespace jnp1

/-! ## Containers -/

/-- The type `number` of the source, `unsigned long`. -/
abbrev number := Nat

/-- Number of values of an `unsigned long`. -/
def WORD : Nat := 2 ^ 64

/-- A `std::map`: the list of its bindings. -/
abbrev Map (κ : Type) (V : Type) := List (κ × V)

/-- The keys of a map, in iteration order. -/
def mkeys {κ V : Type} (m : Map κ V) : List κ := m.map Prod.fst

/-- `m.find(k)`: the value bound to `k`, `none` for `m.end()`. -/
def mfind {κ V : Type} [DecidableEq κ] : Map κ V → κ → Option V
  | [], _ => none
  | (k', v) :: rest, k => if k' = k then some v else mfind rest k

/-- `m[k] = v` for the key order `lt`: rebinds `k` when present, inserts the
binding in key order otherwise. -/
def minsert {κ V : Type} [DecidableEq κ] (lt : κ → κ → Bool) (k : κ) (v : V) :
    Map κ V → Map κ V
  | [] => [(k, v)]
  | (k', v') :: rest =>
    if lt k k' then (k, v) :: (k', v') :: rest
    else if k = k' then (k, v) :: rest
    else (k', v') :: minsert lt k v rest

/-- The order of the keys of type `number`. -/
def num_lt (a b : number) : Bool := decide (a < b)

/-- The order of the keys of type `std::string`, lexicographic. -/
def name_lt (a b : String) : Bool := decide (a.data < b.data)

/-- `m.erase(k)`. -/
def merase {κ V : Type} [DecidableEq κ] (k : κ) (m : Map κ V) : Map κ V :=
  m.filter (fun e => decide (e.1 ≠ k))

/-- A write through the reference `m[k]` for a key that is present: the bound
value `v` becomes `f v`, the other bindings stay as they are. -/
def mupdate {κ V : Type} [DecidableEq κ] (k : κ) (f : V → V) : Map κ V → Map κ V
  | [] => []
  | (k', v) :: rest =>
    if k' = k then (k', f v) :: rest else (k', v) :: mupdate k f rest

/-- The pair of maps `poset` of the source: `first` sends a name to its id,
`second` sends an id to the vector of the ids recorded above it. -/
structure poset where
  first : Map String number
  second : Map number (List number)
deriving DecidableEq, Repr

/-- The value `poset()`. -/
def poset.empty : poset := ⟨[], []⟩

/-- The global map `posets()`. -/
abbrev Registry := Map number poset

/-- The probe `while (m.find(new_id) != m.end()) new_id++;` from candidate `c`.
Each of the first `fuel` candidates is tried; `none` is returned when all of
them are taken. The callers pass `m.length + 1` as fuel, one more than the
number of keys. -/
def probe {V : Type} (m : Map number V) : Nat → number → Option number
  | 0, _ => none
  | fuel + 1, c =>
    if (mfind m c).isNone then some c else probe m fuel ((c + 1) % WORD)

/-- The statements `std::swap(v[i], v[v.size() - 1]); v.pop_back();`. -/
def swap_pop (v : List number) (i : Nat) : List number :=
  (v.set i (v.getD (v.length - 1) 0)).dropLast

/-! ## The program -/

/-- Function `exists_edge`. Both `posets()[id]` and `.second[id1]` are
`operator[]` and create a missing entry, so the registry is returned too. -/
def exists_edge (s : Registry) (id id1 id2 : number) : Bool × Registry :=
  if id1 = id2 then (true, s)
  else
    match mfind s id with
    | none => (false, minsert num_lt id ⟨[], [(id1, [])]⟩ s)
    | some p =>
      match mfind p.second id1 with
      | none =>
        (false, mupdate id (fun q => { q with second := minsert num_lt id1 [] q.second }) s)
      | some v => (v.any (fun e => e == id2), s)

/-- Function `poset_new`; `r` is the value of `random_number()`. The result is
`none` when the probe does not end. -/
def poset_new (s : Registry) (r : number) : Option (number × Registry) :=
  match probe s (s.length + 1) (r % WORD) with
  | none => none
  | some new_id => some (new_id, minsert num_lt new_id poset.empty s)

/-- Function `poset_delete`. -/
def poset_delete (s : Registry) (id : number) : Registry :=
  merase id s

/-- Function `poset_size`. -/
def poset_size (s : Registry) (id : number) : Nat :=
  match mfind s id with
  | none => 0
  | some p => p.first.length

/-- Function `poset_insert`; `r` is the value of `random_number()`. The result
is `none` when the probe does not end. -/
def poset_insert (s : Registry) (id : number) (value : Option String) (r : number) :
    Option (Bool × Registry) :=
  match value with
  | none => some (false, s)
  | some name =>
    match mfind s id with
    | none => some (false, s)
    | some p =>
      if (mfind p.first name).isSome then some (false, s)
      else
        match probe p.second (p.second.length + 1) (r % WORD) with
        | none => none
        | some new_id =>
          some (true, mupdate id (fun q =>
            ⟨minsert name_lt name new_id q.first, minsert num_lt new_id [] q.second⟩) s)

/-- The inner loop of `poset_remove` on one vector, from index `i`:
`for (; i < v.size(); i++) if (v[i] == d) { swap; pop_back; i--; }`.
Every round either advances `i` or shortens `v`, so `v.size() - i` rounds
are enough; the caller passes `v.length` for `i = 0`. -/
def remove_scan (d : number) : Nat → Nat → List number → List number
  | 0, _, v => v
  | fuel + 1, i, v =>
    if i < v.length then
      if v.getD i 0 = d then remove_scan d fuel i (swap_pop v i)
      else remove_scan d fuel (i + 1) v
    else v

/-- Function `poset_remove`. -/
def poset_remove (s : Registry) (id : number) (value : Option String) : Bool × Registry :=
  match value with
  | none => (false, s)
  | some name =>
    match mfind s id with
    | none => (false, s)
    | some p =>
      match mfind p.first name with
      | none => (false, s)
      | some deleted_id =>
        (true, mupdate id (fun q =>
          ⟨merase name q.first,
           (merase deleted_id q.second).map
             (fun e => (e.1, remove_scan deleted_id e.2.length 0 e.2))⟩) s)

/-- The keys of `posets()[id].second`, for a live `id`. -/
def second_keys (s : Registry) (id : number) : List number :=
  match mfind s id with
  | none => []
  | some p => mkeys p.second

/-- The vector `posets()[id].second[id1]`, for an entry that is present. -/
def vector_at (s : Registry) (id id1 : number) : List number :=
  match mfind s id with
  | none => []
  | some p => (mfind p.second id1).getD []

/-- The statement `e1.second.push_back(k2)` for the entry `e1` of key `k1` in
`posets()[id].second`. -/
def push_back (s : Registry) (id k1 k2 : number) : Registry :=
  mupdate id (fun q => { q with second := mupdate k1 (fun v => v ++ [k2]) q.second }) s

/-- The inner loop of `poset_add` for the entry of key `k1`, over the keys
`e2.first` still to visit. -/
def add_inner (id id2 k1 : number) : List number → Registry → Registry
  | [], s => s
  | k2 :: ks, s =>
    let r1 := exists_edge s id id2 k2
    if r1.1 then
      let r2 := exists_edge r1.2 id k1 k2
      if r2.1 then add_inner id id2 k1 ks r2.2
      else add_inner id id2 k1 ks (push_back r2.2 id k1 k2)
    else add_inner id id2 k1 ks r1.2

/-- The outer loop of `poset_add`, over the keys `e1.first` still to visit.
The inner loop runs over all the keys of `posets()[id].second`. -/
def add_outer (id id1 id2 : number) : List number → Registry → Registry
  | [], s => s
  | k1 :: ks, s =>
    let r1 := exists_edge s id k1 id1
    if r1.1 then
      add_outer id id1 id2 ks (add_inner id id2 k1 (second_keys r1.2 id) r1.2)
    else add_outer id id1 id2 ks r1.2

/-- Function `poset_add`. When the loops are reached both `id1` and `id2` are
keys of `posets()[id].second` (the two calls of `exists_edge` before them index
it at `id2` and at `id1`), so no call of `exists_edge` in the loops adds a key
and the loops visit the keys present at their start. -/
def poset_add (s : Registry) (id : number) (value1 value2 : Option String) :
    Bool × Registry :=
  match value1, value2 with
  | some name1, some name2 =>
    match mfind s id with
    | none => (false, s)
    | some p =>
      match mfind p.first name1, mfind p.first name2 with
      | some id1, some id2 =>
        let r1 := exists_edge s id id2 id1
        let r2 := if r1.1 then (true, r1.2) else exists_edge r1.2 id id1 id2
        if r2.1 then (false, r2.2)
        else (true, add_outer id id1 id2 (second_keys r2.2 id) r2.2)
      | _, _ => (false, s)
  | _, _ => (false, s)

/-- The first loop of `poset_del`, over the elements `e` of
`posets()[id].second[id1]` still to visit: `true` when some `e != id2` has
`exists_edge(id, e, id2)`. -/
def del_scan (id id2 : number) : List number → Registry → Bool × Registry
  | [], s => (false, s)
  | e :: es, s =>
    if e ≠ id2 then
      let r := exists_edge s id e id2
      if r.1 then (true, r.2) else del_scan id id2 es r.2
    else del_scan id id2 es s

/-- The second loop of `poset_del`: the least index `i ≥ base` of `id2` in the
vector whose part from `base` on is the argument. -/
def find_index (id2 : number) : List number → Nat → Option Nat
  | [], _ => none
  | e :: es, base => if e = id2 then some base else find_index id2 es (base + 1)

/-- Function `poset_del`. The result is `none` when the function ends in
`exit(1)`. -/
def poset_del (s : Registry) (id : number) (value1 value2 : Option String) :
    Option (Bool × Registry) :=
  match value1, value2 with
  | some name1, some name2 =>
    match mfind s id with
    | none => some (false, s)
    | some p =>
      match mfind p.first name1, mfind p.first name2 with
      | some id1, some id2 =>
        if id1 = id2 then some (false, s)
        else
          let r1 := exists_edge s id id1 id2
          if !r1.1 then some (false, r1.2)
          else
            let r2 := del_scan id id2 (vector_at r1.2 id id1) r1.2
            if r2.1 then some (false, r2.2)
            else
              let vertices := vector_at r2.2 id id1
              match find_index id2 vertices 0 with
              | some i =>
                some (true, mupdate id (fun q =>
                  { q with second := mupdate id1 (fun v => swap_pop v i) q.second }) r2.2)
              | none => none
      | _, _ => some (false, s)
  | _, _ => some (false, s)

/-- Function `poset_test`. -/
def poset_test (s : Registry) (id : number) (value1 value2 : Option String) :
    Bool × Registry :=
  match value1, value2 with
  | some name1, some name2 =>
    match mfind s id with
    | none => (false, s)
    | some p =>
      match mfind p.first name1, mfind p.first name2 with
      | some id1, some id2 => exists_edge s id id1 id2
      | _, _ => (false, s)
  | _, _ => (false, s)

/-- Function `poset_clear`. -/
def poset_clear (s : Registry) (id : number) : Registry :=
  match mfind s id with
  | none => s
  | some _ => mupdate id (fun _ => poset.empty) s

/-! ## Runs of the public operations -/

/-- A call of a public function, with its arguments. -/
inductive Op where
  | new (r : number)
  | delete (id : number)
  | size (id : number)
  | insert (id : number) (value : Option String) (r : number)
  | remove (id : number) (value : Option String)
  | add (id : number) (value1 value2 : Option String)
  | del (id : number) (value1 value2 : Option String)
  | test (id : number) (value1 value2 : Option String)
  | clear (id : number)

/-- The registry after a call, `none` when the call does not return. -/
def step (s : Registry) : Op → Option Registry
  | .new r => (poset_new s r).map Prod.snd
  | .delete id => some (poset_delete s id)
  | .size _ => some s
  | .insert id value r => (poset_insert s id value r).map Prod.snd
  | .remove id value => some (poset_remove s id value).2
  | .add id value1 value2 => some (poset_add s id value1 value2).2
  | .del id value1 value2 => (poset_del s id value1 value2).map Prod.snd
  | .test id value1 value2 => some (poset_test s id value1 value2).2
  | .clear id => some (poset_clear s id)

/-- The registries obtained from the empty one by finitely many calls. -/
inductive Reachable : Registry → Prop where
  | init : Reachable []
  | step {s s' : Registry} (op : Op) : Reachable s → step s op = some s' → Reachable s'

/-- The registry after a list of calls. -/
def run (s : Registry) : List Op → Option Registry
  | [] => some s
  | op :: ops => (step s op).bind (fun s' => run s' ops)

/-! ## The order read off one poset, and the loops without the registry -/

/-- The test of `exists_edge` on the map `second` of one poset, without the
writes of `operator[]`. -/
def edge (sec : Map number (List number)) (x y : number) : Bool :=
  decide (x = y) || ((mfind sec x).getD []).any (fun e => e == y)

/-- The registry with the poset of a live handle `id` replaced by `p`. -/
def set_poset (s : Registry) (id : number) (p : poset) : Registry :=
  mupdate id (fun _ => p) s

/-- The inner loop of `poset_add` on the map `second` alone. -/
def add_inner_pure (id2 k1 : number) :
    List number → Map number (List number) → Map number (List number)
  | [], sec => sec
  | k2 :: ks, sec =>
    if edge sec id2 k2 then
      if edge sec k1 k2 then add_inner_pure id2 k1 ks sec
      else add_inner_pure id2 k1 ks (mupdate k1 (fun v => v ++ [k2]) sec)
    else add_inner_pure id2 k1 ks sec

/-- The outer loop of `poset_add` on the map `second` alone. -/
def add_outer_pure (id1 id2 : number) :
    List number → Map number (List number) → Map number (List number)
  | [], sec => sec
  | k1 :: ks, sec =>
    if edge sec k1 id1 then
      add_outer_pure id1 id2 ks (add_inner_pure id2 k1 (mkeys sec) sec)
    else add_outer_pure id1 id2 ks sec

/-- The representation invariant of one poset, with the order axioms. -/
structure PosetInv (p : poset) : Prop where
  names_nodup : (mkeys p.first).Nodup
  ids_nodup : (mkeys p.second).Nodup
  inj : ∀ n1 n2 i, mfind p.first n1 = some i → mfind p.first n2 = some i → n1 = n2
  ids_iff : ∀ i, i ∈ mkeys p.second ↔ ∃ n, mfind p.first n = some i
  closed : ∀ k v, mfind p.second k = some v → ∀ e ∈ v, e ∈ mkeys p.second
  irrefl : ∀ k v, mfind p.second k = some v → k ∉ v
  vec_nodup : ∀ k v, mfind p.second k = some v → v.Nodup
  trans : ∀ x y z, edge p.second x y = true → edge p.second y z = true →
    edge p.second x z = true
  antisymm : ∀ x y, edge p.second x y = true → edge p.second y x = true → x = y

/-- Every live poset of the registry satisfies the invariant. -/
def RegInv (s : Registry) : Prop :=
  ∀ id p, mfind s id = some p → PosetInv p

/-! ## A sample run -/

/-- A run that creates the poset `7` with the elements `a`, `b`, `c`, `d` and
the relations `a ≤ b` and `b ≤ c`. -/
def sample_ops : List Op :=
  [.new 7, .insert 7 (some "a") 1, .insert 7 (some "b") 0, .insert 7 (some "c") 1,
   .insert 7 (some "d") 5, .add 7 (some "a") (some "b"), .add 7 (some "b") (some "c")]

/-- The registry after `sample_ops`. -/
def sample_state : Registry :=
  [(7, ⟨[("a", 1), ("b", 0), ("c", 2), ("d", 5)], [(0, [2]), (1, [0, 2]), (2, []), (5, [])]⟩)]

/-- A run that creates the poset `3` with the unrelated elements `a`, `b`,
`c`. -/
def fresh_ops : List Op :=
  [.new 3, .insert 3 (some "a") 0, .insert 3 (some "b") 0, .insert 3 (some "c") 0]

/-- The registry after `fresh_ops`. -/
def fresh_state : Registry :=
  [(3, ⟨[("a", 0), ("b", 1), ("c", 2)], [(0, []), (1, []), (2, [])]⟩)]

/-- The registry `fresh_state` after `poset_add(3, "a", "b")` and
`poset_add(3, "b", "c")`. -/
def chain_state : Registry :=
  [(3, ⟨[("a", 0), ("b", 1), ("c", 2)], [(0, [1, 2]), (1, [2]), (2, [])]⟩)]

/-- What a call addressed to the handle `id` shows of its outcome: the value
returned and the poset stored under `id` afterwards. -/
def view (id : number) (r : Bool × Registry) : Bool × Option poset :=
  (r.1, mfind r.2 id)

/-- A registry with two posets that hold the same name `a`. -/
def twin_state : Registry :=
  [(1, ⟨[("a", 0)], [(0, [])]⟩), (2, ⟨[("a", 0), ("b", 1)], [(0, [1]), (1, [])]⟩)]

/-! ## The closure of the specification -/

/-- The relation of the specification for `poset_add(h, a, b)`: the smallest
relation on the names that contains the order of `poset_test` before the call
and the pair `(a, b)`, is reflexive on the bound names and is transitive. -/
inductive naive_closure (s : Registry) (h : number) (a b : Option String) :
    Option String → Option String → Prop where
  | old (x y : Option String) : (poset_test s h x y).1 = true → naive_closure s h a b x y
  | pair : naive_closure s h a b a b
  | refl (x : Option String) : (poset_test s h x x).1 = true → naive_closure s h a b x x
  | trans (x y z : Option String) : naive_closure s h a b x y → naive_closure s h a b y z →
      naive_closure s h a b x z

/-! ## Lemmas on the containers -/

theorem mkeys_map_snd {κ V : Type} (g : κ × V → V) (m : Map κ V) :
    mkeys (m.map (fun e => (e.1, g e))) = mkeys m := by
  simp [mkeys, List.map_map, Function.comp_def]

section MapLemmas

variable {κ V : Type} [DecidableEq κ]

theorem mfind_nil (k : κ) : mfind ([] : Map κ V) k = none := rfl

theorem mfind_cons (k' : κ) (v : V) (rest : Map κ V) (k : κ) :
    mfind ((k', v) :: rest) k = if k' = k then some v else mfind rest k := rfl

theorem mfind_minsert (lt : κ → κ → Bool) (k : κ) (v : V) (m : Map κ V) (k' : κ) :
    mfind (minsert lt k v m) k' = if k = k' then some v else mfind m k' := by
  induction m with
  | nil => simp [minsert, mfind]
  | cons e rest ih =>
    obtain ⟨k0, v0⟩ := e
    unfold minsert
    by_cases h1 : lt k k0 = true
    · simp [h1, mfind]
    · by_cases h2 : k = k0
      · subst h2
        simp only [h1, if_false, if_true, mfind]
        by_cases h3 : k = k' <;> simp [h3]
      · simp only [h1, h2, if_false, mfind, ih]
        by_cases h3 : k0 = k'
        · subst h3
          simp [h2]
        · simp [h3]

theorem mfind_merase (k : κ) (m : Map κ V) (k' : κ) :
    mfind (merase k m) k' = if k = k' then none else mfind m k' := by
  induction m with
  | nil => simp [merase, mfind]
  | cons e rest ih =>
    obtain ⟨k0, v0⟩ := e
    unfold merase at ih ⊢
    by_cases h1 : k0 = k
    · subst h1
      simp only [List.filter, ne_eq, not_true_eq_false, decide_False, ih, mfind]
      by_cases h2 : k0 = k' <;> simp [h2]
    · simp only [List.filter, ne_eq, h1, not_false_eq_true, decide_True, mfind, ih]
      by_cases h2 : k0 = k'
      · subst h2
        simp [Ne.symm h1]
      · simp [h2]

theorem mfind_mupdate (k : κ) (f : V → V) (m : Map κ V) (k' : κ) :
    mfind (mupdate k f m) k' = if k = k' then (mfind m k).map f else mfind m k' := by
  induction m with
  | nil => simp [mupdate, mfind]
  | cons e rest ih =>
    obtain ⟨k0, v0⟩ := e
    unfold mupdate
    by_cases h1 : k0 = k
    · subst h1
      by_cases h2 : k0 = k' <;> simp [mfind, h2]
    · simp only [h1, if_false, mfind, ih]
      by_cases h2 : k0 = k'
      · subst h2
        simp [Ne.symm h1]
      · simp [h2]

theorem mkeys_mupdate (k : κ) (f : V → V) (m : Map κ V) :
    mkeys (mupdate k f m) = mkeys m := by
  induction m with
  | nil => rfl
  | cons e rest ih =>
    obtain ⟨k0, v0⟩ := e
    unfold mupdate
    by_cases h1 : k0 = k
    · simp [h1, mkeys]
    · simp only [h1, if_false]
      simpa [mkeys] using ih

theorem length_mupdate (k : κ) (f : V → V) (m : Map κ V) :
    (mupdate k f m).length = m.length := by
  have h := congrArg List.length (mkeys_mupdate k f m)
  simpa [mkeys] using h

/-- A write through a reference only depends on the value found. -/
theorem mupdate_congr (k : κ) (f g : V → V) (m : Map κ V) (v : V)
    (hv : mfind m k = some v) (hfg : f v = g v) : mupdate k f m = mupdate k g m := by
  induction m with
  | nil => rfl
  | cons e rest ih =>
    obtain ⟨k0, v0⟩ := e
    unfold mupdate
    by_cases h1 : k0 = k
    · simp only [mfind, h1, if_true, Option.some.injEq] at hv
      subst hv
      simp [h1, hfg]
    · simp only [mfind, h1, if_false] at hv
      simp [h1, ih hv]

/-- Writing back the value found changes nothing. -/
theorem mupdate_same (k : κ) (f : V → V) (m : Map κ V) (v : V)
    (hv : mfind m k = some v) (hf : f v = v) : mupdate k f m = m := by
  induction m with
  | nil => rfl
  | cons e rest ih =>
    obtain ⟨k0, v0⟩ := e
    unfold mupdate
    by_cases h1 : k0 = k
    · simp only [mfind, h1, if_true, Option.some.injEq] at hv
      subst hv
      simp [h1, hf]
    · simp only [mfind, h1, if_false] at hv
      simp [h1, ih hv]

theorem mupdate_mupdate (k : κ) (f g : V → V) (m : Map κ V) :
    mupdate k f (mupdate k g m) = mupdate k (fun v => f (g v)) m := by
  induction m with
  | nil => rfl
  | cons e rest ih =>
    obtain ⟨k0, v0⟩ := e
    by_cases h1 : k0 = k
    · simp [mupdate, h1]
    · simp [mupdate, h1, ih]

theorem mem_mkeys_iff (m : Map κ V) (k : κ) :
    k ∈ mkeys m ↔ ∃ v, mfind m k = some v := by
  induction m with
  | nil => simp [mkeys, mfind]
  | cons e rest ih =>
    obtain ⟨k0, v0⟩ := e
    by_cases h1 : k0 = k
    · subst h1
      simp [mkeys, mfind]
    · have h2 : ¬ k = k0 := fun h => h1 h.symm
      simp only [mkeys, List.map_cons, List.mem_cons, h2, false_or, mfind, h1, if_false]
      simpa [mkeys] using ih

theorem not_mem_mkeys_iff (m : Map κ V) (k : κ) :
    k ∉ mkeys m ↔ mfind m k = none := by
  rw [mem_mkeys_iff]
  cases h : mfind m k <;> simp

theorem mem_of_mfind (m : Map κ V) (k : κ) (v : V) (h : mfind m k = some v) :
    (k, v) ∈ m := by
  induction m with
  | nil => simp [mfind] at h
  | cons e rest ih =>
    obtain ⟨k0, v0⟩ := e
    by_cases h1 : k0 = k
    · simp only [mfind, h1, if_true, Option.some.injEq] at h
      simp [h1, h]
    · simp only [mfind, h1, if_false] at h
      exact List.mem_cons_of_mem _ (ih h)

theorem mfind_of_mem (m : Map κ V) (hnd : (mkeys m).Nodup) (k : κ) (v : V)
    (h : (k, v) ∈ m) : mfind m k = some v := by
  induction m with
  | nil => simp at h
  | cons e rest ih =>
    obtain ⟨k0, v0⟩ := e
    simp only [mkeys, List.map_cons, List.nodup_cons] at hnd
    rcases List.mem_cons.mp h with h1 | h1
    · simp only [Prod.mk.injEq] at h1
      simp [mfind, h1.1, h1.2]
    · have hk : k ∈ rest.map Prod.fst := List.mem_map.mpr ⟨(k, v), h1, rfl⟩
      have hne : k0 ≠ k := fun h2 => hnd.1 (h2 ▸ hk)
      simp only [mfind, hne, if_false]
      exact ih hnd.2 h1

theorem mkeys_merase (k : κ) (m : Map κ V) :
    mkeys (merase k m) = (mkeys m).filter (fun x => decide (x ≠ k)) := by
  simp [mkeys, merase, List.filter_map, Function.comp_def]

theorem mkeys_minsert_perm (lt : κ → κ → Bool) (k : κ) (v : V) (m : Map κ V)
    (hk : k ∉ mkeys m) : (mkeys (minsert lt k v m)).Perm (k :: mkeys m) := by
  induction m with
  | nil => simp [minsert, mkeys]
  | cons e rest ih =>
    obtain ⟨k0, v0⟩ := e
    simp only [mkeys, List.map_cons, List.mem_cons, not_or] at hk
    unfold minsert
    by_cases h1 : lt k k0 = true
    · simp [h1, mkeys]
    · simp only [h1, hk.1, if_false]
      have h2 := ih (by simpa [mkeys] using hk.2)
      simp only [mkeys, List.map_cons] at h2 ⊢
      exact (List.Perm.cons k0 h2).trans (List.Perm.swap k k0 _)

theorem length_minsert (lt : κ → κ → Bool) (k : κ) (v : V) (m : Map κ V)
    (hk : k ∉ mkeys m) : (minsert lt k v m).length = m.length + 1 := by
  have h := (mkeys_minsert_perm lt k v m hk).length_eq
  simpa [mkeys] using h

theorem mfind_map_snd (g : κ × V → V) (m : Map κ V) (k : κ) :
    mfind (m.map (fun e => (e.1, g e))) k = (mfind m k).map (fun v => g (k, v)) := by
  induction m with
  | nil => rfl
  | cons e rest ih =>
    obtain ⟨k0, v0⟩ := e
    by_cases h1 : k0 = k
    · subst h1
      simp [mfind]
    · simp only [List.map_cons, mfind, h1, if_false]
      exact ih

end MapLemmas

/-! ## Reading and writing one poset of the registry -/

theorem edge_iff (sec : Map number (List number)) (x y : number) :
    edge sec x y = true ↔ x = y ∨ ∃ v, mfind sec x = some v ∧ y ∈ v := by
  unfold edge
  cases h : mfind sec x with
  | none => simp
  | some v =>
    simp only [Bool.or_eq_true, decide_eq_true_eq, Option.getD_some, List.any_eq_true,
      beq_iff_eq, Option.some.injEq, exists_eq_left']
    constructor
    · rintro (h1 | ⟨e, he, rfl⟩)
      · exact Or.inl h1
      · exact Or.inr he
    · rintro (h1 | h1)
      · exact Or.inl h1
      · exact Or.inr ⟨y, h1, rfl⟩

theorem edge_refl (sec : Map number (List number)) (x : number) : edge sec x x = true := by
  simp [edge]

theorem edge_congr (sec1 sec2 : Map number (List number)) (x y : number)
    (h : mfind sec1 x = mfind sec2 x) : edge sec1 x y = edge sec2 x y := by
  simp [edge, h]

theorem edge_of_not_key (sec : Map number (List number)) (x y : number)
    (h : mfind sec x = none) : edge sec x y = decide (x = y) := by
  simp [edge, h]

theorem mfind_set_poset (s : Registry) (id : number) (p q : poset)
    (h : mfind s id = some p) : mfind (set_poset s id q) id = some q := by
  simp [set_poset, mfind_mupdate, h]

theorem mfind_set_poset_ne (s : Registry) (id id' : number) (q : poset)
    (h : id ≠ id') : mfind (set_poset s id q) id' = mfind s id' := by
  simp [set_poset, mfind_mupdate, h]

theorem set_poset_same (s : Registry) (id : number) (p : poset)
    (h : mfind s id = some p) : set_poset s id p = s :=
  mupdate_same id _ s p h rfl

theorem set_poset_set_poset (s : Registry) (id : number) (p q : poset) :
    set_poset (set_poset s id p) id q = set_poset s id q := by
  simp [set_poset, mupdate_mupdate]

theorem mupdate_eq_set_poset (s : Registry) (id : number) (f : poset → poset) (p : poset)
    (h : mfind s id = some p) : mupdate id f s = set_poset s id (f p) :=
  mupdate_congr id f _ s p h rfl

/-- On a live handle and an id that is a key of `second`, or equal to the
second id, `exists_edge` writes nothing and returns the pure test. -/
theorem exists_edge_live (s : Registry) (id id1 id2 : number) (p : poset)
    (hp : mfind s id = some p) (hk : id1 = id2 ∨ id1 ∈ mkeys p.second) :
    exists_edge s id id1 id2 = (edge p.second id1 id2, s) := by
  unfold exists_edge
  by_cases h : id1 = id2
  · simp [h, edge]
  · rcases hk with hk | hk
    · exact absurd hk h
    · obtain ⟨v, hv⟩ := (mem_mkeys_iff _ _).mp hk
      simp [h, hp, hv, edge]

theorem probe_free {V : Type} (m : Map number V) (fuel : Nat) (c n : number)
    (h : probe m fuel c = some n) : mfind m n = none := by
  induction fuel generalizing c with
  | zero => simp [probe] at h
  | succ f ih =>
    unfold probe at h
    by_cases h1 : (mfind m c).isNone = true
    · simp only [h1, if_true, Option.some.injEq] at h
      subst h
      simpa using h1
    · simp only [h1] at h
      exact ih _ h

/-! ## The loops of `poset_add` -/

theorem push_back_live (s : Registry) (id k1 k2 : number) (p : poset)
    (hp : mfind s id = some p) :
    push_back s id k1 k2 =
      set_poset s id ⟨p.first, mupdate k1 (fun v => v ++ [k2]) p.second⟩ := by
  unfold push_back
  exact mupdate_eq_set_poset s id _ p hp

theorem add_inner_live (id id2 k1 : number) (ks : List number) (s : Registry) (p : poset)
    (hp : mfind s id = some p) (h2 : id2 ∈ mkeys p.second) (h1 : k1 ∈ mkeys p.second) :
    add_inner id id2 k1 ks s =
      set_poset s id ⟨p.first, add_inner_pure id2 k1 ks p.second⟩ := by
  induction ks generalizing s p with
  | nil =>
    simp only [add_inner, add_inner_pure]
    exact (set_poset_same s id p hp).symm
  | cons k2 ks ih =>
    simp only [add_inner, add_inner_pure]
    rw [exists_edge_live s id id2 k2 p hp (Or.inr h2)]
    simp only
    by_cases e1 : edge p.second id2 k2 = true
    · simp only [e1, if_true]
      rw [exists_edge_live s id k1 k2 p hp (Or.inr h1)]
      simp only
      by_cases e2 : edge p.second k1 k2 = true
      · simp only [e2, if_true]
        exact ih s p hp h2 h1
      · simp only [e2]
        rw [push_back_live s id k1 k2 p hp]
        have hq := mfind_set_poset s id p
          ⟨p.first, mupdate k1 (fun v => v ++ [k2]) p.second⟩ hp
        rw [ih _ _ hq (by simpa [mkeys_mupdate] using h2) (by simpa [mkeys_mupdate] using h1)]
        simp [set_poset_set_poset]
    · simp only [e1]
      exact ih s p hp h2 h1

theorem mkeys_add_inner_pure (id2 k1 : number) (ks : List number)
    (sec : Map number (List number)) :
    mkeys (add_inner_pure id2 k1 ks sec) = mkeys sec := by
  induction ks generalizing sec with
  | nil => rfl
  | cons k2 ks ih =>
    simp only [add_inner_pure]
    split
    · split
      · exact ih sec
      · rw [ih, mkeys_mupdate]
    · exact ih sec

theorem mkeys_add_outer_pure (id1 id2 : number) (ks : List number)
    (sec : Map number (List number)) :
    mkeys (add_outer_pure id1 id2 ks sec) = mkeys sec := by
  induction ks generalizing sec with
  | nil => rfl
  | cons k1 ks ih =>
    simp only [add_outer_pure]
    split
    · rw [ih, mkeys_add_inner_pure]
    · exact ih sec

theorem second_keys_live (s : Registry) (id : number) (p : poset)
    (hp : mfind s id = some p) : second_keys s id = mkeys p.second := by
  simp [second_keys, hp]

theorem add_outer_live (id id1 id2 : number) (ks : List number) (s : Registry) (p : poset)
    (hp : mfind s id = some p) (h2 : id2 ∈ mkeys p.second)
    (hks : ∀ k ∈ ks, k ∈ mkeys p.second) :
    add_outer id id1 id2 ks s =
      set_poset s id ⟨p.first, add_outer_pure id1 id2 ks p.second⟩ := by
  induction ks generalizing s p with
  | nil =>
    simp only [add_outer, add_outer_pure]
    exact (set_poset_same s id p hp).symm
  | cons k1 ks ih =>
    have hk1 : k1 ∈ mkeys p.second := hks k1 (List.mem_cons_self _ _)
    have hks' : ∀ k ∈ ks, k ∈ mkeys p.second := fun k hk => hks k (List.mem_cons_of_mem _ hk)
    simp only [add_outer, add_outer_pure]
    rw [exists_edge_live s id k1 id1 p hp (Or.inr hk1)]
    simp only
    by_cases e1 : edge p.second k1 id1 = true
    · simp only [e1, if_true]
      rw [second_keys_live s id p hp, add_inner_live id id2 k1 _ s p hp h2 hk1]
      have hq := mfind_set_poset s id p
        ⟨p.first, add_inner_pure id2 k1 (mkeys p.second) p.second⟩ hp
      rw [ih _ _ hq (by simpa [mkeys_add_inner_pure] using h2)
        (by simpa [mkeys_add_inner_pure] using hks')]
      simp [set_poset_set_poset]
    · simp only [e1]
      exact ih s p hp h2 hks'

/-- The inner loop changes the vector of `k1` only, and appends to it the keys
`y` of the visited list that are above `id2` and not yet related to `k1`. -/
theorem add_inner_pure_spec (id2 k1 : number) (hne : id2 ≠ k1) (ks : List number)
    (sec : Map number (List number)) (v : List number) (hv : mfind sec k1 = some v) :
    (∀ k, k ≠ k1 → mfind (add_inner_pure id2 k1 ks sec) k = mfind sec k) ∧
    ∃ v', mfind (add_inner_pure id2 k1 ks sec) k1 = some v' ∧
      (∀ y, y ∈ v' ↔ y ∈ v ∨ (y ∈ ks ∧ edge sec id2 y = true ∧ y ≠ k1)) ∧
      (v.Nodup → v'.Nodup) := by
  induction ks generalizing sec v with
  | nil =>
    refine ⟨fun _ _ => rfl, v, hv, ?_, id⟩
    intro y
    simp
  | cons k2 ks ih =>
    simp only [add_inner_pure]
    by_cases e1 : edge sec id2 k2 = true
    · by_cases e2 : edge sec k1 k2 = true
      · simp only [e1, e2, if_true]
        obtain ⟨hA, v', hv', hmem, hnd⟩ := ih sec v hv
        refine ⟨hA, v', hv', ?_, hnd⟩
        intro y
        rw [hmem y]
        constructor
        · rintro (h | ⟨h1, h2, h3⟩)
          · exact Or.inl h
          · exact Or.inr ⟨List.mem_cons_of_mem _ h1, h2, h3⟩
        · rintro (h | ⟨h1, h2, h3⟩)
          · exact Or.inl h
          · rcases List.mem_cons.mp h1 with h1 | h1
            · subst h1
              rcases (edge_iff sec k1 y).mp e2 with h4 | ⟨w, hw, hyw⟩
              · exact absurd h4.symm h3
              · rw [hv] at hw
                cases hw
                exact Or.inl hyw
            · exact Or.inr ⟨h1, h2, h3⟩
      · simp only [e1, e2, if_true, Bool.false_eq_true, if_false]
        have hk12 : k2 ≠ k1 := by
          intro h
          subst h
          exact e2 (edge_refl sec k2)
        have hk2v : k2 ∉ v := by
          intro h
          exact e2 ((edge_iff sec k1 k2).mpr (Or.inr ⟨v, hv, h⟩))
        have hv1 : mfind (mupdate k1 (fun v => v ++ [k2]) sec) k1 = some (v ++ [k2]) := by
          simp [mfind_mupdate, hv]
        have hid2 : mfind (mupdate k1 (fun v => v ++ [k2]) sec) id2 = mfind sec id2 := by
          simp [mfind_mupdate, Ne.symm hne]
        obtain ⟨hA, v', hv', hmem, hnd⟩ := ih _ _ hv1
        refine ⟨?_, v', hv', ?_, ?_⟩
        · intro k hk
          rw [hA k hk]
          simp [mfind_mupdate, Ne.symm hk]
        · intro y
          rw [hmem y, edge_congr _ _ id2 y hid2]
          simp only [List.mem_append, List.mem_singleton]
          constructor
          · rintro ((h | h) | ⟨h1, h2, h3⟩)
            · exact Or.inl h
            · subst h
              exact Or.inr ⟨List.mem_cons_self _ _, e1, hk12⟩
            · exact Or.inr ⟨List.mem_cons_of_mem _ h1, h2, h3⟩
          · rintro (h | ⟨h1, h2, h3⟩)
            · exact Or.inl (Or.inl h)
            · rcases List.mem_cons.mp h1 with h1 | h1
              · exact Or.inl (Or.inr h1)
              · exact Or.inr ⟨h1, h2, h3⟩
        · intro hvn
          apply hnd
          rw [List.nodup_append]
          refine ⟨hvn, List.nodup_singleton _, ?_⟩
          intro a ha hb
          simp only [List.mem_singleton] at hb
          subst hb
          exact hk2v ha
    · simp only [e1, Bool.false_eq_true, if_false]
      obtain ⟨hA, v', hv', hmem, hnd⟩ := ih sec v hv
      refine ⟨hA, v', hv', ?_, hnd⟩
      intro y
      rw [hmem y]
      constructor
      · rintro (h | ⟨h1, h2, h3⟩)
        · exact Or.inl h
        · exact Or.inr ⟨List.mem_cons_of_mem _ h1, h2, h3⟩
      · rintro (h | ⟨h1, h2, h3⟩)
        · exact Or.inl h
        · rcases List.mem_cons.mp h1 with h1 | h1
          · subst h1
            exact absurd h2 e1
          · exact Or.inr ⟨h1, h2, h3⟩

/-- The outer loop extends the vector of every visited key `k` below `id1` by
the keys above `id2`, and leaves the other vectors as they are. -/
theorem add_outer_pure_spec (id1 id2 : number) (ks : List number) (hks : ks.Nodup)
    (sec : Map number (List number)) (hne : edge sec id2 id1 = false)
    (hkeys : ∀ k ∈ ks, k ∈ mkeys sec) :
    (∀ k, k ∉ ks → mfind (add_outer_pure id1 id2 ks sec) k = mfind sec k) ∧
    (∀ k ∈ ks, ∀ v, mfind sec k = some v →
      ∃ v', mfind (add_outer_pure id1 id2 ks sec) k = some v' ∧
        (∀ y, y ∈ v' ↔ y ∈ v ∨
          (edge sec k id1 = true ∧ y ∈ mkeys sec ∧ edge sec id2 y = true ∧ y ≠ k)) ∧
        (v.Nodup → v'.Nodup)) := by
  induction ks generalizing sec with
  | nil =>
    refine ⟨fun _ _ => rfl, ?_⟩
    intro k hk
    simp at hk
  | cons k1 ks ih =>
    have hk1 : k1 ∉ ks := (List.nodup_cons.mp hks).1
    have hks' : ks.Nodup := (List.nodup_cons.mp hks).2
    simp only [add_outer_pure]
    by_cases e1 : edge sec k1 id1 = true
    · simp only [e1, if_true]
      have hne1 : id2 ≠ k1 := by
        intro h
        subst h
        rw [e1] at hne
        cases hne
      obtain ⟨v1, hv1⟩ := (mem_mkeys_iff sec k1).mp (hkeys k1 (List.mem_cons_self _ _))
      obtain ⟨hA, v1', hv1', hmem1, hnd1⟩ :=
        add_inner_pure_spec id2 k1 hne1 (mkeys sec) sec v1 hv1
      have hedge2 : ∀ y, edge (add_inner_pure id2 k1 (mkeys sec) sec) id2 y = edge sec id2 y :=
        fun y => edge_congr _ _ id2 y (hA id2 hne1)
      have hne' : edge (add_inner_pure id2 k1 (mkeys sec) sec) id2 id1 = false := by
        rw [hedge2]
        exact hne
      have hkeys' : ∀ k ∈ ks, k ∈ mkeys (add_inner_pure id2 k1 (mkeys sec) sec) := by
        intro k hk
        rw [mkeys_add_inner_pure]
        exact hkeys k (List.mem_cons_of_mem _ hk)
      obtain ⟨hB, hC⟩ := ih hks' _ hne' hkeys'
      refine ⟨?_, ?_⟩
      · intro k hk
        have h1 : k ∉ ks := fun h => hk (List.mem_cons_of_mem _ h)
        have h2 : k ≠ k1 := fun h => hk (h ▸ List.mem_cons_self _ _)
        rw [hB k h1, hA k h2]
      · intro k hk v hv
        rcases List.mem_cons.mp hk with h | h
        · subst h
          rw [hv] at hv1
          cases hv1
          refine ⟨v1', ?_, ?_, hnd1⟩
          · rw [hB k hk1, hv1']
          · intro y
            rw [hmem1 y]
            simp [e1]
        · have h2 : k ≠ k1 := fun h3 => hk1 (h3 ▸ h)
          have hv' : mfind (add_inner_pure id2 k1 (mkeys sec) sec) k = some v := by
            rw [hA k h2, hv]
          obtain ⟨v', hv2, hmem, hnd⟩ := hC k h v hv'
          refine ⟨v', hv2, ?_, hnd⟩
          intro y
          rw [hmem y, hedge2 y, mkeys_add_inner_pure, edge_congr _ _ k id1 (hA k h2)]
    · simp only [e1, Bool.false_eq_true, if_false]
      have hkeys' : ∀ k ∈ ks, k ∈ mkeys sec := fun k hk => hkeys k (List.mem_cons_of_mem _ hk)
      obtain ⟨hB, hC⟩ := ih hks' sec hne hkeys'
      refine ⟨?_, ?_⟩
      · intro k hk
        exact hB k (fun h => hk (List.mem_cons_of_mem _ h))
      · intro k hk v hv
        rcases List.mem_cons.mp hk with h | h
        · subst h
          refine ⟨v, ?_, ?_, id⟩
          · rw [hB k hk1, hv]
          · intro y
            simp [e1]
        · exact hC k h v hv

/-- The order after the loops of `poset_add`, on a map `second` whose vectors
hold keys only: `x` is below `y` when it was, or when `x` was below `id1` and
`id2` below `y`. -/
theorem edge_add_outer_pure (id1 id2 : number) (sec : Map number (List number))
    (hnd : (mkeys sec).Nodup) (hne : edge sec id2 id1 = false)
    (h1 : id1 ∈ mkeys sec) (h2 : id2 ∈ mkeys sec)
    (hclosed : ∀ k v, mfind sec k = some v → ∀ e ∈ v, e ∈ mkeys sec) (x y : number) :
    edge (add_outer_pure id1 id2 (mkeys sec) sec) x y = true ↔
      edge sec x y = true ∨ (edge sec x id1 = true ∧ edge sec id2 y = true) := by
  obtain ⟨_, hC⟩ := add_outer_pure_spec id1 id2 (mkeys sec) hnd sec hne (fun _ h => h)
  by_cases hxy : x = y
  · subst hxy
    simp [edge_refl]
  by_cases hx : x ∈ mkeys sec
  · obtain ⟨v, hv⟩ := (mem_mkeys_iff sec x).mp hx
    obtain ⟨v', hv', hmem, _⟩ := hC x hx v hv
    have hy2 : edge sec id2 y = true → y ∈ mkeys sec := by
      intro h
      rcases (edge_iff sec id2 y).mp h with h3 | ⟨w, hw, hyw⟩
      · exact h3 ▸ h2
      · exact hclosed id2 w hw y hyw
    rw [edge_iff, edge_iff sec x y]
    simp only [hxy, false_or, hv', hv, Option.some.injEq, exists_eq_left']
    rw [hmem y]
    constructor
    · rintro (h | ⟨h3, _, h5, _⟩)
      · exact Or.inl h
      · exact Or.inr ⟨h3, h5⟩
    · rintro (h | ⟨h3, h5⟩)
      · exact Or.inl h
      · exact Or.inr ⟨h3, hy2 h5, h5, fun h => hxy h.symm⟩
  · have hx' : mfind sec x = none := (not_mem_mkeys_iff sec x).mp hx
    have hx2 : mfind (add_outer_pure id1 id2 (mkeys sec) sec) x = none := by
      apply (not_mem_mkeys_iff _ x).mp
      rw [mkeys_add_outer_pure]
      exact hx
    have hx1 : x ≠ id1 := fun h => hx (h ▸ h1)
    simp [edge_of_not_key _ x _ hx', edge_of_not_key _ x _ hx2, hxy, hx1]

/-! ## The vector loops -/

theorem swap_pop_append (pre : List number) (x : number) (post : List number) :
    ∃ w, swap_pop (pre ++ x :: post) pre.length = pre ++ w ∧ w.Perm post := by
  rcases List.eq_nil_or_concat post with h | ⟨post', l, h⟩
  · subst h
    refine ⟨[], ?_, List.Perm.refl _⟩
    simp [swap_pop]
  · rw [List.concat_eq_append] at h
    subst h
    refine ⟨l :: post', ?_, (List.perm_append_singleton l post').symm⟩
    have hlen : (pre ++ x :: (post' ++ [l])).length - 1 = pre.length + (post'.length + 1) := by
      simp
    have hget : (pre ++ x :: (post' ++ [l])).getD (pre.length + (post'.length + 1)) 0 = l := by
      rw [List.getD_append_right _ _ _ _ (by omega)]
      simp [List.getD_eq_getElem?_getD]
    unfold swap_pop
    rw [hlen, hget, List.set_append_right _ _ (le_refl _)]
    simp only [Nat.sub_self, List.set_cons_zero, List.dropLast_append_cons]
    congr 1
    exact @List.dropLast_concat _ (l :: post') l

theorem getD_append_cons (pre : List number) (x : number) (post : List number) :
    (pre ++ x :: post).getD pre.length 0 = x := by
  rw [List.getD_append_right _ _ _ _ (le_refl _)]
  simp

/-- The loop of `poset_remove` on one vector keeps the part before index `i`
and leaves, in some order, the later elements other than `d`. -/
theorem remove_scan_append (d : number) (fuel : Nat) (pre post : List number)
    (hfuel : post.length ≤ fuel) :
    ∃ w, remove_scan d fuel pre.length (pre ++ post) = pre ++ w ∧
      w.Perm (post.filter (fun y => decide (y ≠ d))) := by
  induction fuel generalizing pre post with
  | zero =>
    have hpost : post = [] := List.length_eq_zero.mp (Nat.le_zero.mp hfuel)
    subst hpost
    exact ⟨[], rfl, List.Perm.refl _⟩
  | succ fuel ih =>
    cases post with
    | nil =>
      refine ⟨[], ?_, List.Perm.refl _⟩
      simp [remove_scan]
    | cons x post' =>
      have hlt : pre.length < (pre ++ x :: post').length := by simp
      have hfuel' : post'.length ≤ fuel := by
        simp only [List.length_cons] at hfuel
        omega
      unfold remove_scan
      simp only [hlt, if_true, getD_append_cons]
      by_cases hx : x = d
      · simp only [hx, if_true]
        obtain ⟨w0, hw0, hperm0⟩ := swap_pop_append pre d post'
        rw [hw0]
        obtain ⟨w, hw, hperm⟩ := ih pre w0 (by rw [hperm0.length_eq]; exact hfuel')
        refine ⟨w, hw, ?_⟩
        refine hperm.trans ?_
        simp only [List.filter_cons, ne_eq, not_true_eq_false, decide_False,
          Bool.false_eq_true, if_false]
        exact hperm0.filter _
      · simp only [hx, if_false]
        have h1 : pre ++ x :: post' = (pre ++ [x]) ++ post' := by simp
        have h2 : pre.length + 1 = (pre ++ [x]).length := by simp
        rw [h1, h2]
        obtain ⟨w, hw, hperm⟩ := ih (pre ++ [x]) post' hfuel'
        refine ⟨x :: w, ?_, ?_⟩
        · rw [hw]
          simp
        · simp only [List.filter_cons, ne_eq, hx, not_false_eq_true, decide_True, if_true]
          exact hperm.cons x

theorem remove_scan_perm (d : number) (v : List number) :
    (remove_scan d v.length 0 v).Perm (v.filter (fun y => decide (y ≠ d))) := by
  obtain ⟨w, hw, hperm⟩ := remove_scan_append d v.length [] v (le_refl _)
  simp only [List.length_nil, List.nil_append] at hw
  rw [hw]
  exact hperm

theorem mem_remove_scan (d : number) (v : List number) (y : number) :
    y ∈ remove_scan d v.length 0 v ↔ y ∈ v ∧ y ≠ d := by
  rw [(remove_scan_perm d v).mem_iff]
  simp

theorem nodup_remove_scan (d : number) (v : List number) (h : v.Nodup) :
    (remove_scan d v.length 0 v).Nodup :=
  (remove_scan_perm d v).nodup_iff.mpr (h.filter _)

theorem find_index_none (id2 : number) (v : List number) (base : Nat) :
    find_index id2 v base = none ↔ id2 ∉ v := by
  induction v generalizing base with
  | nil => simp [find_index]
  | cons e es ih =>
    unfold find_index
    by_cases h : e = id2
    · simp [h]
    · simp only [h, if_false, List.mem_cons, not_or]
      rw [ih]
      exact ⟨fun h1 => ⟨fun h2 => h h2.symm, h1⟩, fun h1 => h1.2⟩

theorem find_index_some (id2 : number) (v : List number) (base j : Nat)
    (h : find_index id2 v base = some j) :
    ∃ pre post, v = pre ++ id2 :: post ∧ j = base + pre.length ∧ id2 ∉ pre := by
  induction v generalizing base with
  | nil => simp [find_index] at h
  | cons e es ih =>
    unfold find_index at h
    by_cases he : e = id2
    · simp only [he, if_true, Option.some.injEq] at h
      exact ⟨[], es, by simp [he], by simp [h], by simp⟩
    · simp only [he, if_false] at h
      obtain ⟨pre, post, h1, h2, h3⟩ := ih _ h
      refine ⟨e :: pre, post, by simp [h1], by simp [h2]; omega, ?_⟩
      simp only [List.mem_cons, not_or]
      exact ⟨fun h4 => he h4.symm, h3⟩

/-- The second loop of `poset_del` followed by the swap and the pop: on a
vector without repetition, exactly `id2` leaves the vector. -/
theorem swap_pop_find_index (id2 : number) (v : List number) (i : Nat) (hnd : v.Nodup)
    (h : find_index id2 v 0 = some i) :
    (∀ y, y ∈ swap_pop v i ↔ y ∈ v ∧ y ≠ id2) ∧ (swap_pop v i).Nodup ∧
      (swap_pop v i).Perm (v.erase id2) := by
  obtain ⟨pre, post, h1, h2, h3⟩ := find_index_some id2 v 0 i h
  simp only [Nat.zero_add] at h2
  subst h1 h2
  obtain ⟨w, hw, hperm⟩ := swap_pop_append pre id2 post
  rw [hw]
  have hperm2 : (pre ++ w).Perm (pre ++ post) := List.Perm.append_left pre hperm
  have herase : (pre ++ id2 :: post).erase id2 = pre ++ post := by
    rw [List.erase_append_right _ h3]
    simp
  have hnd2 : (pre ++ post).Nodup := by
    rw [← herase]
    exact hnd.erase id2
  refine ⟨?_, hperm2.nodup_iff.mpr hnd2, by rw [herase]; exact hperm2⟩
  intro y
  rw [hperm2.mem_iff, ← herase, hnd.mem_erase_iff]
  exact ⟨fun h4 => ⟨h4.2, h4.1⟩, fun h4 => ⟨h4.2, h4.1⟩⟩

/-! ## The invariant is kept by every operation -/

theorem PosetInv_empty : PosetInv poset.empty := by
  refine ⟨by simp [poset.empty, mkeys], by simp [poset.empty, mkeys], ?_, ?_, ?_, ?_, ?_, ?_, ?_⟩
  · intro n1 n2 i h
    simp [poset.empty, mfind] at h
  · intro i
    simp [poset.empty, mkeys, mfind]
  · intro k v h
    simp [poset.empty, mfind] at h
  · intro k v h
    simp [poset.empty, mfind] at h
  · intro k v h
    simp [poset.empty, mfind] at h
  · intro x y z h1 h2
    simp only [poset.empty, edge, mfind] at h1 h2 ⊢
    simp only [Option.getD_none, List.any_nil, Bool.or_false, decide_eq_true_eq] at h1 h2 ⊢
    exact h1.trans h2
  · intro x y h1 _
    simp only [poset.empty, edge, mfind] at h1
    simpa using h1

theorem RegInv_nil : RegInv [] := by
  intro id p h
  simp [mfind] at h

theorem RegInv_set_poset (s : Registry) (id : number) (q : poset)
    (hs : RegInv s) (hq : PosetInv q) : RegInv (set_poset s id q) := by
  intro id' p h
  simp only [set_poset, mfind_mupdate] at h
  by_cases h1 : id = id'
  · simp only [h1, if_true] at h
    cases h2 : mfind s id' with
    | none => simp [h2] at h
    | some p0 =>
      simp only [h2, Option.map_some', Option.some.injEq] at h
      exact h ▸ hq
  · simp only [h1, if_false] at h
    exact hs id' p h

theorem RegInv_minsert (s : Registry) (id : number) (q : poset)
    (hs : RegInv s) (hq : PosetInv q) : RegInv (minsert num_lt id q s) := by
  intro id' p h
  rw [mfind_minsert] at h
  by_cases h1 : id = id'
  · simp only [h1, if_true, Option.some.injEq] at h
    exact h ▸ hq
  · simp only [h1, if_false] at h
    exact hs id' p h

theorem RegInv_merase (s : Registry) (id : number) (hs : RegInv s) :
    RegInv (merase id s) := by
  intro id' p h
  rw [mfind_merase] at h
  by_cases h1 : id = id'
  · simp [h1] at h
  · simp only [h1, if_false] at h
    exact hs id' p h

/-- A new key bound to the empty vector does not change the order. -/
theorem edge_minsert_nil (sec : Map number (List number)) (nid : number)
    (hnid : mfind sec nid = none) (x y : number) :
    edge (minsert num_lt nid [] sec) x y = edge sec x y := by
  unfold edge
  rw [mfind_minsert]
  by_cases h : nid = x
  · subst h
    simp [hnid]
  · simp [h]

theorem PosetInv_insert (p : poset) (name : String) (nid : number) (hp : PosetInv p)
    (hname : mfind p.first name = none) (hnid : mfind p.second nid = none) :
    PosetInv ⟨minsert name_lt name nid p.first, minsert num_lt nid [] p.second⟩ := by
  have hname' : name ∉ mkeys p.first := (not_mem_mkeys_iff _ _).mpr hname
  have hnid' : nid ∉ mkeys p.second := (not_mem_mkeys_iff _ _).mpr hnid
  have hkeys : ∀ i, i ∈ mkeys (minsert num_lt nid ([] : List number) p.second) ↔
      i = nid ∨ i ∈ mkeys p.second := by
    intro i
    rw [(mkeys_minsert_perm num_lt nid [] p.second hnid').mem_iff]
    simp
  refine ⟨?_, ?_, ?_, ?_, ?_, ?_, ?_, ?_, ?_⟩
  · exact (mkeys_minsert_perm name_lt name nid p.first hname').nodup_iff.mpr
      (List.nodup_cons.mpr ⟨hname', hp.names_nodup⟩)
  · exact (mkeys_minsert_perm num_lt nid [] p.second hnid').nodup_iff.mpr
      (List.nodup_cons.mpr ⟨hnid', hp.ids_nodup⟩)
  · intro n1 n2 i h1 h2
    simp only [mfind_minsert] at h1 h2
    by_cases e1 : name = n1 <;> by_cases e2 : name = n2
    · exact e1.symm.trans e2
    · subst e1
      simp only [if_true, Option.some.injEq, e2, if_false] at h1 h2
      subst h1
      exact absurd ((hp.ids_iff nid).mpr ⟨n2, h2⟩) hnid'
    · subst e2
      simp only [e1, if_false, if_true, Option.some.injEq] at h1 h2
      subst h2
      exact absurd ((hp.ids_iff nid).mpr ⟨n1, h1⟩) hnid'
    · simp only [e1, e2, if_false] at h1 h2
      exact hp.inj n1 n2 i h1 h2
  · intro i
    simp only [hkeys, mfind_minsert]
    constructor
    · rintro (h | h)
      · exact ⟨name, by simp [h]⟩
      · obtain ⟨n, hn⟩ := (hp.ids_iff i).mp h
        refine ⟨n, ?_⟩
        have hne : name ≠ n := by
          intro e
          rw [← e, hname] at hn
          cases hn
        simp [hne, hn]
    · rintro ⟨n, hn⟩
      by_cases e : name = n
      · simp only [e, if_true, Option.some.injEq] at hn
        exact Or.inl hn.symm
      · simp only [e, if_false] at hn
        exact Or.inr ((hp.ids_iff i).mpr ⟨n, hn⟩)
  · intro k v hv e he
    simp only [mfind_minsert] at hv
    rw [hkeys]
    by_cases e1 : nid = k
    · simp only [e1, if_true, Option.some.injEq] at hv
      subst hv
      simp at he
    · simp only [e1, if_false] at hv
      exact Or.inr (hp.closed k v hv e he)
  · intro k v hv
    simp only [mfind_minsert] at hv
    by_cases e1 : nid = k
    · simp only [e1, if_true, Option.some.injEq] at hv
      subst hv
      simp
    · simp only [e1, if_false] at hv
      exact hp.irrefl k v hv
  · intro k v hv
    simp only [mfind_minsert] at hv
    by_cases e1 : nid = k
    · simp only [e1, if_true, Option.some.injEq] at hv
      subst hv
      simp
    · simp only [e1, if_false] at hv
      exact hp.vec_nodup k v hv
  · intro x y z
    simp only [edge_minsert_nil _ _ hnid]
    exact hp.trans x y z
  · intro x y
    simp only [edge_minsert_nil _ _ hnid]
    exact hp.antisymm x y

theorem mfind_purge (d : number) (sec : Map number (List number)) (k : number) :
    mfind ((merase d sec).map (fun e => (e.1, remove_scan d e.2.length 0 e.2))) k =
      if d = k then none else (mfind sec k).map (fun v => remove_scan d v.length 0 v) := by
  rw [mfind_map_snd (fun e => remove_scan d e.2.length 0 e.2), mfind_merase]
  by_cases h : d = k <;> simp [h]

theorem mkeys_purge (d : number) (sec : Map number (List number)) :
    mkeys ((merase d sec).map (fun e => (e.1, remove_scan d e.2.length 0 e.2))) =
      (mkeys sec).filter (fun x => decide (x ≠ d)) := by
  rw [mkeys_map_snd (fun e => remove_scan d e.2.length 0 e.2), mkeys_merase]

/-- The order after `poset_remove` of the element of id `d`. -/
theorem edge_purge (d : number) (sec : Map number (List number)) (x y : number) :
    edge ((merase d sec).map (fun e => (e.1, remove_scan d e.2.length 0 e.2))) x y = true ↔
      x = y ∨ (x ≠ d ∧ y ≠ d ∧ edge sec x y = true) := by
  rw [edge_iff, edge_iff, mfind_purge]
  by_cases hxy : x = y
  · simp [hxy]
  by_cases hd : d = x
  · subst hd
    simp [hxy]
  · have hd' : x ≠ d := fun h => hd h.symm
    simp only [hxy, false_or, hd, if_false, hd', ne_eq, not_false_eq_true, true_and]
    cases h : mfind sec x with
    | none => simp
    | some v =>
      simp only [Option.map_some', Option.some.injEq, exists_eq_left', mem_remove_scan]
      exact ⟨fun h1 => ⟨h1.2, h1.1⟩, fun h1 => ⟨h1.2, h1.1⟩⟩

theorem PosetInv_remove (p : poset) (name : String) (d : number) (hp : PosetInv p)
    (hname : mfind p.first name = some d) :
    PosetInv ⟨merase name p.first,
      (merase d p.second).map (fun e => (e.1, remove_scan d e.2.length 0 e.2))⟩ := by
  have hkeys : ∀ i, i ∈ mkeys ((merase d p.second).map
      (fun e => (e.1, remove_scan d e.2.length 0 e.2))) ↔ i ∈ mkeys p.second ∧ i ≠ d := by
    intro i
    rw [mkeys_purge]
    simp
  refine ⟨?_, ?_, ?_, ?_, ?_, ?_, ?_, ?_, ?_⟩
  · show (mkeys (merase name p.first)).Nodup
    rw [mkeys_merase]
    exact hp.names_nodup.filter _
  · show (mkeys ((merase d p.second).map _)).Nodup
    rw [mkeys_purge]
    exact hp.ids_nodup.filter _
  · intro n1 n2 i h1 h2
    simp only [mfind_merase] at h1 h2
    by_cases e1 : name = n1
    · simp [e1] at h1
    by_cases e2 : name = n2
    · simp [e2] at h2
    simp only [e1, e2, if_false] at h1 h2
    exact hp.inj n1 n2 i h1 h2
  · intro i
    simp only [hkeys, mfind_merase]
    constructor
    · rintro ⟨h1, h2⟩
      obtain ⟨n, hn⟩ := (hp.ids_iff i).mp h1
      refine ⟨n, ?_⟩
      have hne : name ≠ n := by
        intro e
        rw [← e, hname] at hn
        exact h2 (Option.some.inj hn).symm
      simp [hne, hn]
    · rintro ⟨n, hn⟩
      by_cases e : name = n
      · simp [e] at hn
      · simp only [e, if_false] at hn
        refine ⟨(hp.ids_iff i).mpr ⟨n, hn⟩, ?_⟩
        intro hid
        subst hid
        exact e (hp.inj name n i hname hn)
  · intro k v hv e he
    simp only [mfind_purge] at hv
    rw [hkeys]
    by_cases e1 : d = k
    · simp [e1] at hv
    · simp only [e1, if_false] at hv
      cases h : mfind p.second k with
      | none => simp [h] at hv
      | some v0 =>
        simp only [h, Option.map_some', Option.some.injEq] at hv
        subst hv
        rw [mem_remove_scan] at he
        exact ⟨hp.closed k v0 h e he.1, he.2⟩
  · intro k v hv
    simp only [mfind_purge] at hv
    by_cases e1 : d = k
    · simp [e1] at hv
    · simp only [e1, if_false] at hv
      cases h : mfind p.second k with
      | none => simp [h] at hv
      | some v0 =>
        simp only [h, Option.map_some', Option.some.injEq] at hv
        subst hv
        rw [mem_remove_scan]
        exact fun h1 => hp.irrefl k v0 h h1.1
  · intro k v hv
    simp only [mfind_purge] at hv
    by_cases e1 : d = k
    · simp [e1] at hv
    · simp only [e1, if_false] at hv
      cases h : mfind p.second k with
      | none => simp [h] at hv
      | some v0 =>
        simp only [h, Option.map_some', Option.some.injEq] at hv
        subst hv
        exact nodup_remove_scan d v0 (hp.vec_nodup k v0 h)
  · intro x y z h1 h2
    rw [edge_purge] at h1 h2 ⊢
    rcases h1 with h1 | ⟨hx, hy, h1⟩
    · subst h1
      exact h2
    · rcases h2 with h2 | ⟨_, hz, h2⟩
      · subst h2
        exact Or.inr ⟨hx, hy, h1⟩
      · exact Or.inr ⟨hx, hz, hp.trans x y z h1 h2⟩
  · intro x y h1 h2
    rw [edge_purge] at h1 h2
    rcases h1 with h1 | ⟨_, _, h1⟩
    · exact h1
    · rcases h2 with h2 | ⟨_, _, h2⟩
      · exact h2.symm
      · exact hp.antisymm x y h1 h2

theorem PosetInv_add (p : poset) (id1 id2 : number) (hp : PosetInv p)
    (h1 : id1 ∈ mkeys p.second) (h2 : id2 ∈ mkeys p.second)
    (hne : edge p.second id2 id1 = false) :
    PosetInv ⟨p.first, add_outer_pure id1 id2 (mkeys p.second) p.second⟩ := by
  obtain ⟨_, hC⟩ := add_outer_pure_spec id1 id2 (mkeys p.second) hp.ids_nodup p.second hne
    (fun _ h => h)
  have hkeys := mkeys_add_outer_pure id1 id2 (mkeys p.second) p.second
  have hedge := edge_add_outer_pure id1 id2 p.second hp.ids_nodup hne h1 h2 hp.closed
  have hvec : ∀ k v', mfind (add_outer_pure id1 id2 (mkeys p.second) p.second) k = some v' →
      ∃ v, mfind p.second k = some v ∧
        (∀ y, y ∈ v' ↔ y ∈ v ∨ (edge p.second k id1 = true ∧ y ∈ mkeys p.second ∧
          edge p.second id2 y = true ∧ y ≠ k)) ∧ (v.Nodup → v'.Nodup) := by
    intro k v' hv'
    have hk : k ∈ mkeys p.second := by
      rw [← hkeys]
      exact (mem_mkeys_iff _ _).mpr ⟨v', hv'⟩
    obtain ⟨v, hv⟩ := (mem_mkeys_iff _ _).mp hk
    obtain ⟨w, hw, hmem, hnd⟩ := hC k hk v hv
    rw [hv'] at hw
    cases hw
    exact ⟨v, hv, hmem, hnd⟩
  have hno : ∀ x, edge p.second x id1 = true → edge p.second id2 x = true → False := by
    intro x hx1 hx2
    rw [hp.trans id2 x id1 hx2 hx1] at hne
    cases hne
  refine ⟨hp.names_nodup, ?_, hp.inj, ?_, ?_, ?_, ?_, ?_, ?_⟩
  · show (mkeys (add_outer_pure id1 id2 (mkeys p.second) p.second)).Nodup
    rw [hkeys]
    exact hp.ids_nodup
  · intro i
    show i ∈ mkeys (add_outer_pure id1 id2 (mkeys p.second) p.second) ↔ _
    rw [hkeys]
    exact hp.ids_iff i
  · intro k v' hv' e he
    show e ∈ mkeys (add_outer_pure id1 id2 (mkeys p.second) p.second)
    rw [hkeys]
    obtain ⟨v, hv, hmem, _⟩ := hvec k v' hv'
    rcases (hmem e).mp he with h | ⟨_, h, _, _⟩
    · exact hp.closed k v hv e h
    · exact h
  · intro k v' hv' hk
    obtain ⟨v, hv, hmem, _⟩ := hvec k v' hv'
    rcases (hmem k).mp hk with h | ⟨_, _, _, h⟩
    · exact hp.irrefl k v hv h
    · exact h rfl
  · intro k v' hv'
    obtain ⟨v, hv, _, hnd⟩ := hvec k v' hv'
    exact hnd (hp.vec_nodup k v hv)
  · intro x y z hxy hyz
    show edge (add_outer_pure id1 id2 (mkeys p.second) p.second) x z = true
    rw [hedge] at hxy hyz ⊢
    rcases hxy with hxy | ⟨hx1, h2y⟩
    · rcases hyz with hyz | ⟨hy1, h2z⟩
      · exact Or.inl (hp.trans x y z hxy hyz)
      · exact Or.inr ⟨hp.trans x y id1 hxy hy1, h2z⟩
    · rcases hyz with hyz | ⟨hy1, _⟩
      · exact Or.inr ⟨hx1, hp.trans id2 y z h2y hyz⟩
      · exact (hno y hy1 h2y).elim
  · intro x y hxy hyx
    rw [hedge] at hxy hyx
    rcases hxy with hxy | ⟨hx1, h2y⟩
    · rcases hyx with hyx | ⟨hy1, h2x⟩
      · exact hp.antisymm x y hxy hyx
      · exact (hno x (hp.trans x y id1 hxy hy1) h2x).elim
    · rcases hyx with hyx | ⟨hy1, _⟩
      · exact (hno y (hp.trans y x id1 hyx hx1) h2y).elim
      · exact (hno y hy1 h2y).elim

/-- The order after the removal of `id2` from the vector of `id1`. -/
theorem edge_del (sec : Map number (List number)) (id1 id2 : number) (v : List number)
    (i : Nat) (hv : mfind sec id1 = some v) (hnd : v.Nodup) (hne : id1 ≠ id2)
    (hi : find_index id2 v 0 = some i) (x y : number) :
    edge (mupdate id1 (fun w => swap_pop w i) sec) x y = true ↔
      edge sec x y = true ∧ ¬ (x = id1 ∧ y = id2) := by
  obtain ⟨hmem, _, _⟩ := swap_pop_find_index id2 v i hnd hi
  rw [edge_iff, edge_iff, mfind_mupdate]
  by_cases hx : id1 = x
  · subst hx
    simp only [if_true, hv, Option.map_some', Option.some.injEq, exists_eq_left', hmem,
      true_and]
    constructor
    · rintro (h | ⟨h1, h2⟩)
      · exact ⟨Or.inl h, fun h3 => hne (h.trans h3)⟩
      · exact ⟨Or.inr h1, h2⟩
    · rintro ⟨h | h, h2⟩
      · exact Or.inl h
      · exact Or.inr ⟨h, h2⟩
  · have hx' : ¬ x = id1 := fun h => hx h.symm
    simp [hx, hx']

theorem PosetInv_del (p : poset) (id1 id2 : number) (v : List number) (i : Nat)
    (hp : PosetInv p) (hv : mfind p.second id1 = some v) (hne : id1 ≠ id2)
    (hi : find_index id2 v 0 = some i)
    (hmid : ∀ e ∈ v, e ≠ id2 → edge p.second e id2 = false) :
    PosetInv ⟨p.first, mupdate id1 (fun w => swap_pop w i) p.second⟩ := by
  have hnd := hp.vec_nodup id1 v hv
  obtain ⟨hmem, hnd', _⟩ := swap_pop_find_index id2 v i hnd hi
  have hedge := edge_del p.second id1 id2 v i hv hnd hne hi
  have hkeys := mkeys_mupdate id1 (fun w => swap_pop w i) p.second
  have hvec : ∀ k v', mfind (mupdate id1 (fun w => swap_pop w i) p.second) k = some v' →
      ∃ v0, mfind p.second k = some v0 ∧ (∀ y, y ∈ v' → y ∈ v0) ∧ v'.Nodup := by
    intro k v' hv'
    rw [mfind_mupdate] at hv'
    by_cases hk : id1 = k
    · subst hk
      simp only [if_true, hv, Option.map_some', Option.some.injEq] at hv'
      subst hv'
      exact ⟨v, hv, fun y hy => ((hmem y).mp hy).1, hnd'⟩
    · simp only [hk, if_false] at hv'
      exact ⟨v', hv', fun _ h => h, hp.vec_nodup k v' hv'⟩
  refine ⟨hp.names_nodup, ?_, hp.inj, ?_, ?_, ?_, ?_, ?_, ?_⟩
  · show (mkeys (mupdate id1 (fun w => swap_pop w i) p.second)).Nodup
    rw [hkeys]
    exact hp.ids_nodup
  · intro j
    show j ∈ mkeys (mupdate id1 (fun w => swap_pop w i) p.second) ↔ _
    rw [hkeys]
    exact hp.ids_iff j
  · intro k v' hv' e he
    show e ∈ mkeys (mupdate id1 (fun w => swap_pop w i) p.second)
    rw [hkeys]
    obtain ⟨v0, hv0, hsub, _⟩ := hvec k v' hv'
    exact hp.closed k v0 hv0 e (hsub e he)
  · intro k v' hv' hk
    obtain ⟨v0, hv0, hsub, _⟩ := hvec k v' hv'
    exact hp.irrefl k v0 hv0 (hsub k hk)
  · intro k v' hv'
    obtain ⟨_, _, _, h⟩ := hvec k v' hv'
    exact h
  · intro x y z hxy hyz
    show edge (mupdate id1 (fun w => swap_pop w i) p.second) x z = true
    rw [hedge] at hxy hyz ⊢
    refine ⟨hp.trans x y z hxy.1 hyz.1, ?_⟩
    rintro ⟨hx, hz⟩
    subst hx hz
    have hy1 : y ≠ x := fun h => hyz.2 ⟨h, rfl⟩
    have hy2 : y ≠ z := fun h => hxy.2 ⟨rfl, h⟩
    rcases (edge_iff p.second x y).mp hxy.1 with h | ⟨w, hw, hyw⟩
    · exact hy1 h.symm
    · rw [hv] at hw
      cases hw
      have := hmid y hyw hy2
      rw [hyz.1] at this
      cases this
  · intro x y hxy hyx
    rw [hedge] at hxy hyx
    exact hp.antisymm x y hxy.1 hyx.1

/-! ## The public functions on a registry that satisfies the invariant -/

theorem del_scan_live (id id2 : number) (vec : List number) (s : Registry) (p : poset)
    (hp : mfind s id = some p) (hvec : ∀ e ∈ vec, e ∈ mkeys p.second) :
    del_scan id id2 vec s =
      (vec.any (fun e => decide (e ≠ id2) && edge p.second e id2), s) := by
  induction vec with
  | nil => rfl
  | cons e es ih =>
    have he : e ∈ mkeys p.second := hvec e (List.mem_cons_self _ _)
    have hes : ∀ x ∈ es, x ∈ mkeys p.second := fun x hx => hvec x (List.mem_cons_of_mem _ hx)
    unfold del_scan
    by_cases h1 : e = id2
    · simp [h1, ih hes]
    · simp only [ne_eq, h1, not_false_eq_true, if_true]
      rw [exists_edge_live s id e id2 p hp (Or.inr he)]
      by_cases h2 : edge p.second e id2 = true
      · simp [h2, h1]
      · simp [h2, h1, ih hes]

theorem vector_at_live (s : Registry) (id id1 : number) (p : poset) (v : List number)
    (hp : mfind s id = some p) (hv : mfind p.second id1 = some v) :
    vector_at s id id1 = v := by
  simp [vector_at, hp, hv]

/-- The function `poset_add` on a live poset that satisfies the invariant. -/
theorem poset_add_live (s : Registry) (id : number) (n1 n2 : String) (p : poset)
    (id1 id2 : number) (hp : mfind s id = some p) (hinv : PosetInv p)
    (hn1 : mfind p.first n1 = some id1) (hn2 : mfind p.first n2 = some id2) :
    poset_add s id (some n1) (some n2) =
      if edge p.second id2 id1 = true ∨ edge p.second id1 id2 = true then (false, s)
      else (true, set_poset s id
        ⟨p.first, add_outer_pure id1 id2 (mkeys p.second) p.second⟩) := by
  have h1 : id1 ∈ mkeys p.second := (hinv.ids_iff id1).mpr ⟨n1, hn1⟩
  have h2 : id2 ∈ mkeys p.second := (hinv.ids_iff id2).mpr ⟨n2, hn2⟩
  simp only [poset_add, hp, hn1, hn2]
  rw [exists_edge_live s id id2 id1 p hp (Or.inr h2)]
  simp only
  rw [exists_edge_live s id id1 id2 p hp (Or.inr h1)]
  by_cases e1 : edge p.second id2 id1 = true
  · simp [e1]
  · by_cases e2 : edge p.second id1 id2 = true
    · simp [e1, e2]
    · simp only [e1, e2, Bool.false_eq_true, if_false, or_self]
      rw [second_keys_live s id p hp, add_outer_live id id1 id2 _ s p hp h2 (fun _ h => h)]

/-- The function `poset_del` on a live poset that satisfies the invariant. -/
theorem poset_del_live (s : Registry) (id : number) (n1 n2 : String) (p : poset)
    (id1 id2 : number) (v : List number) (hp : mfind s id = some p) (hinv : PosetInv p)
    (hn1 : mfind p.first n1 = some id1) (hn2 : mfind p.first n2 = some id2)
    (hv : mfind p.second id1 = some v) :
    poset_del s id (some n1) (some n2) =
      if id1 ≠ id2 ∧ edge p.second id1 id2 = true ∧
          v.any (fun e => decide (e ≠ id2) && edge p.second e id2) = false then
        match find_index id2 v 0 with
        | some i => some (true, set_poset s id
            ⟨p.first, mupdate id1 (fun w => swap_pop w i) p.second⟩)
        | none => none
      else some (false, s) := by
  have h1 : id1 ∈ mkeys p.second := (hinv.ids_iff id1).mpr ⟨n1, hn1⟩
  simp only [poset_del, hp, hn1, hn2]
  by_cases e0 : id1 = id2
  · simp [e0]
  simp only [e0, if_false]
  rw [exists_edge_live s id id1 id2 p hp (Or.inr h1)]
  simp only
  by_cases e1 : edge p.second id1 id2 = true
  · simp only [e1, Bool.not_true, Bool.false_eq_true, if_false]
    rw [vector_at_live s id id1 p v hp hv, del_scan_live id id2 v s p hp (hinv.closed id1 v hv)]
    simp only
    cases e2 : v.any (fun e => decide (e ≠ id2) && edge p.second e id2) with
    | true => simp
    | false =>
      simp only [Bool.false_eq_true, if_false, ne_eq, e0, not_false_eq_true, and_self, if_true]
      rw [vector_at_live s id id1 p v hp hv]
      cases find_index id2 v 0 with
      | none => rfl
      | some i =>
        simp only
        rw [mupdate_eq_set_poset s id _ p hp]
  · simp [e1]

theorem find_index_of_edge (sec : Map number (List number)) (id1 id2 : number)
    (v : List number) (hv : mfind sec id1 = some v) (hne : id1 ≠ id2)
    (he : edge sec id1 id2 = true) : ∃ i, find_index id2 v 0 = some i := by
  rcases (edge_iff sec id1 id2).mp he with h | ⟨w, hw, h⟩
  · exact absurd h hne
  · rw [hv] at hw
    cases hw
    cases hi : find_index id2 v 0 with
    | none => exact absurd h ((find_index_none id2 v 0).mp hi)
    | some i => exact ⟨i, rfl⟩

theorem not_any_mid (sec : Map number (List number)) (id2 : number) (v : List number)
    (h : v.any (fun e => decide (e ≠ id2) && edge sec e id2) = false) :
    ∀ e ∈ v, e ≠ id2 → edge sec e id2 = false := by
  intro e he hne
  cases h1 : edge sec e id2
  · rfl
  · have h2 : v.any (fun e => decide (e ≠ id2) && edge sec e id2) = true := by
      rw [List.any_eq_true]
      exact ⟨e, he, by simp [hne, h1]⟩
    rw [h] at h2
    cases h2

/-- The function `poset_test` on a live poset that satisfies the invariant. -/
theorem poset_test_live (s : Registry) (id : number) (n1 n2 : String) (p : poset)
    (id1 id2 : number) (hp : mfind s id = some p) (hinv : PosetInv p)
    (hn1 : mfind p.first n1 = some id1) (hn2 : mfind p.first n2 = some id2) :
    poset_test s id (some n1) (some n2) = (edge p.second id1 id2, s) := by
  have h1 : id1 ∈ mkeys p.second := (hinv.ids_iff id1).mpr ⟨n1, hn1⟩
  simp only [poset_test, hp, hn1, hn2]
  exact exists_edge_live s id id1 id2 p hp (Or.inr h1)

/-- The function `poset_test` writes nothing when the invariant holds. -/
theorem poset_test_snd (s : Registry) (hs : RegInv s) (id : number)
    (value1 value2 : Option String) : (poset_test s id value1 value2).2 = s := by
  cases value1 with
  | none => simp [poset_test]
  | some n1 =>
    cases value2 with
    | none => simp [poset_test]
    | some n2 =>
      cases hp : mfind s id with
      | none => simp [poset_test, hp]
      | some p =>
        cases hn1 : mfind p.first n1 with
        | none => simp [poset_test, hp, hn1]
        | some id1 =>
          cases hn2 : mfind p.first n2 with
          | none => simp [poset_test, hp, hn1, hn2]
          | some id2 => rw [poset_test_live s id n1 n2 p id1 id2 hp (hs id p hp) hn1 hn2]

/-- The value of `poset_test`: the names are bound in a live poset and the id
of the first is below the id of the second. -/
theorem poset_test_true_iff (s : Registry) (hs : RegInv s) (id : number)
    (value1 value2 : Option String) :
    (poset_test s id value1 value2).1 = true ↔
      ∃ p n1 n2 id1 id2, mfind s id = some p ∧ value1 = some n1 ∧ value2 = some n2 ∧
        mfind p.first n1 = some id1 ∧ mfind p.first n2 = some id2 ∧
        edge p.second id1 id2 = true := by
  cases value1 with
  | none => simp [poset_test]
  | some n1 =>
    cases value2 with
    | none => simp [poset_test]
    | some n2 =>
      cases hp : mfind s id with
      | none => simp [poset_test, hp]
      | some p =>
        cases hn1 : mfind p.first n1 with
        | none => simp [poset_test, hp, hn1]
        | some id1 =>
          cases hn2 : mfind p.first n2 with
          | none => simp [poset_test, hp, hn1, hn2]
          | some id2 =>
            rw [poset_test_live s id n1 n2 p id1 id2 hp (hs id p hp) hn1 hn2]
            simp [hn1, hn2]

theorem RegInv_poset_add (s : Registry) (hs : RegInv s) (id : number)
    (value1 value2 : Option String) : RegInv (poset_add s id value1 value2).2 := by
  cases value1 with
  | none => simpa [poset_add] using hs
  | some n1 =>
    cases value2 with
    | none => simpa [poset_add] using hs
    | some n2 =>
      cases hp : mfind s id with
      | none => simpa [poset_add, hp] using hs
      | some p =>
        cases hn1 : mfind p.first n1 with
        | none => simpa [poset_add, hp, hn1] using hs
        | some id1 =>
          cases hn2 : mfind p.first n2 with
          | none => simpa [poset_add, hp, hn1, hn2] using hs
          | some id2 =>
            have hinv := hs id p hp
            rw [poset_add_live s id n1 n2 p id1 id2 hp hinv hn1 hn2]
            by_cases e : edge p.second id2 id1 = true ∨ edge p.second id1 id2 = true
            · simpa [e] using hs
            · simp only [e, if_false]
              have e1 : edge p.second id2 id1 = false := by
                cases h : edge p.second id2 id1
                · rfl
                · exact absurd (Or.inl h) e
              exact RegInv_set_poset s id _ hs (PosetInv_add p id1 id2 hinv
                ((hinv.ids_iff id1).mpr ⟨n1, hn1⟩) ((hinv.ids_iff id2).mpr ⟨n2, hn2⟩) e1)

theorem RegInv_poset_del (s : Registry) (hs : RegInv s) (id : number)
    (value1 value2 : Option String) (r : Bool × Registry)
    (h : poset_del s id value1 value2 = some r) : RegInv r.2 := by
  cases value1 with
  | none =>
    simp only [poset_del, Option.some.injEq] at h
    exact h ▸ hs
  | some n1 =>
    cases value2 with
    | none =>
      simp only [poset_del, Option.some.injEq] at h
      exact h ▸ hs
    | some n2 =>
      cases hp : mfind s id with
      | none =>
        simp only [poset_del, hp, Option.some.injEq] at h
        exact h ▸ hs
      | some p =>
        cases hn1 : mfind p.first n1 with
        | none =>
          simp only [poset_del, hp, hn1, Option.some.injEq] at h
          exact h ▸ hs
        | some id1 =>
          cases hn2 : mfind p.first n2 with
          | none =>
            simp only [poset_del, hp, hn1, hn2, Option.some.injEq] at h
            exact h ▸ hs
          | some id2 =>
            have hinv := hs id p hp
            obtain ⟨v, hv⟩ := (mem_mkeys_iff _ _).mp ((hinv.ids_iff id1).mpr ⟨n1, hn1⟩)
            rw [poset_del_live s id n1 n2 p id1 id2 v hp hinv hn1 hn2 hv] at h
            by_cases e : id1 ≠ id2 ∧ edge p.second id1 id2 = true ∧
                v.any (fun e => decide (e ≠ id2) && edge p.second e id2) = false
            · rw [if_pos e] at h
              cases hi : find_index id2 v 0 with
              | none => simp [hi] at h
              | some i =>
                simp only [hi, Option.some.injEq] at h
                subst h
                exact RegInv_set_poset s id _ hs
                  (PosetInv_del p id1 id2 v i hinv hv e.1 hi (not_any_mid _ _ _ e.2.2))
            · rw [if_neg e, Option.some.injEq] at h
              exact h ▸ hs

theorem RegInv_poset_insert (s : Registry) (hs : RegInv s) (id : number)
    (value : Option String) (r0 : number) (r : Bool × Registry)
    (h : poset_insert s id value r0 = some r) : RegInv r.2 := by
  cases value with
  | none =>
    simp only [poset_insert, Option.some.injEq] at h
    exact h ▸ hs
  | some name =>
    cases hp : mfind s id with
    | none =>
      simp only [poset_insert, hp, Option.some.injEq] at h
      exact h ▸ hs
    | some p =>
      cases hn : mfind p.first name with
      | some i =>
        simp only [poset_insert, hp, hn, Option.isSome_some, if_true, Option.some.injEq] at h
        exact h ▸ hs
      | none =>
        simp only [poset_insert, hp, hn, Option.isSome_none, Bool.false_eq_true, if_false] at h
        cases hpr : probe p.second (p.second.length + 1) (r0 % WORD) with
        | none => simp [hpr] at h
        | some nid =>
          simp only [hpr, Option.some.injEq] at h
          subst h
          simp only
          rw [mupdate_eq_set_poset s id _ p hp]
          exact RegInv_set_poset s id _ hs
            (PosetInv_insert p name nid (hs id p hp) hn (probe_free _ _ _ _ hpr))

theorem RegInv_poset_remove (s : Registry) (hs : RegInv s) (id : number)
    (value : Option String) : RegInv (poset_remove s id value).2 := by
  cases value with
  | none => simpa [poset_remove] using hs
  | some name =>
    cases hp : mfind s id with
    | none => simpa [poset_remove, hp] using hs
    | some p =>
      cases hn : mfind p.first name with
      | none => simpa [poset_remove, hp, hn] using hs
      | some d =>
        simp only [poset_remove, hp, hn]
        rw [mupdate_eq_set_poset s id _ p hp]
        exact RegInv_set_poset s id _ hs (PosetInv_remove p name d (hs id p hp) hn)

theorem RegInv_step (s s' : Registry) (op : Op) (hs : RegInv s)
    (h : step s op = some s') : RegInv s' := by
  cases op with
  | new r =>
    simp only [step, poset_new] at h
    cases hpr : probe s (s.length + 1) (r % WORD) with
    | none => simp [hpr] at h
    | some nid =>
      simp only [hpr, Option.map_some', Option.some.injEq] at h
      subst h
      exact RegInv_minsert s nid _ hs PosetInv_empty
  | delete id =>
    simp only [step, poset_delete, Option.some.injEq] at h
    subst h
    exact RegInv_merase s id hs
  | size id =>
    simp only [step, Option.some.injEq] at h
    exact h ▸ hs
  | insert id value r =>
    simp only [step] at h
    cases hr : poset_insert s id value r with
    | none => simp [hr] at h
    | some res =>
      simp only [hr, Option.map_some', Option.some.injEq] at h
      subst h
      exact RegInv_poset_insert s hs id value r res hr
  | remove id value =>
    simp only [step, Option.some.injEq] at h
    subst h
    exact RegInv_poset_remove s hs id value
  | add id value1 value2 =>
    simp only [step, Option.some.injEq] at h
    subst h
    exact RegInv_poset_add s hs id value1 value2
  | del id value1 value2 =>
    simp only [step] at h
    cases hr : poset_del s id value1 value2 with
    | none => simp [hr] at h
    | some res =>
      simp only [hr, Option.map_some', Option.some.injEq] at h
      subst h
      exact RegInv_poset_del s hs id value1 value2 res hr
  | test id value1 value2 =>
    simp only [step, Option.some.injEq] at h
    subst h
    rw [poset_test_snd s hs]
    exact hs
  | clear id =>
    simp only [step, poset_clear, Option.some.injEq] at h
    subst h
    cases hp : mfind s id with
    | none => simpa [hp] using hs
    | some p =>
      simp only [hp]
      exact RegInv_set_poset s id _ hs PosetInv_empty

/-- Every reachable registry satisfies the invariant. -/
theorem Reachable_inv (s : Registry) (h : Reachable s) : RegInv s := by
  induction h with
  | init => exact RegInv_nil
  | step op _ hstep ih => exact RegInv_step _ _ op ih hstep

theorem Reachable_run (s s' : Registry) (ops : List Op) (hs : Reachable s)
    (h : run s ops = some s') : Reachable s' := by
  induction ops generalizing s with
  | nil =>
    simp only [run, Option.some.injEq] at h
    exact h ▸ hs
  | cons op ops ih =>
    simp only [run] at h
    cases hst : step s op with
    | none => simp [hst] at h
    | some s1 =>
      simp only [hst, Option.some_bind] at h
      exact ih s1 (Reachable.step op hs hst) h

/-- The value of `poset_test` on a live poset that satisfies the invariant, in
terms of the ids bound to the two names. -/
theorem poset_test_fst (s : Registry) (id : number) (p : poset) (hp : mfind s id = some p)
    (hinv : PosetInv p) (x y : Option String) :
    (poset_test s id x y).1 =
      match x.bind (mfind p.first), y.bind (mfind p.first) with
      | some i, some j => edge p.second i j
      | _, _ => false := by
  cases x with
  | none => simp [poset_test]
  | some n1 =>
    cases y with
    | none =>
      simp only [poset_test, Option.bind]
      split <;> simp_all
    | some n2 =>
      cases hn1 : mfind p.first n1 with
      | none => simp [poset_test, hp, hn1]
      | some id1 =>
        cases hn2 : mfind p.first n2 with
        | none => simp [poset_test, hp, hn1, hn2]
        | some id2 =>
          rw [poset_test_live s id n1 n2 p id1 id2 hp hinv hn1 hn2]
          simp [hn1, hn2]

theorem poset_test_dead (s : Registry) (id : number) (hp : mfind s id = none)
    (x y : Option String) : (poset_test s id x y).1 = false := by
  cases x with
  | none => simp [poset_test]
  | some n1 =>
    cases y with
    | none => simp [poset_test]
    | some n2 => simp [poset_test, hp]

/-- C1: Transitivity holds in every reachable registry: for every handle and
all names `x`, `y`, `z`, if `poset_test(x, y)` and `poset_test(y, z)` are true
then `poset_test(x, z)` is true. The registries reached by a successful
`poset_del` or `poset_remove` are reachable, so it holds after them too. -/
theorem C1_transitivity (s : Registry) (hs : Reachable s) (h : number)
    (x y z : Option String) (hxy : (poset_test s h x y).1 = true)
    (hyz : (poset_test s h y z).1 = true) : (poset_test s h x z).1 = true := by
  cases hp : mfind s h with
  | none =>
    rw [poset_test_dead s h hp] at hxy
    cases hxy
  | some p =>
    have hinv := Reachable_inv s hs h p hp
    rw [poset_test_fst s h p hp hinv] at hxy hyz ⊢
    cases hx : x.bind (mfind p.first) with
    | none => simp [hx] at hxy
    | some i =>
      cases hy : y.bind (mfind p.first) with
      | none => simp [hx, hy] at hxy
      | some j =>
        cases hz : z.bind (mfind p.first) with
        | none => simp [hy, hz] at hyz
        | some k =>
          simp only [hx, hy, hz] at hxy hyz ⊢
          exact hinv.trans i j k hxy hyz

theorem sample_state_run : run [] sample_ops = some sample_state := by decide

theorem sample_state_reachable : Reachable sample_state :=
  Reachable_run [] sample_state sample_ops Reachable.init sample_state_run

/-- Witness of C1 on the sample run: `a ≤ b` and `b ≤ c` give `a ≤ c`. -/
theorem C1_transitivity_witness :
    Reachable sample_state ∧
      (poset_test sample_state 7 (some "a") (some "b")).1 = true ∧
      (poset_test sample_state 7 (some "b") (some "c")).1 = true ∧
      (poset_test sample_state 7 (some "a") (some "c")).1 = true :=
  ⟨sample_state_reachable, by decide, by decide,
    C1_transitivity sample_state sample_state_reachable 7 (some "a") (some "b") (some "c")
      (by decide) (by decide)⟩

/-- The two outcomes of `poset_add` when the invariant holds: either both names
are bound in a live poset to unrelated ids and the loops run, or the call
returns `false` on the registry it was given. -/
theorem poset_add_cases (s : Registry) (hs : RegInv s) (h : number) (a b : Option String) :
    (∃ p n1 n2 id1 id2, mfind s h = some p ∧ a = some n1 ∧ b = some n2 ∧
        mfind p.first n1 = some id1 ∧ mfind p.first n2 = some id2 ∧
        edge p.second id2 id1 = false ∧ edge p.second id1 id2 = false ∧
        poset_add s h a b = (true, set_poset s h
          ⟨p.first, add_outer_pure id1 id2 (mkeys p.second) p.second⟩)) ∨
    (poset_add s h a b = (false, s) ∧
      ¬ ∃ p n1 n2 id1 id2, mfind s h = some p ∧ a = some n1 ∧ b = some n2 ∧
        mfind p.first n1 = some id1 ∧ mfind p.first n2 = some id2 ∧
        edge p.second id2 id1 = false ∧ edge p.second id1 id2 = false) := by
  cases a with
  | none => exact Or.inr ⟨by simp [poset_add], by simp⟩
  | some n1 =>
    cases b with
    | none => exact Or.inr ⟨by simp [poset_add], by simp⟩
    | some n2 =>
      cases hp : mfind s h with
      | none => exact Or.inr ⟨by simp [poset_add, hp], by simp⟩
      | some p =>
        cases hn1 : mfind p.first n1 with
        | none => exact Or.inr ⟨by simp [poset_add, hp, hn1], by simp [hn1]⟩
        | some id1 =>
          cases hn2 : mfind p.first n2 with
          | none => exact Or.inr ⟨by simp [poset_add, hp, hn1, hn2], by simp [hn2]⟩
          | some id2 =>
            have hlive := poset_add_live s h n1 n2 p id1 id2 hp (hs h p hp) hn1 hn2
            by_cases e : edge p.second id2 id1 = true ∨ edge p.second id1 id2 = true
            · rw [if_pos e] at hlive
              refine Or.inr ⟨hlive, ?_⟩
              rintro ⟨p', m1, m2, j1, j2, h1, h2, h3, h4, h5, h6, h7⟩
              cases h1
              cases h2
              cases h3
              rw [hn1] at h4
              rw [hn2] at h5
              cases h4
              cases h5
              rcases e with e | e
              · rw [e] at h6
                cases h6
              · rw [e] at h7
                cases h7
            · rw [if_neg e] at hlive
              have e1 : edge p.second id2 id1 = false := by
                cases h1 : edge p.second id2 id1
                · rfl
                · exact absurd (Or.inl h1) e
              have e2 : edge p.second id1 id2 = false := by
                cases h1 : edge p.second id1 id2
                · rfl
                · exact absurd (Or.inr h1) e
              exact Or.inl ⟨p, n1, n2, id1, id2, rfl, rfl, rfl, hn1, hn2, e1, e2, hlive⟩

/-- C2: In a reachable registry where `poset_add(h, a, b)` returns `true`, the
new order satisfies: `poset_test(x, y)` is true afterwards if and only if it was
true before, or both `poset_test(x, a)` and `poset_test(b, y)` were true before.
The map from names to ids of the poset is unchanged. -/
theorem C2_add_effect (s : Registry) (hs : Reachable s) (h : number) (a b : Option String)
    (hadd : (poset_add s h a b).1 = true) :
    (∀ x y : Option String, (poset_test (poset_add s h a b).2 h x y).1 = true ↔
      ((poset_test s h x y).1 = true ∨
        ((poset_test s h x a).1 = true ∧ (poset_test s h b y).1 = true))) ∧
    (∃ p p', mfind s h = some p ∧ mfind (poset_add s h a b).2 h = some p' ∧
      p'.first = p.first) := by
  have hinv := Reachable_inv s hs
  rcases poset_add_cases s hinv h a b with
    ⟨p, n1, n2, id1, id2, hp, ha, hb, hn1, hn2, e1, _, hres⟩ | ⟨hres, _⟩
  · have hpi := hinv h p hp
    have h1 : id1 ∈ mkeys p.second := (hpi.ids_iff id1).mpr ⟨n1, hn1⟩
    have h2 : id2 ∈ mkeys p.second := (hpi.ids_iff id2).mpr ⟨n2, hn2⟩
    have hpi' := PosetInv_add p id1 id2 hpi h1 h2 e1
    have hp' := mfind_set_poset s h p
      ⟨p.first, add_outer_pure id1 id2 (mkeys p.second) p.second⟩ hp
    have hedge := edge_add_outer_pure id1 id2 p.second hpi.ids_nodup e1 h1 h2 hpi.closed
    rw [hres]
    refine ⟨?_, p, _, hp, hp', rfl⟩
    intro x y
    rw [poset_test_fst _ h _ hp' hpi', poset_test_fst s h p hp hpi,
      poset_test_fst s h p hp hpi, poset_test_fst s h p hp hpi]
    subst ha hb
    simp only [Option.bind, hn1, hn2]
    cases hx : x.bind (mfind p.first) with
    | none =>
      simp only [Option.bind] at hx
      simp [hx]
    | some i =>
      simp only [Option.bind] at hx
      cases hy : y.bind (mfind p.first) with
      | none =>
        simp only [Option.bind] at hy
        simp [hx, hy]
      | some j =>
        simp only [Option.bind] at hy
        simp only [hx, hy]
        exact hedge i j
  · rw [hres] at hadd
    cases hadd

/-- Witness of C2 on the sample run: `poset_add(7, "a", "d")` succeeds and
relates `a` to `d`. -/
theorem C2_add_effect_witness :
    Reachable sample_state ∧
      (poset_add sample_state 7 (some "a") (some "d")).1 = true ∧
      ((poset_test (poset_add sample_state 7 (some "a") (some "d")).2 7
          (some "a") (some "d")).1 = true ↔
        ((poset_test sample_state 7 (some "a") (some "d")).1 = true ∨
          ((poset_test sample_state 7 (some "a") (some "a")).1 = true ∧
            (poset_test sample_state 7 (some "d") (some "d")).1 = true))) :=
  ⟨sample_state_reachable, by decide,
    (C2_add_effect sample_state sample_state_reachable 7 (some "a") (some "d")
      (by decide)).1 (some "a") (some "d")⟩

/-- C3: In a reachable registry `poset_add(h, a, b)` returns `true` if and only
if `h` is live, `a` and `b` are non-null names bound in the poset `h`, and both
`poset_test(h, a, b)` and `poset_test(h, b, a)` are false. In particular
`poset_add(h, a, a)` returns `false`. -/
theorem C3_add_accepts (s : Registry) (hs : Reachable s) (h : number) (a b : Option String) :
    ((poset_add s h a b).1 = true ↔
      ((∃ p na nb, mfind s h = some p ∧ a = some na ∧ b = some nb ∧
          na ∈ mkeys p.first ∧ nb ∈ mkeys p.first) ∧
        (poset_test s h a b).1 = false ∧ (poset_test s h b a).1 = false)) ∧
    (poset_add s h a a).1 = false := by
  have hinv := Reachable_inv s hs
  constructor
  · rcases poset_add_cases s hinv h a b with
      ⟨p, n1, n2, id1, id2, hp, ha, hb, hn1, hn2, e1, e2, hres⟩ | ⟨hres, hno⟩
    · have hpi := hinv h p hp
      rw [hres]
      simp only [true_iff]
      refine ⟨⟨p, n1, n2, hp, ha, hb, (mem_mkeys_iff _ _).mpr ⟨id1, hn1⟩,
        (mem_mkeys_iff _ _).mpr ⟨id2, hn2⟩⟩, ?_, ?_⟩
      · rw [poset_test_fst s h p hp hpi, ha, hb]
        simp only [Option.bind, hn1, hn2]
        exact e2
      · rw [poset_test_fst s h p hp hpi, ha, hb]
        simp only [Option.bind, hn1, hn2]
        exact e1
    · rw [hres]
      simp only [Bool.false_eq_true, false_iff]
      rintro ⟨⟨p, na, nb, hp, ha, hb, hna, hnb⟩, t1, t2⟩
      have hpi := hinv h p hp
      obtain ⟨id1, hn1⟩ := (mem_mkeys_iff _ _).mp hna
      obtain ⟨id2, hn2⟩ := (mem_mkeys_iff _ _).mp hnb
      rw [poset_test_fst s h p hp hpi, ha, hb] at t1 t2
      simp only [Option.bind, hn1, hn2] at t1 t2
      exact hno ⟨p, na, nb, id1, id2, hp, ha, hb, hn1, hn2, t2, t1⟩
  · rcases poset_add_cases s hinv h a a with
      ⟨p, n1, n2, id1, id2, _, ha, hb, hn1, hn2, e1, _, _⟩ | ⟨hres, _⟩
    · rw [ha] at hb
      cases hb
      rw [hn1] at hn2
      cases hn2
      rw [edge_refl] at e1
      cases e1
    · rw [hres]

/-- Witness of C3 on the sample run, for `poset_add(7, "a", "d")`. -/
theorem C3_add_accepts_witness :
    Reachable sample_state ∧
      (((poset_add sample_state 7 (some "a") (some "d")).1 = true ↔
        ((∃ p na nb, mfind sample_state 7 = some p ∧ some "a" = some na ∧ some "d" = some nb ∧
            na ∈ mkeys p.first ∧ nb ∈ mkeys p.first) ∧
          (poset_test sample_state 7 (some "a") (some "d")).1 = false ∧
          (poset_test sample_state 7 (some "d") (some "a")).1 = false)) ∧
      (poset_add sample_state 7 (some "a") (some "a")).1 = false) :=
  ⟨sample_state_reachable,
    C3_add_accepts sample_state sample_state_reachable 7 (some "a") (some "d")⟩

theorem any_mid_false (sec : Map number (List number)) (id2 : number) (v : List number)
    (h : ∀ e ∈ v, e ≠ id2 → edge sec e id2 = false) :
    v.any (fun e => decide (e ≠ id2) && edge sec e id2) = false := by
  cases h1 : v.any (fun e => decide (e ≠ id2) && edge sec e id2)
  · rfl
  · rw [List.any_eq_true] at h1
    obtain ⟨e, he, h2⟩ := h1
    simp only [Bool.and_eq_true, decide_eq_true_eq] at h2
    rw [h e he h2.1] at h2
    exact absurd h2.2 (by simp)

/-- The two outcomes of `poset_del` when the invariant holds: either the pair
is removable and `id2` leaves the vector of `id1`, or the call returns `false`
on the registry it was given. The call never ends in `exit(1)`. -/
theorem poset_del_cases (s : Registry) (hs : RegInv s) (h : number) (a b : Option String) :
    (∃ p n1 n2 id1 id2 v i, mfind s h = some p ∧ a = some n1 ∧ b = some n2 ∧
        mfind p.first n1 = some id1 ∧ mfind p.first n2 = some id2 ∧
        mfind p.second id1 = some v ∧ id1 ≠ id2 ∧ edge p.second id1 id2 = true ∧
        (∀ e ∈ v, e ≠ id2 → edge p.second e id2 = false) ∧
        find_index id2 v 0 = some i ∧
        poset_del s h a b = some (true, set_poset s h
          ⟨p.first, mupdate id1 (fun w => swap_pop w i) p.second⟩)) ∨
    (poset_del s h a b = some (false, s) ∧
      ¬ ∃ p n1 n2 id1 id2 v, mfind s h = some p ∧ a = some n1 ∧ b = some n2 ∧
        mfind p.first n1 = some id1 ∧ mfind p.first n2 = some id2 ∧
        mfind p.second id1 = some v ∧ id1 ≠ id2 ∧ edge p.second id1 id2 = true ∧
        (∀ e ∈ v, e ≠ id2 → edge p.second e id2 = false)) := by
  cases a with
  | none => exact Or.inr ⟨by simp [poset_del], by simp⟩
  | some n1 =>
    cases b with
    | none => exact Or.inr ⟨by simp [poset_del], by simp⟩
    | some n2 =>
      cases hp : mfind s h with
      | none => exact Or.inr ⟨by simp [poset_del, hp], by simp⟩
      | some p =>
        cases hn1 : mfind p.first n1 with
        | none => exact Or.inr ⟨by simp [poset_del, hp, hn1], by simp [hn1]⟩
        | some id1 =>
          cases hn2 : mfind p.first n2 with
          | none => exact Or.inr ⟨by simp [poset_del, hp, hn1, hn2], by simp [hn2]⟩
          | some id2 =>
            have hinv := hs h p hp
            obtain ⟨v, hv⟩ := (mem_mkeys_iff _ _).mp ((hinv.ids_iff id1).mpr ⟨n1, hn1⟩)
            have hlive := poset_del_live s h n1 n2 p id1 id2 v hp hinv hn1 hn2 hv
            by_cases e : id1 ≠ id2 ∧ edge p.second id1 id2 = true ∧
                v.any (fun e => decide (e ≠ id2) && edge p.second e id2) = false
            · rw [if_pos e] at hlive
              obtain ⟨i, hi⟩ := find_index_of_edge p.second id1 id2 v hv e.1 e.2.1
              simp only [hi] at hlive
              exact Or.inl ⟨p, n1, n2, id1, id2, v, i, rfl, rfl, rfl, hn1, hn2, hv, e.1, e.2.1,
                not_any_mid _ _ _ e.2.2, hi, hlive⟩
            · rw [if_neg e] at hlive
              refine Or.inr ⟨hlive, ?_⟩
              rintro ⟨p', m1, m2, j1, j2, w, h1, h2, h3, h4, h5, h6, h7, h8, h9⟩
              cases h1
              cases h2
              cases h3
              rw [hn1] at h4
              rw [hn2] at h5
              cases h4
              cases h5
              rw [hv] at h6
              cases h6
              exact e ⟨h7, h8, any_mid_false _ _ _ h9⟩

/-- C4: In a reachable registry `poset_del(h, a, b)` returns (it does not end in
`exit(1)`), and it returns `true` if and only if `h` is live, `a` and `b` are
non-null names bound in the poset `h`, `a != b`, `poset_test(h, a, b)` is true,
and no name `m` other than `a` and `b` has `poset_test(h, a, m)` and
`poset_test(h, m, b)` both true. When such an `m` exists the call returns
`false`. -/
theorem C4_del_accepts (s : Registry) (hs : Reachable s) (h : number) (a b : Option String) :
    (∃ r, poset_del s h a b = some r) ∧
    ((poset_del s h a b).map Prod.fst = some true ↔
      ∃ p na nb, mfind s h = some p ∧ a = some na ∧ b = some nb ∧
        na ∈ mkeys p.first ∧ nb ∈ mkeys p.first ∧ na ≠ nb ∧
        (poset_test s h a b).1 = true ∧
        ¬ ∃ m : String, m ≠ na ∧ m ≠ nb ∧ (poset_test s h a (some m)).1 = true ∧
          (poset_test s h (some m) b).1 = true) ∧
    ((∃ m : Option String, m ≠ a ∧ m ≠ b ∧ (poset_test s h a m).1 = true ∧
        (poset_test s h m b).1 = true) →
      (poset_del s h a b).map Prod.fst = some false) := by
  have hinv := Reachable_inv s hs
  rcases poset_del_cases s hinv h a b with
    ⟨p, n1, n2, id1, id2, v, i, hp, ha, hb, hn1, hn2, hv, hne, he, hmid, _, hres⟩ | ⟨hres, hno⟩
  · have hpi := hinv h p hp
    have hnn : n1 ≠ n2 := by
      intro e
      rw [e, hn2] at hn1
      exact hne (Option.some.inj hn1).symm
    have hnomid : ∀ m : Option String, m ≠ a → m ≠ b → (poset_test s h a m).1 = true →
        (poset_test s h m b).1 = true → False := by
      intro m hma hmb t1 t2
      rw [poset_test_fst s h p hp hpi, ha] at t1
      rw [poset_test_fst s h p hp hpi, hb] at t2
      simp only [Option.bind, hn1, hn2] at t1 t2
      cases m with
      | none => simp at t1
      | some m =>
        cases hm : mfind p.first m with
        | none => simp [hm] at t1
        | some im =>
          simp only [hm] at t1 t2
          have h1 : im ≠ id1 := by
            intro e
            subst e
            exact hma (by rw [ha, hpi.inj m n1 im hm hn1])
          have h2 : im ≠ id2 := by
            intro e
            subst e
            exact hmb (by rw [hb, hpi.inj m n2 im hm hn2])
          rcases (edge_iff p.second id1 im).mp t1 with e | ⟨w, hw, hmem⟩
          · exact h1 e.symm
          · rw [hv] at hw
            cases hw
            rw [hmid im hmem h2] at t2
            cases t2
    refine ⟨⟨_, hres⟩, ?_, ?_⟩
    · rw [hres]
      simp only [Option.map_some', true_iff]
      refine ⟨p, n1, n2, hp, ha, hb, (mem_mkeys_iff _ _).mpr ⟨id1, hn1⟩,
        (mem_mkeys_iff _ _).mpr ⟨id2, hn2⟩, hnn, ?_, ?_⟩
      · rw [poset_test_fst s h p hp hpi, ha, hb]
        simp only [Option.bind, hn1, hn2]
        exact he
      · rintro ⟨m, hm1, hm2, t1, t2⟩
        refine hnomid (some m) ?_ ?_ t1 t2
        · rw [ha]
          exact fun e => hm1 (Option.some.inj e)
        · rw [hb]
          exact fun e => hm2 (Option.some.inj e)
    · rintro ⟨m, hma, hmb, t1, t2⟩
      exact (hnomid m hma hmb t1 t2).elim
  · refine ⟨⟨_, hres⟩, ?_, ?_⟩
    · rw [hres]
      simp only [Option.map_some', Option.some.injEq, Bool.false_eq_true, false_iff]
      rintro ⟨p, na, nb, hp, ha, hb, hna, hnb, hnn, t, hnomid⟩
      have hpi := hinv h p hp
      obtain ⟨id1, hn1⟩ := (mem_mkeys_iff _ _).mp hna
      obtain ⟨id2, hn2⟩ := (mem_mkeys_iff _ _).mp hnb
      obtain ⟨v, hv⟩ := (mem_mkeys_iff _ _).mp ((hpi.ids_iff id1).mpr ⟨na, hn1⟩)
      have hne : id1 ≠ id2 := by
        intro e
        subst e
        exact hnn (hpi.inj na nb id1 hn1 hn2)
      rw [poset_test_fst s h p hp hpi, ha, hb] at t
      simp only [Option.bind, hn1, hn2] at t
      apply hno
      refine ⟨p, na, nb, id1, id2, v, hp, ha, hb, hn1, hn2, hv, hne, t, ?_⟩
      intro e hev he2
      cases hed : edge p.second e id2
      · rfl
      · exfalso
        obtain ⟨m, hm⟩ := (hpi.ids_iff e).mp (hpi.closed id1 v hv e hev)
        apply hnomid
        refine ⟨m, ?_, ?_, ?_, ?_⟩
        · intro e1
          subst e1
          rw [hn1] at hm
          cases hm
          exact hpi.irrefl id1 v hv hev
        · intro e1
          subst e1
          rw [hn2] at hm
          cases hm
          exact he2 rfl
        · rw [poset_test_fst s h p hp hpi, ha]
          simp only [Option.bind, hn1, hm]
          exact (edge_iff _ _ _).mpr (Or.inr ⟨v, hv, hev⟩)
        · rw [poset_test_fst s h p hp hpi, hb]
          simp only [Option.bind, hn2, hm]
          exact hed
    · intro _
      rw [hres]
      rfl

/-- Witness of C4 on the sample run: `poset_del(7, "a", "b")` returns `true`. -/
theorem C4_del_accepts_witness :
    Reachable sample_state ∧
      (poset_del sample_state 7 (some "a") (some "b")).map Prod.fst = some true ∧
      ∃ p na nb, mfind sample_state 7 = some p ∧ some "a" = some na ∧ some "b" = some nb ∧
        na ∈ mkeys p.first ∧ nb ∈ mkeys p.first ∧ na ≠ nb ∧
        (poset_test sample_state 7 (some "a") (some "b")).1 = true ∧
        ¬ ∃ m : String, m ≠ na ∧ m ≠ nb ∧
          (poset_test sample_state 7 (some "a") (some m)).1 = true ∧
          (poset_test sample_state 7 (some m) (some "b")).1 = true :=
  ⟨sample_state_reachable, by decide,
    (C4_del_accepts sample_state sample_state_reachable 7 (some "a") (some "b")).2.1.mp
      (by decide)⟩

/-- C5: In a reachable registry where `poset_del(h, a, b)` returns `true`,
afterwards `poset_test(h, a, b)` is false and `poset_test` has its former value
on every other pair of names. The names and their ids, the keys of the
relation map and the vector of every id other than that of `a` are unchanged,
and the vector of the id of `a` is its former content without the id of `b`,
in some order. -/
theorem C5_del_effect (s : Registry) (hs : Reachable s) (h : number) (a b : Option String)
    (s' : Registry) (hdel : poset_del s h a b = some (true, s')) :
    (poset_test s' h a b).1 = false ∧
    (∀ x y : Option String, ¬ (x = a ∧ y = b) →
      (poset_test s' h x y).1 = (poset_test s h x y).1) ∧
    (∃ p p' ia ib va va', mfind s h = some p ∧ mfind s' h = some p' ∧
      a.bind (mfind p.first) = some ia ∧ b.bind (mfind p.first) = some ib ∧
      p'.first = p.first ∧ mkeys p'.second = mkeys p.second ∧
      (∀ k, k ≠ ia → mfind p'.second k = mfind p.second k) ∧
      mfind p.second ia = some va ∧ mfind p'.second ia = some va' ∧
      va'.Perm (va.erase ib)) := by
  have hinv := Reachable_inv s hs
  rcases poset_del_cases s hinv h a b with
    ⟨p, n1, n2, id1, id2, v, i, hp, ha, hb, hn1, hn2, hv, hne, he, hmid, hi, hres⟩ | ⟨hres, _⟩
  · have hpi := hinv h p hp
    rw [hres] at hdel
    simp only [Option.some.injEq, Prod.mk.injEq, true_and] at hdel
    subst hdel
    have hpi' := PosetInv_del p id1 id2 v i hpi hv hne hi hmid
    have hp' := mfind_set_poset s h p
      ⟨p.first, mupdate id1 (fun w => swap_pop w i) p.second⟩ hp
    have hnd := hpi.vec_nodup id1 v hv
    have hedge := edge_del p.second id1 id2 v i hv hnd hne hi
    obtain ⟨_, _, hperm⟩ := swap_pop_find_index id2 v i hnd hi
    refine ⟨?_, ?_, ?_⟩
    · rw [poset_test_fst _ h _ hp' hpi', ha, hb]
      simp only [Option.bind, hn1, hn2]
      cases hed : edge (mupdate id1 (fun w => swap_pop w i) p.second) id1 id2
      · rfl
      · exact absurd ⟨rfl, rfl⟩ ((hedge id1 id2).mp hed).2
    · intro x y hxy
      rw [poset_test_fst _ h _ hp' hpi', poset_test_fst s h p hp hpi]
      cases hx : x.bind (mfind p.first) with
      | none => simp [hx]
      | some ix =>
        cases hy : y.bind (mfind p.first) with
        | none => simp [hx, hy]
        | some iy =>
          simp only [hx, hy]
          rw [Bool.eq_iff_iff, hedge ix iy]
          have hnot : ¬ (ix = id1 ∧ iy = id2) := by
            rintro ⟨e1, e2⟩
            subst e1 e2
            apply hxy
            cases x with
            | none => simp at hx
            | some nx =>
              cases y with
              | none => simp at hy
              | some ny =>
                simp only [Option.bind] at hx hy
                rw [ha, hb, hpi.inj nx n1 ix hx hn1, hpi.inj ny n2 iy hy hn2]
                exact ⟨rfl, rfl⟩
          exact ⟨fun h1 => h1.1, fun h1 => ⟨h1, hnot⟩⟩
    · refine ⟨p, _, id1, id2, v, swap_pop v i, hp, hp', ?_, ?_, rfl, ?_, ?_, hv, ?_, hperm⟩
      · rw [ha]
        exact hn1
      · rw [hb]
        exact hn2
      · exact mkeys_mupdate _ _ _
      · intro k hk
        simp [mfind_mupdate, Ne.symm hk]
      · simp [mfind_mupdate, hv]
  · rw [hres] at hdel
    simp at hdel

/-- Witness of C5 on the sample run: after `poset_del(7, "a", "b")` the pair
`(a, b)` is no longer related. -/
theorem C5_del_effect_witness :
    Reachable sample_state ∧
      poset_del sample_state 7 (some "a") (some "b") =
        some (true, [(7, ⟨[("a", 1), ("b", 0), ("c", 2), ("d", 5)],
          [(0, [2]), (1, [2]), (2, []), (5, [])]⟩)]) ∧
      (poset_test [(7, ⟨[("a", 1), ("b", 0), ("c", 2), ("d", 5)],
          [(0, [2]), (1, [2]), (2, []), (5, [])]⟩)] 7 (some "a") (some "b")).1 = false :=
  ⟨sample_state_reachable, by decide,
    (C5_del_effect sample_state sample_state_reachable 7 (some "a") (some "b") _
      (by decide)).1⟩

/-- C6: In a reachable registry `poset_test(h, a, b)` returns `true` if and
only if `h` is live, `a` and `b` are non-null names bound in the poset `h`, and
the id of `a` equals the id of `b` or the id of `b` occurs in the vector of the
id of `a`. In particular `poset_test(h, a, a)` is true for every bound `a`. The
call returns the registry it was given. -/
theorem C6_test (s : Registry) (hs : Reachable s) (h : number) (a b : Option String) :
    ((poset_test s h a b).1 = true ↔
      ∃ p na nb ia ib, mfind s h = some p ∧ a = some na ∧ b = some nb ∧
        mfind p.first na = some ia ∧ mfind p.first nb = some ib ∧
        (ia = ib ∨ ∃ v, mfind p.second ia = some v ∧ ib ∈ v)) ∧
    (∀ p na, mfind s h = some p → na ∈ mkeys p.first →
      (poset_test s h (some na) (some na)).1 = true) ∧
    (poset_test s h a b).2 = s := by
  have hinv := Reachable_inv s hs
  refine ⟨?_, ?_, poset_test_snd s hinv h a b⟩
  · rw [poset_test_true_iff s hinv]
    simp only [edge_iff]
  · intro p na hp hna
    obtain ⟨ia, hia⟩ := (mem_mkeys_iff _ _).mp hna
    rw [poset_test_live s h na na p ia ia hp (hinv h p hp) hia hia]
    exact edge_refl _ _

/-- Witness of C6 on the sample run, for `poset_test(7, "a", "c")`. -/
theorem C6_test_witness :
    Reachable sample_state ∧
      (poset_test sample_state 7 (some "a") (some "c")).1 = true ∧
      (poset_test sample_state 7 (some "a") (some "c")).2 = sample_state :=
  ⟨sample_state_reachable, by decide,
    (C6_test sample_state sample_state_reachable 7 (some "a") (some "c")).2.2⟩

/-- C7: Antisymmetry holds in every reachable registry: for every handle and
distinct names `x` and `y`, `poset_test(x, y)` and `poset_test(y, x)` are not
both true. -/
theorem C7_antisymmetry (s : Registry) (hs : Reachable s) (h : number)
    (x y : Option String) (hne : x ≠ y) :
    ¬ ((poset_test s h x y).1 = true ∧ (poset_test s h y x).1 = true) := by
  rintro ⟨hxy, hyx⟩
  cases hp : mfind s h with
  | none =>
    rw [poset_test_dead s h hp] at hxy
    cases hxy
  | some p =>
    have hinv := Reachable_inv s hs h p hp
    rw [poset_test_fst s h p hp hinv] at hxy hyx
    cases x with
    | none => simp at hxy
    | some nx =>
      cases y with
      | none => simp at hyx
      | some ny =>
        simp only [Option.bind] at hxy hyx
        cases hx : mfind p.first nx with
        | none => simp [hx] at hxy
        | some i =>
          cases hy : mfind p.first ny with
          | none => simp [hx, hy] at hxy
          | some j =>
            simp only [hx, hy] at hxy hyx
            have hij := hinv.antisymm i j hxy hyx
            subst hij
            exact hne (by rw [hinv.inj nx ny i hx hy])

/-- Witness of C7 on the sample run, for the names `a` and `b`. -/
theorem C7_antisymmetry_witness :
    Reachable sample_state ∧ (some "a" : Option String) ≠ some "b" ∧
      (poset_test sample_state 7 (some "a") (some "b")).1 = true ∧
      ¬ ((poset_test sample_state 7 (some "a") (some "b")).1 = true ∧
        (poset_test sample_state 7 (some "b") (some "a")).1 = true) :=
  ⟨sample_state_reachable, by decide, by decide,
    C7_antisymmetry sample_state sample_state_reachable 7 (some "a") (some "b") (by decide)⟩

/-- C8: In a reachable registry, whenever `poset_insert`, `poset_remove`,
`poset_add` or `poset_del` returns `false`, the registry after the call is the
registry before the call. -/
theorem C8_rejection_atomic (s : Registry) (hs : Reachable s) (h : number)
    (a b : Option String) (r : number) :
    (∀ s', poset_insert s h a r = some (false, s') → s' = s) ∧
    ((poset_remove s h a).1 = false → (poset_remove s h a).2 = s) ∧
    ((poset_add s h a b).1 = false → (poset_add s h a b).2 = s) ∧
    (∀ s', poset_del s h a b = some (false, s') → s' = s) := by
  have hinv := Reachable_inv s hs
  refine ⟨?_, ?_, ?_, ?_⟩
  · intro s' hins
    cases a with
    | none =>
      simp only [poset_insert, Option.some.injEq, Prod.mk.injEq, true_and] at hins
      exact hins.symm
    | some name =>
      cases hp : mfind s h with
      | none =>
        simp only [poset_insert, hp, Option.some.injEq, Prod.mk.injEq, true_and] at hins
        exact hins.symm
      | some p =>
        cases hn : mfind p.first name with
        | some i =>
          simp only [poset_insert, hp, hn, Option.isSome_some, if_true, Option.some.injEq,
            Prod.mk.injEq, true_and] at hins
          exact hins.symm
        | none =>
          simp only [poset_insert, hp, hn, Option.isSome_none, Bool.false_eq_true,
            if_false] at hins
          cases hpr : probe p.second (p.second.length + 1) (r % WORD) with
          | none => simp [hpr] at hins
          | some nid => simp [hpr] at hins
  · intro hrem
    cases a with
    | none => simp [poset_remove]
    | some name =>
      cases hp : mfind s h with
      | none => simp [poset_remove, hp]
      | some p =>
        cases hn : mfind p.first name with
        | none => simp [poset_remove, hp, hn]
        | some d => simp [poset_remove, hp, hn] at hrem
  · intro hadd
    rcases poset_add_cases s hinv h a b with ⟨_, _, _, _, _, _, _, _, _, _, _, _, hres⟩ | ⟨hres, _⟩
    · rw [hres] at hadd
      cases hadd
    · rw [hres]
  · intro s' hdel
    rcases poset_del_cases s hinv h a b with
      ⟨_, _, _, _, _, _, _, _, _, _, _, _, _, _, _, _, _, hres⟩ | ⟨hres, _⟩
    · rw [hres] at hdel
      simp at hdel
    · rw [hres] at hdel
      simp only [Option.some.injEq, Prod.mk.injEq, true_and] at hdel
      exact hdel.symm

/-- Witness of C8 on the sample run: the rejected calls `poset_insert(7, "a")`,
`poset_remove(7, "e")`, `poset_add(7, "a", "c")` and `poset_del(7, "a", "c")`
leave the registry as it is. -/
theorem C8_rejection_atomic_witness :
    Reachable sample_state ∧
      poset_insert sample_state 7 (some "a") 3 = some (false, sample_state) ∧
      poset_remove sample_state 7 (some "e") = (false, sample_state) ∧
      (poset_add sample_state 7 (some "a") (some "c")).1 = false ∧
      (poset_add sample_state 7 (some "a") (some "c")).2 = sample_state ∧
      poset_del sample_state 7 (some "a") (some "c") = some (false, sample_state) :=
  ⟨sample_state_reachable, by decide, by decide, by decide,
    (C8_rejection_atomic sample_state sample_state_reachable 7 (some "a") (some "c") 3).2.2.1
      (by decide),
    by decide⟩

/-- C9: Every live poset of a reachable registry satisfies: (1) the ids bound
to the names are exactly the keys of the relation map; (2) distinct names have
distinct ids; (3) every id in a vector of the relation map is a key of it;
(4) no id occurs in its own vector; (5) no vector holds an id twice. -/
theorem C9_representation (s : Registry) (hs : Reachable s) (h : number) (p : poset)
    (hp : mfind s h = some p) :
    (∀ i, i ∈ p.first.map Prod.snd ↔ i ∈ mkeys p.second) ∧
    (∀ n1 n2 i, (n1, i) ∈ p.first → (n2, i) ∈ p.first → n1 = n2) ∧
    (∀ k v, (k, v) ∈ p.second → ∀ e ∈ v, e ∈ mkeys p.second) ∧
    (∀ k v, (k, v) ∈ p.second → k ∉ v) ∧
    (∀ k v, (k, v) ∈ p.second → v.Nodup) := by
  have hpi := Reachable_inv s hs h p hp
  refine ⟨?_, ?_, ?_, ?_, ?_⟩
  · intro i
    rw [hpi.ids_iff i]
    constructor
    · intro hi
      obtain ⟨⟨n, j⟩, hmem, hj⟩ := List.mem_map.mp hi
      simp only at hj
      subst hj
      exact ⟨n, mfind_of_mem p.first hpi.names_nodup n j hmem⟩
    · rintro ⟨n, hn⟩
      exact List.mem_map.mpr ⟨(n, i), mem_of_mfind p.first n i hn, rfl⟩
  · intro n1 n2 i h1 h2
    exact hpi.inj n1 n2 i (mfind_of_mem p.first hpi.names_nodup n1 i h1)
      (mfind_of_mem p.first hpi.names_nodup n2 i h2)
  · intro k v hkv
    exact hpi.closed k v (mfind_of_mem p.second hpi.ids_nodup k v hkv)
  · intro k v hkv
    exact hpi.irrefl k v (mfind_of_mem p.second hpi.ids_nodup k v hkv)
  · intro k v hkv
    exact hpi.vec_nodup k v (mfind_of_mem p.second hpi.ids_nodup k v hkv)

/-- Witness of C9 on the poset `7` of the sample run. -/
theorem C9_representation_witness :
    Reachable sample_state ∧
      mfind sample_state 7 = some ⟨[("a", 1), ("b", 0), ("c", 2), ("d", 5)],
        [(0, [2]), (1, [0, 2]), (2, []), (5, [])]⟩ ∧
      ∀ k v, (k, v) ∈ [(0, [2]), (1, [0, 2]), (2, []), (5, ([] : List number))] → k ∉ v :=
  ⟨sample_state_reachable, by decide,
    (C9_representation sample_state sample_state_reachable 7
      ⟨[("a", 1), ("b", 0), ("c", 2), ("d", 5)], [(0, [2]), (1, [0, 2]), (2, []), (5, [])]⟩
      (by decide)).2.2.2.1⟩

theorem length_merase {κ V : Type} [DecidableEq κ] (k : κ) (m : Map κ V)
    (hnd : (mkeys m).Nodup) (hk : k ∈ mkeys m) :
    (merase k m).length + 1 = m.length := by
  induction m with
  | nil => simp [mkeys] at hk
  | cons e rest ih =>
    obtain ⟨k0, v0⟩ := e
    simp only [mkeys, List.map_cons, List.nodup_cons] at hnd
    by_cases h1 : k0 = k
    · subst h1
      have hrest : merase k0 rest = rest := by
        unfold merase
        rw [List.filter_eq_self]
        intro e he
        have : e.1 ∈ rest.map Prod.fst := List.mem_map.mpr ⟨e, he, rfl⟩
        have hne : e.1 ≠ k0 := fun h2 => hnd.1 (h2 ▸ this)
        simp [hne]
      have : merase k0 ((k0, v0) :: rest) = merase k0 rest := by
        simp [merase, List.filter]
      rw [this, hrest]
      simp
    · have hk' : k ∈ mkeys rest := by
        simp only [mkeys, List.map_cons, List.mem_cons] at hk
        rcases hk with hk | hk
        · exact absurd hk.symm h1
        · exact hk
      have : merase k ((k0, v0) :: rest) = (k0, v0) :: merase k rest := by
        simp [merase, List.filter, h1]
      rw [this]
      simp only [List.length_cons]
      rw [ih hnd.2 hk']

/-- The two outcomes of `poset_remove`. -/
theorem poset_remove_cases (s : Registry) (h : number) (x : Option String) :
    (∃ p n d, mfind s h = some p ∧ x = some n ∧ mfind p.first n = some d ∧
        poset_remove s h x = (true, set_poset s h ⟨merase n p.first,
          (merase d p.second).map (fun e => (e.1, remove_scan d e.2.length 0 e.2))⟩)) ∨
    (poset_remove s h x = (false, s) ∧
      ¬ ∃ p n, mfind s h = some p ∧ x = some n ∧ n ∈ mkeys p.first) := by
  cases x with
  | none => exact Or.inr ⟨by simp [poset_remove], by simp⟩
  | some name =>
    cases hp : mfind s h with
    | none => exact Or.inr ⟨by simp [poset_remove, hp], by simp⟩
    | some p =>
      cases hn : mfind p.first name with
      | none =>
        refine Or.inr ⟨by simp [poset_remove, hp, hn], ?_⟩
        rintro ⟨p', n, h1, h2, h3⟩
        cases h1
        cases h2
        exact (not_mem_mkeys_iff _ _).mpr hn h3
      | some d =>
        refine Or.inl ⟨p, name, d, rfl, rfl, hn, ?_⟩
        simp only [poset_remove, hp, hn]
        rw [mupdate_eq_set_poset s h _ p hp]

/-- C10: In a reachable registry `poset_remove(h, x)` returns `true` if and
only if `h` is live and `x` is a non-null name bound in the poset `h`. On
success `poset_size(h)` decreases by exactly 1, `x` is no longer bound and
`poset_test` with `x` on either side is false, the former id of `x` is neither
a key of the relation map nor an element of any of its vectors, and
`poset_test` has its former value on all pairs of names other than `x`. -/
theorem C10_remove (s : Registry) (hs : Reachable s) (h : number) (x : Option String) :
    ((poset_remove s h x).1 = true ↔
      ∃ p n, mfind s h = some p ∧ x = some n ∧ n ∈ mkeys p.first) ∧
    ((poset_remove s h x).1 = true →
      poset_size (poset_remove s h x).2 h + 1 = poset_size s h ∧
      (∀ y : Option String, (poset_test (poset_remove s h x).2 h x y).1 = false ∧
        (poset_test (poset_remove s h x).2 h y x).1 = false) ∧
      (∃ p p' i, mfind s h = some p ∧ x.bind (mfind p.first) = some i ∧
        mfind (poset_remove s h x).2 h = some p' ∧ x.bind (mfind p'.first) = none ∧
        i ∉ mkeys p'.second ∧ ∀ k v, (k, v) ∈ p'.second → i ∉ v) ∧
      (∀ u v : Option String, u ≠ x → v ≠ x →
        (poset_test (poset_remove s h x).2 h u v).1 = (poset_test s h u v).1)) := by
  have hinv := Reachable_inv s hs
  rcases poset_remove_cases s h x with ⟨p, n, d, hp, hx, hn, hres⟩ | ⟨hres, hno⟩
  · have hpi := hinv h p hp
    have hpi' := PosetInv_remove p n d hpi hn
    have hp' := mfind_set_poset s h p ⟨merase n p.first,
      (merase d p.second).map (fun e => (e.1, remove_scan d e.2.length 0 e.2))⟩ hp
    have hnk : n ∈ mkeys p.first := (mem_mkeys_iff _ _).mpr ⟨d, hn⟩
    have hgone : mfind (merase n p.first) n = none := by simp [mfind_merase]
    rw [hres]
    refine ⟨⟨fun _ => ⟨p, n, hp, hx, hnk⟩, fun _ => rfl⟩, fun _ => ⟨?_, ?_, ?_, ?_⟩⟩
    · simp only [poset_size, hp', hp]
      exact length_merase n p.first hpi.names_nodup hnk
    · intro y
      simp only
      rw [poset_test_fst _ h _ hp' hpi', poset_test_fst _ h _ hp' hpi', hx]
      have hb : (some n).bind (mfind (merase n p.first)) = none := hgone
      rw [hb]
      generalize y.bind (mfind (merase n p.first)) = oy
      cases oy <;> exact ⟨rfl, rfl⟩
    · refine ⟨p, _, d, hp, ?_, hp', ?_, ?_, ?_⟩
      · rw [hx]
        exact hn
      · rw [hx]
        exact hgone
      · show d ∉ mkeys ((merase d p.second).map _)
        rw [mkeys_purge]
        simp
      · intro k v hkv
        have hfind := mfind_of_mem _ hpi'.ids_nodup k v hkv
        simp only [mfind_purge] at hfind
        by_cases e1 : d = k
        · simp [e1] at hfind
        · simp only [e1, if_false] at hfind
          cases hv0 : mfind p.second k with
          | none => simp [hv0] at hfind
          | some v0 =>
            simp only [hv0, Option.map_some', Option.some.injEq] at hfind
            subst hfind
            rw [mem_remove_scan]
            exact fun h1 => h1.2 rfl
    · intro u v hu hv
      simp only
      rw [poset_test_fst _ h _ hp' hpi', poset_test_fst s h p hp hpi]
      have hbind : ∀ w : Option String, w ≠ x →
          w.bind (mfind (merase n p.first)) = w.bind (mfind p.first) := by
        intro w hw
        cases w with
        | none => rfl
        | some m =>
          have hne : n ≠ m := by
            intro e
            apply hw
            rw [hx, e]
          simp [Option.bind, mfind_merase, hne]
      have hid : ∀ (w : Option String) (i : number), w ≠ x →
          w.bind (mfind p.first) = some i → i ≠ d := by
        intro w i hw hwi e
        subst e
        cases w with
        | none => simp at hwi
        | some m =>
          simp only [Option.bind] at hwi
          apply hw
          rw [hx, hpi.inj m n i hwi hn]
      simp only [hbind u hu, hbind v hv]
      cases hiu : u.bind (mfind p.first) with
      | none => rfl
      | some iu =>
        cases hiv : v.bind (mfind p.first) with
        | none => rfl
        | some iv =>
          simp only
          rw [Bool.eq_iff_iff, edge_purge]
          constructor
          · rintro (e | ⟨_, _, e⟩)
            · rw [e]
              exact edge_refl _ _
            · exact e
          · intro e
            exact Or.inr ⟨hid u iu hu hiu, hid v iv hv hiv, e⟩
  · rw [hres]
    refine ⟨⟨?_, fun e => (hno e).elim⟩, ?_⟩
    · intro e
      exact absurd e (by simp)
    · intro e
      exact absurd e (by simp)

/-- Witness of C10 on the sample run: `poset_remove(7, "b")` succeeds, the size
goes from 4 to 3 and `a ≤ c` is kept. -/
theorem C10_remove_witness :
    Reachable sample_state ∧
      (poset_remove sample_state 7 (some "b")).1 = true ∧
      poset_size (poset_remove sample_state 7 (some "b")).2 7 + 1 =
        poset_size sample_state 7 ∧
      (poset_test (poset_remove sample_state 7 (some "b")).2 7 (some "a") (some "c")).1 =
        (poset_test sample_state 7 (some "a") (some "c")).1 :=
  ⟨sample_state_reachable, by decide,
    ((C10_remove sample_state sample_state_reachable 7 (some "b")).2 (by decide)).1,
    ((C10_remove sample_state sample_state_reachable 7 (some "b")).2 (by decide)).2.2.2
      (some "a") (some "c") (by decide) (by decide)⟩

/-! ## The probe for a free key -/

theorem WORD_eq : WORD = 18446744073709551616 := by
  unfold WORD
  norm_num

/-- A probe that finds no free key has met a key at each of its candidates. -/
theorem probe_none {V : Type} (m : Map number V) (fuel : Nat) (c : Nat)
    (h : probe m fuel c = none) :
    ∀ i, i < fuel → (c + i) % WORD ∈ mkeys m ∨ (i = 0 ∧ c ∈ mkeys m) := by
  induction fuel generalizing c with
  | zero =>
    intro i hi
    omega
  | succ f ih =>
    unfold probe at h
    by_cases h1 : (mfind m c).isNone = true
    · simp [h1] at h
    · simp only [h1] at h
      have hc : c ∈ mkeys m := by
        rw [mem_mkeys_iff]
        cases hm : mfind m c with
        | none => simp [hm] at h1
        | some v => exact ⟨v, rfl⟩
      intro i hi
      cases i with
      | zero => exact Or.inr ⟨rfl, hc⟩
      | succ j =>
        left
        have hj : j < f := by omega
        have hmod : ((c + 1) % WORD + j) % WORD = (c + (j + 1)) % WORD := by
          rw [WORD_eq]
          omega
        rcases ih ((c + 1) % WORD) h j hj with h2 | ⟨h2, h3⟩
        · rw [← hmod]
          exact h2
        · subst h2
          simpa using h3

/-- With fewer than `2 ^ 64` bindings the probe ends: one of the first
`m.length + 1` candidates is free. -/
theorem probe_some {V : Type} (m : Map number V) (hlen : m.length < WORD) (c : Nat)
    (hc : c < WORD) : ∃ n, probe m (m.length + 1) c = some n := by
  cases h : probe m (m.length + 1) c with
  | some n => exact ⟨n, rfl⟩
  | none =>
    exfalso
    have hall := probe_none m (m.length + 1) c h
    have hsub : (List.range (m.length + 1)).map (fun i => (c + i) % WORD) ⊆ mkeys m := by
      intro x hx
      obtain ⟨i, hi, rfl⟩ := List.mem_map.mp hx
      rw [List.mem_range] at hi
      rcases hall i hi with h1 | ⟨h1, h2⟩
      · exact h1
      · subst h1
        have : (c + 0) % WORD = c := by
          rw [WORD_eq] at hc ⊢
          omega
        rw [this]
        exact h2
    have hnd : ((List.range (m.length + 1)).map (fun i => (c + i) % WORD)).Nodup := by
      refine (List.nodup_range _).map_on ?_
      intro i hi j hj hij
      rw [List.mem_range] at hi hj
      simp only [WORD_eq] at hlen hij
      omega
    have hle := (hnd.subperm hsub).length_le
    simp [mkeys] at hle

/-- More fuel does not change the key found by the probe. -/
theorem probe_mono {V : Type} (m : Map number V) (fuel extra : Nat) (c n : number)
    (h : probe m fuel c = some n) : probe m (fuel + extra) c = some n := by
  induction fuel generalizing c with
  | zero => simp [probe] at h
  | succ f ih =>
    have e : f + 1 + extra = (f + extra) + 1 := by omega
    rw [e]
    unfold probe at h ⊢
    by_cases h1 : (mfind m c).isNone = true
    · simpa [h1] using h
    · simp only [h1] at h ⊢
      exact ih _ h

/-- C17: In a registry with fewer than `2 ^ 64` live posets, for every value of
`random_number()` the probe of `poset_new` ends (with the fuel of the model and
with any larger fuel), the handle returned was not live, the poset stored under
it is empty and has size 0, and every other handle is bound as before. -/
theorem C17_new_fresh (s : Registry) (hlen : s.length < WORD) (r : number) :
    ∃ h s', poset_new s r = some (h, s') ∧
      (∀ extra, probe s (s.length + 1 + extra) (r % WORD) = some h) ∧
      mfind s h = none ∧ mfind s' h = some poset.empty ∧ poset_size s' h = 0 ∧
      ∀ h', h' ≠ h → mfind s' h' = mfind s h' := by
  have hr : r % WORD < WORD := Nat.mod_lt _ (by rw [WORD_eq]; omega)
  obtain ⟨n, hn⟩ := probe_some s hlen (r % WORD) hr
  refine ⟨n, minsert num_lt n poset.empty s, ?_, ?_, probe_free s _ _ n hn, ?_, ?_, ?_⟩
  · simp [poset_new, hn]
  · intro extra
    exact probe_mono s _ extra _ n hn
  · simp [mfind_minsert]
  · simp [poset_size, mfind_minsert, poset.empty]
  · intro h' hh
    simp [mfind_minsert, Ne.symm hh]

/-- Witness of C17 on the sample run: a call of `poset_new` with the random
value 7, which is live, returns the handle 8. -/
theorem C17_new_fresh_witness :
    sample_state.length < WORD ∧
      ∃ h s', poset_new sample_state 7 = some (h, s') ∧
        (∀ extra, probe sample_state (sample_state.length + 1 + extra) (7 % WORD) = some h) ∧
        mfind sample_state h = none ∧ mfind s' h = some poset.empty ∧ poset_size s' h = 0 ∧
        ∀ h', h' ≠ h → mfind s' h' = mfind sample_state h' :=
  ⟨by decide, C17_new_fresh sample_state (by decide) 7⟩

/-! ## Insertion of an element -/

/-- Under the invariant the two maps of a poset have the same number of
bindings. -/
theorem PosetInv_length (p : poset) (hp : PosetInv p) : p.first.length = p.second.length := by
  have hnd1 : p.first.Nodup := List.Nodup.of_map Prod.fst hp.names_nodup
  have hnd2 : (p.first.map Prod.snd).Nodup := by
    refine hnd1.map_on ?_
    rintro ⟨n1, i1⟩ h1 ⟨n2, i2⟩ h2 h12
    simp only at h12
    subst h12
    have e := hp.inj n1 n2 i1 (mfind_of_mem p.first hp.names_nodup n1 i1 h1)
      (mfind_of_mem p.first hp.names_nodup n2 i1 h2)
    rw [e]
  have hperm : (p.first.map Prod.snd).Perm (mkeys p.second) := by
    rw [List.perm_ext_iff_of_nodup hnd2 hp.ids_nodup]
    intro i
    rw [hp.ids_iff i]
    constructor
    · intro hi
      obtain ⟨⟨n, j⟩, hmem, hj⟩ := List.mem_map.mp hi
      simp only at hj
      subst hj
      exact ⟨n, mfind_of_mem p.first hp.names_nodup n j hmem⟩
    · rintro ⟨n, hn⟩
      exact List.mem_map.mpr ⟨(n, i), mem_of_mfind p.first n i hn, rfl⟩
  have h := hperm.length_eq
  simpa [mkeys] using h

/-- The three outcomes of `poset_insert`: the element is inserted under a free
id, or the call returns `false` on the registry it was given, or the probe for
a free id does not end, which needs `2 ^ 64` elements in the poset. -/
theorem poset_insert_cases (s : Registry) (h : number) (name : Option String) (r : number) :
    (∃ p n nid, mfind s h = some p ∧ name = some n ∧ mfind p.first n = none ∧
        mfind p.second nid = none ∧
        poset_insert s h name r = some (true, set_poset s h
          ⟨minsert name_lt n nid p.first, minsert num_lt nid [] p.second⟩)) ∨
    (poset_insert s h name r = some (false, s) ∧
      ¬ ∃ p n, mfind s h = some p ∧ name = some n ∧ n ∉ mkeys p.first) ∨
    (poset_insert s h name r = none ∧
      ∃ p, mfind s h = some p ∧ WORD ≤ p.second.length) := by
  cases name with
  | none => exact Or.inr (Or.inl ⟨by simp [poset_insert], by simp⟩)
  | some n =>
    cases hp : mfind s h with
    | none => exact Or.inr (Or.inl ⟨by simp [poset_insert, hp], by simp⟩)
    | some p =>
      cases hn : mfind p.first n with
      | some i =>
        refine Or.inr (Or.inl ⟨by simp [poset_insert, hp, hn], ?_⟩)
        rintro ⟨p', n', h1, h2, h3⟩
        cases h1
        cases h2
        exact h3 ((mem_mkeys_iff _ _).mpr ⟨i, hn⟩)
      | none =>
        cases hpr : probe p.second (p.second.length + 1) (r % WORD) with
        | none =>
          refine Or.inr (Or.inr ⟨by simp [poset_insert, hp, hn, hpr], p, rfl, ?_⟩)
          by_contra hlt
          have hr : r % WORD < WORD := Nat.mod_lt _ (by rw [WORD_eq]; omega)
          obtain ⟨k, hk⟩ := probe_some p.second (Nat.lt_of_not_le hlt) (r % WORD) hr
          rw [hpr] at hk
          cases hk
        | some nid =>
          refine Or.inl ⟨p, n, nid, rfl, rfl, hn, probe_free _ _ _ _ hpr, ?_⟩
          simp only [poset_insert, hp, hn, hpr, Option.isSome_none, Bool.false_eq_true, if_false]
          rw [mupdate_eq_set_poset s h _ p hp]

/-- The order after the insertion of the name `n` under the free id `nid`, read
through the names: the former names keep their ids and their order, and the
new name is related to itself only. -/
theorem poset_test_insert (s : Registry) (h : number) (p : poset) (n : String)
    (nid : number) (hp : mfind s h = some p) (hpi : PosetInv p)
    (hn : mfind p.first n = none) (hnid : mfind p.second nid = none) :
    (∀ x y : Option String, x ≠ some n → y ≠ some n →
      (poset_test (set_poset s h
        ⟨minsert name_lt n nid p.first, minsert num_lt nid [] p.second⟩) h x y).1 =
        (poset_test s h x y).1) ∧
    (∀ y : Option String, y ≠ some n →
      (poset_test (set_poset s h
        ⟨minsert name_lt n nid p.first, minsert num_lt nid [] p.second⟩) h (some n) y).1 = false ∧
      (poset_test (set_poset s h
        ⟨minsert name_lt n nid p.first, minsert num_lt nid [] p.second⟩) h y (some n)).1 = false) ∧
    (poset_test (set_poset s h
      ⟨minsert name_lt n nid p.first, minsert num_lt nid [] p.second⟩) h (some n) (some n)).1 =
      true := by
  have hpi' := PosetInv_insert p n nid hpi hn hnid
  have hp' := mfind_set_poset s h p
    ⟨minsert name_lt n nid p.first, minsert num_lt nid [] p.second⟩ hp
  have hbind : ∀ w : Option String, w ≠ some n →
      w.bind (mfind (minsert name_lt n nid p.first)) = w.bind (mfind p.first) := by
    intro w hw
    cases w with
    | none => rfl
    | some m =>
      have hne : n ≠ m := fun e => hw (by rw [e])
      simp [Option.bind, mfind_minsert, hne]
  have hnew : (some n).bind (mfind (minsert name_lt n nid p.first)) = some nid := by
    simp [Option.bind, mfind_minsert]
  have hold : ∀ (w : Option String) (j : number), w.bind (mfind p.first) = some j →
      j ∈ mkeys p.second := by
    intro w j hw
    cases w with
    | none => simp at hw
    | some m => exact (hpi.ids_iff j).mpr ⟨m, hw⟩
  have hnk : nid ∉ mkeys p.second := (not_mem_mkeys_iff _ _).mpr hnid
  refine ⟨?_, ?_, ?_⟩
  · intro x y hx hy
    rw [poset_test_fst _ h _ hp' hpi', poset_test_fst s h p hp hpi]
    simp only [hbind x hx, hbind y hy, edge_minsert_nil _ _ hnid]
  · intro y hy
    rw [poset_test_fst _ h _ hp' hpi', poset_test_fst _ h _ hp' hpi']
    simp only [hbind y hy, hnew, edge_minsert_nil _ _ hnid]
    cases hj : y.bind (mfind p.first) with
    | none => exact ⟨rfl, rfl⟩
    | some j =>
      have hjk := hold y j hj
      have hne : nid ≠ j := fun e => hnk (e ▸ hjk)
      refine ⟨?_, ?_⟩
      · simp [edge_of_not_key _ nid j hnid, hne]
      · cases he : edge p.second j nid
        · exact he
        · exfalso
          rcases (edge_iff _ _ _).mp he with e | ⟨v, hv, hmem⟩
          · exact hne e.symm
          · exact hnk (hpi.closed j v hv nid hmem)
  · rw [poset_test_fst _ h _ hp' hpi']
    simp only [hnew]
    exact edge_refl _ _

/-- C11: In a reachable registry, if `poset_insert(h, name)` returns `true`
then `h` is live and `name` is a non-null name not bound in the poset `h`;
conversely, when the poset holds fewer than `2 ^ 64` elements and these
conditions hold, the call returns `true`. After a successful call a second
insert of the same name returns `false`, `poset_size(h)` has increased by
exactly 1, `poset_test` has its former value on the other names, and the new
name is related to itself only. -/
theorem C11_insert (s : Registry) (hs : Reachable s) (h : number) (name : Option String)
    (r : number) :
    ((∃ s', poset_insert s h name r = some (true, s')) →
      ∃ p n, mfind s h = some p ∧ name = some n ∧ n ∉ mkeys p.first) ∧
    (poset_size s h < WORD →
      (∃ p n, mfind s h = some p ∧ name = some n ∧ n ∉ mkeys p.first) →
      ∃ s', poset_insert s h name r = some (true, s')) ∧
    (∀ s', poset_insert s h name r = some (true, s') →
      (∀ r', poset_insert s' h name r' = some (false, s')) ∧
      poset_size s' h = poset_size s h + 1 ∧
      (∀ x y : Option String, x ≠ name → y ≠ name →
        (poset_test s' h x y).1 = (poset_test s h x y).1) ∧
      (∀ y : Option String, y ≠ name →
        (poset_test s' h name y).1 = false ∧ (poset_test s' h y name).1 = false) ∧
      (poset_test s' h name name).1 = true) := by
  have hinv := Reachable_inv s hs
  rcases poset_insert_cases s h name r with
    ⟨p, n, nid, hp, hname, hn, hnid, hres⟩ | ⟨hres, hno⟩ | ⟨hres, p, hp, hfull⟩
  · have hpi := hinv h p hp
    have hnk : n ∉ mkeys p.first := (not_mem_mkeys_iff _ _).mpr hn
    have hp' := mfind_set_poset s h p
      ⟨minsert name_lt n nid p.first, minsert num_lt nid [] p.second⟩ hp
    obtain ⟨t1, t2, t3⟩ := poset_test_insert s h p n nid hp hpi hn hnid
    refine ⟨fun _ => ⟨p, n, hp, hname, hnk⟩, fun _ _ => ⟨_, hres⟩, ?_⟩
    intro s' hs'
    rw [hres] at hs'
    simp only [Option.some.injEq, Prod.mk.injEq, true_and] at hs'
    subst hs' hname
    refine ⟨?_, ?_, t1, t2, t3⟩
    · intro r'
      simp [poset_insert, hp', mfind_minsert]
    · simp only [poset_size, hp', hp]
      exact length_minsert name_lt n nid p.first hnk
  · refine ⟨?_, fun _ hc => (hno hc).elim, ?_⟩
    · rintro ⟨s', hs'⟩
      rw [hres] at hs'
      simp at hs'
    · intro s' hs'
      rw [hres] at hs'
      simp at hs'
  · refine ⟨?_, ?_, ?_⟩
    · rintro ⟨s', hs'⟩
      rw [hres] at hs'
      cases hs'
    · intro hsize
      exfalso
      simp only [poset_size, hp] at hsize
      rw [PosetInv_length p (hinv h p hp)] at hsize
      omega
    · intro s' hs'
      rw [hres] at hs'
      cases hs'

/-- Witness of C11 on the sample run: `poset_insert(7, "e")` returns `true`,
the size goes from 4 to 5 and `e` is unrelated to `a`. -/
theorem C11_insert_witness :
    Reachable sample_state ∧ poset_size sample_state 7 < WORD ∧
      (∃ s', poset_insert sample_state 7 (some "e") 3 = some (true, s')) ∧
      ∀ s', poset_insert sample_state 7 (some "e") 3 = some (true, s') →
        poset_size s' 7 = poset_size sample_state 7 + 1 ∧
        (poset_test s' 7 (some "e") (some "a")).1 = false :=
  ⟨sample_state_reachable, by decide,
    (C11_insert sample_state sample_state_reachable 7 (some "e") 3).2.1 (by decide)
      ⟨_, "e", rfl, rfl, by decide⟩,
    fun s' hs' =>
      ⟨((C11_insert sample_state sample_state_reachable 7 (some "e") 3).2.2 s' hs').2.1,
       (((C11_insert sample_state sample_state_reachable 7 (some "e") 3).2.2 s' hs').2.2.2.1
          (some "a") (by decide)).1⟩⟩

/-! ## The order on names, under the invariant -/

theorem test_exists (s : Registry) (hs : RegInv s) (h : number) (x y : Option String)
    (hxy : (poset_test s h x y).1 = true) :
    (poset_test s h x x).1 = true ∧ (poset_test s h y y).1 = true := by
  cases hp : mfind s h with
  | none =>
    rw [poset_test_dead s h hp] at hxy
    cases hxy
  | some p =>
    have hinv := hs h p hp
    rw [poset_test_fst s h p hp hinv] at hxy ⊢
    rw [poset_test_fst s h p hp hinv]
    cases hx : x.bind (mfind p.first) with
    | none => simp [hx] at hxy
    | some i =>
      cases hy : y.bind (mfind p.first) with
      | none => simp [hx, hy] at hxy
      | some j => exact ⟨edge_refl _ _, edge_refl _ _⟩

theorem test_trans (s : Registry) (hs : RegInv s) (h : number) (x y z : Option String)
    (hxy : (poset_test s h x y).1 = true) (hyz : (poset_test s h y z).1 = true) :
    (poset_test s h x z).1 = true := by
  cases hp : mfind s h with
  | none =>
    rw [poset_test_dead s h hp] at hxy
    cases hxy
  | some p =>
    have hinv := hs h p hp
    rw [poset_test_fst s h p hp hinv] at hxy hyz ⊢
    cases hx : x.bind (mfind p.first) with
    | none => simp [hx] at hxy
    | some i =>
      cases hy : y.bind (mfind p.first) with
      | none => simp [hx, hy] at hxy
      | some j =>
        cases hz : z.bind (mfind p.first) with
        | none => simp [hy, hz] at hyz
        | some k =>
          simp only [hx, hy, hz] at hxy hyz ⊢
          exact hinv.trans i j k hxy hyz

theorem test_antisymm (s : Registry) (hs : RegInv s) (h : number) (x y : Option String)
    (hxy : (poset_test s h x y).1 = true) (hyx : (poset_test s h y x).1 = true) : x = y := by
  cases hp : mfind s h with
  | none =>
    rw [poset_test_dead s h hp] at hxy
    cases hxy
  | some p =>
    have hinv := hs h p hp
    rw [poset_test_fst s h p hp hinv] at hxy hyx
    cases x with
    | none => simp at hxy
    | some nx =>
      cases y with
      | none => simp at hyx
      | some ny =>
        simp only [Option.bind] at hxy hyx
        cases hx : mfind p.first nx with
        | none => simp [hx] at hxy
        | some i =>
          cases hy : mfind p.first ny with
          | none => simp [hx, hy] at hxy
          | some j =>
            simp only [hx, hy] at hxy hyx
            have hij := hinv.antisymm i j hxy hyx
            subst hij
            rw [hinv.inj nx ny i hx hy]

/-- The order after a successful `poset_add`, read through the names. -/
theorem add_test_iff (s : Registry) (hs : RegInv s) (h : number) (a b : Option String)
    (hadd : (poset_add s h a b).1 = true) (x y : Option String) :
    (poset_test (poset_add s h a b).2 h x y).1 = true ↔
      ((poset_test s h x y).1 = true ∨
        ((poset_test s h x a).1 = true ∧ (poset_test s h b y).1 = true)) := by
  rcases poset_add_cases s hs h a b with
    ⟨p, n1, n2, id1, id2, hp, ha, hb, hn1, hn2, e1, _, hres⟩ | ⟨hres, _⟩
  · have hpi := hs h p hp
    have h1 : id1 ∈ mkeys p.second := (hpi.ids_iff id1).mpr ⟨n1, hn1⟩
    have h2 : id2 ∈ mkeys p.second := (hpi.ids_iff id2).mpr ⟨n2, hn2⟩
    have hpi' := PosetInv_add p id1 id2 hpi h1 h2 e1
    have hp' := mfind_set_poset s h p
      ⟨p.first, add_outer_pure id1 id2 (mkeys p.second) p.second⟩ hp
    have hedge := edge_add_outer_pure id1 id2 p.second hpi.ids_nodup e1 h1 h2 hpi.closed
    rw [hres]
    rw [poset_test_fst _ h _ hp' hpi', poset_test_fst s h p hp hpi,
      poset_test_fst s h p hp hpi, poset_test_fst s h p hp hpi]
    subst ha hb
    simp only [Option.bind, hn1, hn2]
    cases hx : x.bind (mfind p.first) with
    | none =>
      simp only [Option.bind] at hx
      simp [hx]
    | some i =>
      simp only [Option.bind] at hx
      cases hy : y.bind (mfind p.first) with
      | none =>
        simp only [Option.bind] at hy
        simp [hx, hy]
      | some j =>
        simp only [Option.bind] at hy
        simp only [hx, hy]
        exact hedge i j
  · rw [hres] at hadd
    cases hadd

/-- What a successful `poset_add` needs: two bound names, unrelated and
distinct. -/
theorem add_true_pre (s : Registry) (hs : RegInv s) (h : number) (a b : Option String)
    (hadd : (poset_add s h a b).1 = true) :
    (poset_test s h a a).1 = true ∧ (poset_test s h b b).1 = true ∧
      (poset_test s h a b).1 = false ∧ (poset_test s h b a).1 = false ∧ a ≠ b := by
  rcases poset_add_cases s hs h a b with
    ⟨p, n1, n2, id1, id2, hp, ha, hb, hn1, hn2, e1, e2, _⟩ | ⟨hres, _⟩
  · have hpi := hs h p hp
    subst ha hb
    rw [poset_test_fst s h p hp hpi, poset_test_fst s h p hp hpi,
      poset_test_fst s h p hp hpi, poset_test_fst s h p hp hpi]
    simp only [Option.bind, hn1, hn2]
    refine ⟨edge_refl _ _, edge_refl _ _, e2, e1, ?_⟩
    intro e
    have e' := Option.some.inj e
    subst e'
    rw [hn1] at hn2
    cases hn2
    rw [edge_refl] at e1
    cases e1
  · rw [hres] at hadd
    cases hadd

/-- A pair of names related in either direction is rejected by `poset_add`. -/
theorem add_false_of_test (s : Registry) (hs : RegInv s) (h : number) (a b : Option String)
    (ht : (poset_test s h a b).1 = true ∨ (poset_test s h b a).1 = true) :
    poset_add s h a b = (false, s) := by
  rcases poset_add_cases s hs h a b with
    ⟨p, n1, n2, id1, id2, hp, ha, hb, hn1, hn2, e1, e2, _⟩ | ⟨hres, _⟩
  · have hpi := hs h p hp
    subst ha hb
    rw [poset_test_fst s h p hp hpi, poset_test_fst s h p hp hpi] at ht
    simp only [Option.bind, hn1, hn2] at ht
    rcases ht with ht | ht
    · rw [e2] at ht
      cases ht
    · rw [e1] at ht
      cases ht
  · exact hres

/-- Under the invariant `poset_del` returns, and a `false` leaves the registry
as it was. -/
theorem del_returns (s : Registry) (hs : RegInv s) (h : number) (a b : Option String) :
    (∃ s', poset_del s h a b = some (true, s')) ∨ poset_del s h a b = some (false, s) := by
  rcases poset_del_cases s hs h a b with
    ⟨_, _, _, _, _, _, _, _, _, _, _, _, _, _, _, _, _, hres⟩ | ⟨hres, _⟩
  · exact Or.inl ⟨_, hres⟩
  · exact Or.inr hres

/-- When `poset_del` returns `true`, read through the names: the names are
distinct and related, and no third name lies between them. -/
theorem del_true_iff (s : Registry) (hs : RegInv s) (h : number) (a b : Option String) :
    (∃ s', poset_del s h a b = some (true, s')) ↔
      (a ≠ b ∧ (poset_test s h a b).1 = true ∧
        ∀ m : Option String, m ≠ a → m ≠ b → (poset_test s h a m).1 = true →
          (poset_test s h m b).1 = true → False) := by
  rcases poset_del_cases s hs h a b with
    ⟨p, n1, n2, id1, id2, v, i, hp, ha, hb, hn1, hn2, hv, hne, he, hmid, _, hres⟩ | ⟨hres, hno⟩
  · have hpi := hs h p hp
    have hnn : a ≠ b := by
      rw [ha, hb]
      intro e
      have e' := Option.some.inj e
      rw [e', hn2] at hn1
      exact hne (Option.some.inj hn1).symm
    refine ⟨fun _ => ⟨hnn, ?_, ?_⟩, fun _ => ⟨_, hres⟩⟩
    · rw [poset_test_fst s h p hp hpi, ha, hb]
      simp only [Option.bind, hn1, hn2]
      exact he
    · intro m hma hmb t1 t2
      rw [poset_test_fst s h p hp hpi, ha] at t1
      rw [poset_test_fst s h p hp hpi, hb] at t2
      simp only [Option.bind, hn1, hn2] at t1 t2
      cases m with
      | none => simp at t1
      | some m =>
        cases hm : mfind p.first m with
        | none => simp [hm] at t1
        | some im =>
          simp only [hm] at t1 t2
          have h1 : im ≠ id1 := by
            intro e
            subst e
            exact hma (by rw [ha, hpi.inj m n1 im hm hn1])
          have h2 : im ≠ id2 := by
            intro e
            subst e
            exact hmb (by rw [hb, hpi.inj m n2 im hm hn2])
          rcases (edge_iff p.second id1 im).mp t1 with e | ⟨w, hw, hmem⟩
          · exact h1 e.symm
          · rw [hv] at hw
            cases hw
            rw [hmid im hmem h2] at t2
            cases t2
  · constructor
    · rintro ⟨s', hs'⟩
      rw [hres] at hs'
      simp at hs'
    · rintro ⟨hnn, t, hnomid⟩
      exfalso
      cases hp : mfind s h with
      | none =>
        rw [poset_test_dead s h hp] at t
        cases t
      | some p =>
        have hpi := hs h p hp
        rw [poset_test_fst s h p hp hpi] at t
        cases a with
        | none => simp at t
        | some na =>
          cases b with
          | none =>
            simp only [Option.bind] at t
            split at t <;> simp_all
          | some nb =>
            simp only [Option.bind] at t
            cases hn1 : mfind p.first na with
            | none => simp [hn1] at t
            | some id1 =>
              cases hn2 : mfind p.first nb with
              | none => simp [hn1, hn2] at t
              | some id2 =>
                simp only [hn1, hn2] at t
                obtain ⟨v, hv⟩ := (mem_mkeys_iff _ _).mp ((hpi.ids_iff id1).mpr ⟨na, hn1⟩)
                have hne : id1 ≠ id2 := by
                  intro e
                  subst e
                  exact hnn (by rw [hpi.inj na nb id1 hn1 hn2])
                apply hno
                refine ⟨p, na, nb, id1, id2, v, hp, rfl, rfl, hn1, hn2, hv, hne, t, ?_⟩
                intro e hev he2
                cases hed : edge p.second e id2
                · rfl
                · exfalso
                  obtain ⟨m, hm⟩ := (hpi.ids_iff e).mp (hpi.closed id1 v hv e hev)
                  apply hnomid (some m)
                  · intro e1
                    have e2 := Option.some.inj e1
                    subst e2
                    rw [hn1] at hm
                    cases hm
                    exact hpi.irrefl id1 v hv hev
                  · intro e1
                    have e2 := Option.some.inj e1
                    subst e2
                    rw [hn2] at hm
                    cases hm
                    exact he2 rfl
                  · rw [poset_test_fst s h p hp hpi]
                    simp only [Option.bind, hn1, hm]
                    exact (edge_iff _ _ _).mpr (Or.inr ⟨v, hv, hev⟩)
                  · rw [poset_test_fst s h p hp hpi]
                    simp only [Option.bind, hn2, hm]
                    exact hed

/-- The order after a successful `poset_del`, read through the names: the pair
`(a, b)` has left it and nothing else has changed. -/
theorem del_test_iff (s : Registry) (hs : RegInv s) (h : number) (a b : Option String)
    (s' : Registry) (hdel : poset_del s h a b = some (true, s')) (x y : Option String) :
    (poset_test s' h x y).1 = true ↔
      ((poset_test s h x y).1 = true ∧ ¬ (x = a ∧ y = b)) := by
  rcases poset_del_cases s hs h a b with
    ⟨p, n1, n2, id1, id2, v, i, hp, ha, hb, hn1, hn2, hv, hne, he, hmid, hi, hres⟩ | ⟨hres, _⟩
  · have hpi := hs h p hp
    rw [hres] at hdel
    simp only [Option.some.injEq, Prod.mk.injEq, true_and] at hdel
    subst hdel
    have hpi' := PosetInv_del p id1 id2 v i hpi hv hne hi hmid
    have hp' := mfind_set_poset s h p
      ⟨p.first, mupdate id1 (fun w => swap_pop w i) p.second⟩ hp
    have hnd := hpi.vec_nodup id1 v hv
    have hedge := edge_del p.second id1 id2 v i hv hnd hne hi
    rw [poset_test_fst _ h _ hp' hpi', poset_test_fst s h p hp hpi]
    cases x with
    | none => simp
    | some nx =>
      cases y with
      | none =>
        simp only [Option.bind]
        split <;> simp_all
      | some ny =>
        simp only [Option.bind]
        cases hx : mfind p.first nx with
        | none => simp
        | some ix =>
          cases hy : mfind p.first ny with
          | none => simp
          | some iy =>
            simp only
            rw [hedge ix iy, ha, hb]
            constructor
            · rintro ⟨h1, h2⟩
              refine ⟨h1, ?_⟩
              rintro ⟨e1, e2⟩
              have e1' := Option.some.inj e1
              have e2' := Option.some.inj e2
              subst e1' e2'
              rw [hn1] at hx
              rw [hn2] at hy
              cases hx
              cases hy
              exact h2 ⟨rfl, rfl⟩
            · rintro ⟨h1, h2⟩
              refine ⟨h1, ?_⟩
              rintro ⟨e1, e2⟩
              subst e1 e2
              apply h2
              rw [hpi.inj nx n1 ix hx hn1, hpi.inj ny n2 iy hy hn2]
              exact ⟨rfl, rfl⟩
  · rw [hres] at hdel
    simp at hdel

/-- When `poset_remove` returns `true`: exactly for a bound name. -/
theorem remove_true_iff (s : Registry) (hs : RegInv s) (h : number) (x : Option String) :
    (poset_remove s h x).1 = true ↔ (poset_test s h x x).1 = true := by
  rcases poset_remove_cases s h x with ⟨p, n, d, hp, hx, hn, hres⟩ | ⟨hres, hno⟩
  · rw [hres, poset_test_fst s h p hp (hs h p hp), hx]
    simp only [Option.bind, hn, edge_refl]
  · rw [hres]
    simp only [Bool.false_eq_true, false_iff]
    intro t
    apply hno
    cases hp : mfind s h with
    | none =>
      rw [poset_test_dead s h hp] at t
      cases t
    | some p =>
      rw [poset_test_fst s h p hp (hs h p hp)] at t
      cases x with
      | none => simp at t
      | some n =>
        simp only [Option.bind] at t
        cases hn : mfind p.first n with
        | none => simp [hn] at t
        | some d => exact ⟨p, n, rfl, rfl, (mem_mkeys_iff _ _).mpr ⟨d, hn⟩⟩

/-- The order after a successful `poset_remove`, read through the names: the
removed name is related to nothing and the other pairs are as before. -/
theorem remove_test (s : Registry) (hs : RegInv s) (h : number) (x : Option String)
    (hrem : (poset_remove s h x).1 = true) :
    (∀ y : Option String, (poset_test (poset_remove s h x).2 h x y).1 = false ∧
      (poset_test (poset_remove s h x).2 h y x).1 = false) ∧
    (∀ u v : Option String, u ≠ x → v ≠ x →
      (poset_test (poset_remove s h x).2 h u v).1 = (poset_test s h u v).1) := by
  rcases poset_remove_cases s h x with ⟨p, n, d, hp, hx, hn, hres⟩ | ⟨hres, hno⟩
  · have hpi := hs h p hp
    have hpi' := PosetInv_remove p n d hpi hn
    have hp' := mfind_set_poset s h p ⟨merase n p.first,
      (merase d p.second).map (fun e => (e.1, remove_scan d e.2.length 0 e.2))⟩ hp
    have hgone : mfind (merase n p.first) n = none := by simp [mfind_merase]
    rw [hres]
    refine ⟨?_, ?_⟩
    · intro y
      simp only
      rw [poset_test_fst _ h _ hp' hpi', poset_test_fst _ h _ hp' hpi', hx]
      have hb : (some n).bind (mfind (merase n p.first)) = none := hgone
      rw [hb]
      generalize y.bind (mfind (merase n p.first)) = oy
      cases oy <;> exact ⟨rfl, rfl⟩
    · intro u v hu hv
      simp only
      rw [poset_test_fst _ h _ hp' hpi', poset_test_fst s h p hp hpi]
      have hbind : ∀ w : Option String, w ≠ x →
          w.bind (mfind (merase n p.first)) = w.bind (mfind p.first) := by
        intro w hw
        cases w with
        | none => rfl
        | some m =>
          have hne : n ≠ m := by
            intro e
            apply hw
            rw [hx, e]
          simp [Option.bind, mfind_merase, hne]
      have hid : ∀ (w : Option String) (i : number), w ≠ x →
          w.bind (mfind p.first) = some i → i ≠ d := by
        intro w i hw hwi e
        subst e
        cases w with
        | none => simp at hwi
        | some m =>
          simp only [Option.bind] at hwi
          apply hw
          rw [hx, hpi.inj m n i hwi hn]
      simp only [hbind u hu, hbind v hv]
      cases hiu : u.bind (mfind p.first) with
      | none => rfl
      | some iu =>
        cases hiv : v.bind (mfind p.first) with
        | none => rfl
        | some iv =>
          simp only
          rw [Bool.eq_iff_iff, edge_purge]
          constructor
          · rintro (e | ⟨_, _, e⟩)
            · rw [e]
              exact edge_refl _ _
            · exact e
          · intro e
            exact Or.inr ⟨hid u iu hu hiu, hid v iv hv hiv, e⟩
  · rw [hres] at hrem
    cases hrem

/-! ## Chains, removal of the middle element, and the closure -/

theorem fresh_state_run : run [] fresh_ops = some fresh_state := by decide

theorem fresh_state_reachable : Reachable fresh_state :=
  Reachable_run [] fresh_state fresh_ops Reachable.init fresh_state_run

/-- After `poset_add(a, b)` and `poset_add(b, c)` both succeed, `a ≤ b`,
`b ≤ c` and `a ≤ c` are recorded, the three names are bound and distinct. -/
theorem chain_facts (s : Registry) (hs : RegInv s) (h : number) (a b c : Option String)
    (h1 : (poset_add s h a b).1 = true)
    (h2 : (poset_add (poset_add s h a b).2 h b c).1 = true) :
    (poset_test (poset_add (poset_add s h a b).2 h b c).2 h a b).1 = true ∧
    (poset_test (poset_add (poset_add s h a b).2 h b c).2 h b c).1 = true ∧
    (poset_test (poset_add (poset_add s h a b).2 h b c).2 h a c).1 = true ∧
    (poset_test (poset_add (poset_add s h a b).2 h b c).2 h b b).1 = true ∧
    a ≠ b ∧ b ≠ c ∧ a ≠ c := by
  have hs1 := RegInv_poset_add s hs h a b
  obtain ⟨taa, tbb, _, _, hab⟩ := add_true_pre s hs h a b h1
  obtain ⟨tbb1, tcc1, _, tcb1, hbc⟩ := add_true_pre _ hs1 h b c h2
  have tab1 : (poset_test (poset_add s h a b).2 h a b).1 = true :=
    (add_test_iff s hs h a b h1 a b).mpr (Or.inr ⟨taa, tbb⟩)
  refine ⟨?_, ?_, ?_, ?_, hab, hbc, ?_⟩
  · exact (add_test_iff _ hs1 h b c h2 a b).mpr (Or.inl tab1)
  · exact (add_test_iff _ hs1 h b c h2 b c).mpr (Or.inr ⟨tbb1, tcc1⟩)
  · exact (add_test_iff _ hs1 h b c h2 a c).mpr (Or.inr ⟨tab1, tcc1⟩)
  · exact (add_test_iff _ hs1 h b c h2 b b).mpr (Or.inl tbb1)
  · intro e
    subst e
    rw [tab1] at tcb1
    cases tcb1

/-- C12, as the code behaves: after `poset_add(a, b)` and `poset_add(b, c)`
succeed, `poset_remove(b)` succeeds and keeps the pair deduced through `b`:
`poset_test(a, c)` is still true, so `poset_add(a, c)` returns `false` and
changes nothing, and `poset_del(a, c)` returns `true` exactly when no other
name lies between `a` and `c`. -/
theorem C12_remove_middle_keeps (s : Registry) (hs : Reachable s) (h : number)
    (a b c : Option String) (h1 : (poset_add s h a b).1 = true)
    (h2 : (poset_add (poset_add s h a b).2 h b c).1 = true) :
    (poset_remove (poset_add (poset_add s h a b).2 h b c).2 h b).1 = true ∧
    (poset_test (poset_remove (poset_add (poset_add s h a b).2 h b c).2 h b).2 h a c).1 =
      true ∧
    poset_add (poset_remove (poset_add (poset_add s h a b).2 h b c).2 h b).2 h a c =
      (false, (poset_remove (poset_add (poset_add s h a b).2 h b c).2 h b).2) ∧
    ((∃ s4, poset_del (poset_remove (poset_add (poset_add s h a b).2 h b c).2 h b).2 h a c =
        some (true, s4)) ↔
      ∀ m : Option String, m ≠ a → m ≠ c →
        (poset_test (poset_remove (poset_add (poset_add s h a b).2 h b c).2 h b).2 h a m).1 =
          true →
        (poset_test (poset_remove (poset_add (poset_add s h a b).2 h b c).2 h b).2 h m c).1 =
          true → False) := by
  have hinv := Reachable_inv s hs
  have hs1 := RegInv_poset_add s hinv h a b
  have hs2 := RegInv_poset_add _ hs1 h b c
  have hs3 := RegInv_poset_remove _ hs2 h b
  obtain ⟨_, _, tac, tbb, hab, hbc, hac⟩ := chain_facts s hinv h a b c h1 h2
  have hrem : (poset_remove (poset_add (poset_add s h a b).2 h b c).2 h b).1 = true :=
    (remove_true_iff _ hs2 h b).mpr tbb
  have tac3 : (poset_test (poset_remove (poset_add (poset_add s h a b).2 h b c).2 h b).2
      h a c).1 = true := by
    rw [(remove_test _ hs2 h b hrem).2 a c hab (Ne.symm hbc)]
    exact tac
  refine ⟨hrem, tac3, add_false_of_test _ hs3 h a c (Or.inl tac3), ?_⟩
  rw [del_true_iff _ hs3 h a c]
  exact ⟨fun hd => hd.2.2, fun hm => ⟨hac, tac3, hm⟩⟩

/-- Counterexample to C12 as stated: in the poset `3` with `a`, `b`, `c`, after
`poset_add(a, b)`, `poset_add(b, c)` and `poset_remove(b)` all return `true`,
`poset_test(a, c)` is true and `poset_add(a, c)` returns `false`. -/
theorem C12_counterexample :
    (poset_add fresh_state 3 (some "a") (some "b")).1 = true ∧
    (poset_add (poset_add fresh_state 3 (some "a") (some "b")).2 3 (some "b") (some "c")).1 =
      true ∧
    (poset_add (poset_add fresh_state 3 (some "a") (some "b")).2 3 (some "b") (some "c")).2 =
      chain_state ∧
    (poset_remove chain_state 3 (some "b")).1 = true ∧
    (poset_test (poset_remove chain_state 3 (some "b")).2 3 (some "a") (some "c")).1 = true ∧
    (poset_add (poset_remove chain_state 3 (some "b")).2 3 (some "a") (some "c")).1 = false := by
  decide

/-- Witness of C12 as amended, on the poset `3` with `a`, `b`, `c`. -/
theorem C12_remove_middle_keeps_witness :
    Reachable fresh_state ∧
      (poset_add fresh_state 3 (some "a") (some "b")).1 = true ∧
      (poset_add (poset_add fresh_state 3 (some "a") (some "b")).2 3
        (some "b") (some "c")).1 = true ∧
      (poset_test (poset_remove (poset_add (poset_add fresh_state 3 (some "a") (some "b")).2 3
        (some "b") (some "c")).2 3 (some "b")).2 3 (some "a") (some "c")).1 = true :=
  ⟨fresh_state_reachable, by decide, by decide,
    (C12_remove_middle_keeps fresh_state fresh_state_reachable 3 (some "a") (some "b")
      (some "c") (by decide) (by decide)).2.1⟩

/-- C13: In a reachable registry, if `poset_add(h, a, b)` returns `true` and
the following `poset_add(h, b, c)` returns `true`, then `poset_test(h, a, c)`
is true and `poset_del(h, a, c)` returns `false` and changes nothing. On the
run of the specification (a new poset, the inserts of `a`, `b`, `c`, the two
adds) every call returns `true`, `poset_test(a, c)` is true, `poset_del(a, c)`
returns `false`, the size is 3, and it is 0 after `poset_clear`. -/
theorem C13_chain_closure (s : Registry) (hs : Reachable s) (h : number)
    (a b c : Option String) (h1 : (poset_add s h a b).1 = true)
    (h2 : (poset_add (poset_add s h a b).2 h b c).1 = true) :
    ((poset_test (poset_add (poset_add s h a b).2 h b c).2 h a c).1 = true ∧
      poset_del (poset_add (poset_add s h a b).2 h b c).2 h a c =
        some (false, (poset_add (poset_add s h a b).2 h b c).2)) ∧
    (poset_new [] 3 = some (3, [(3, ⟨[], []⟩)]) ∧
      poset_insert [(3, ⟨[], []⟩)] 3 (some "a") 0 =
        some (true, [(3, ⟨[("a", 0)], [(0, [])]⟩)]) ∧
      poset_insert [(3, ⟨[("a", 0)], [(0, [])]⟩)] 3 (some "b") 0 =
        some (true, [(3, ⟨[("a", 0), ("b", 1)], [(0, []), (1, [])]⟩)]) ∧
      poset_insert [(3, ⟨[("a", 0), ("b", 1)], [(0, []), (1, [])]⟩)] 3 (some "c") 0 =
        some (true, fresh_state) ∧
      (poset_add fresh_state 3 (some "a") (some "b")).1 = true ∧
      poset_add (poset_add fresh_state 3 (some "a") (some "b")).2 3 (some "b") (some "c") =
        (true, chain_state) ∧
      (poset_test chain_state 3 (some "a") (some "c")).1 = true ∧
      poset_del chain_state 3 (some "a") (some "c") = some (false, chain_state) ∧
      poset_size chain_state 3 = 3 ∧
      poset_size (poset_clear chain_state 3) 3 = 0) := by
  have hinv := Reachable_inv s hs
  have hs1 := RegInv_poset_add s hinv h a b
  have hs2 := RegInv_poset_add _ hs1 h b c
  obtain ⟨tab, tbc, tac, _, hab, hbc, _⟩ := chain_facts s hinv h a b c h1 h2
  refine ⟨⟨tac, ?_⟩, by decide⟩
  rcases del_returns _ hs2 h a c with hd | hd
  · exfalso
    exact ((del_true_iff _ hs2 h a c).mp hd).2.2 b (Ne.symm hab) hbc tab tbc
  · exact hd

/-- Witness of C13 on the poset `3` with `a`, `b`, `c`. -/
theorem C13_chain_closure_witness :
    Reachable fresh_state ∧
      (poset_add fresh_state 3 (some "a") (some "b")).1 = true ∧
      (poset_add (poset_add fresh_state 3 (some "a") (some "b")).2 3
        (some "b") (some "c")).1 = true ∧
      (poset_test (poset_add (poset_add fresh_state 3 (some "a") (some "b")).2 3
        (some "b") (some "c")).2 3 (some "a") (some "c")).1 = true :=
  ⟨fresh_state_reachable, by decide, by decide,
    (C13_chain_closure fresh_state fresh_state_reachable 3 (some "a") (some "b") (some "c")
      (by decide) (by decide)).1.1⟩

/-- C14: In a reachable registry, if `poset_add(h, a, b)` returns `true` then
in the resulting registry `poset_add(h, b, a)` returns `false` and
`poset_test(h, b, a)` is false; the names `a` and `b` are distinct. -/
theorem C14_add_antisymmetric (s : Registry) (hs : Reachable s) (h : number)
    (a b : Option String) (hadd : (poset_add s h a b).1 = true) :
    (poset_add (poset_add s h a b).2 h b a).1 = false ∧
    (poset_test (poset_add s h a b).2 h b a).1 = false ∧ a ≠ b := by
  have hinv := Reachable_inv s hs
  have hs1 := RegInv_poset_add s hinv h a b
  obtain ⟨taa, tbb, _, tba, hab⟩ := add_true_pre s hinv h a b hadd
  have tab1 : (poset_test (poset_add s h a b).2 h a b).1 = true :=
    (add_test_iff s hinv h a b hadd a b).mpr (Or.inr ⟨taa, tbb⟩)
  refine ⟨?_, ?_, hab⟩
  · rw [add_false_of_test _ hs1 h b a (Or.inr tab1)]
  · cases ht : (poset_test (poset_add s h a b).2 h b a).1
    · rfl
    · exfalso
      rcases (add_test_iff s hinv h a b hadd b a).mp ht with t | ⟨t, _⟩
      · rw [tba] at t
        cases t
      · rw [tba] at t
        cases t

/-- Witness of C14 on the sample run, for `poset_add(7, "a", "d")`. -/
theorem C14_add_antisymmetric_witness :
    Reachable sample_state ∧
      (poset_add sample_state 7 (some "a") (some "d")).1 = true ∧
      (poset_add (poset_add sample_state 7 (some "a") (some "d")).2 7
        (some "d") (some "a")).1 = false ∧
      (poset_test (poset_add sample_state 7 (some "a") (some "d")).2 7
        (some "d") (some "a")).1 = false ∧
      (some "a" : Option String) ≠ some "d" :=
  ⟨sample_state_reachable, by decide,
    C14_add_antisymmetric sample_state sample_state_reachable 7 (some "a") (some "d")
      (by decide)⟩

/-- C15: In a reachable registry where `poset_add(h, a, b)` returns `true`,
the following `poset_remove(h, b)` returns `true` and afterwards
`poset_test(h, a, b)` is false. If `poset_insert(h, b)` then returns `true`,
whatever the id it allocates, `b` is unrelated to every other name; and it does
return `true` when the poset holds fewer than `2 ^ 64` elements. -/
theorem C15_remove_then_reinsert (s : Registry) (hs : Reachable s) (h : number)
    (a b : Option String) (hadd : (poset_add s h a b).1 = true) :
    (poset_remove (poset_add s h a b).2 h b).1 = true ∧
    (poset_test (poset_remove (poset_add s h a b).2 h b).2 h a b).1 = false ∧
    (∀ r s3, poset_insert (poset_remove (poset_add s h a b).2 h b).2 h b r = some (true, s3) →
      ∀ x : Option String, x ≠ b →
        (poset_test s3 h x b).1 = false ∧ (poset_test s3 h b x).1 = false) ∧
    (poset_size (poset_remove (poset_add s h a b).2 h b).2 h < WORD →
      ∀ r, ∃ s3, poset_insert (poset_remove (poset_add s h a b).2 h b).2 h b r =
        some (true, s3)) := by
  have hinv := Reachable_inv s hs
  have hs1 := RegInv_poset_add s hinv h a b
  have hs2 := RegInv_poset_remove _ hs1 h b
  obtain ⟨_, tbb, _, _, _⟩ := add_true_pre s hinv h a b hadd
  have tbb1 : (poset_test (poset_add s h a b).2 h b b).1 = true :=
    (add_test_iff s hinv h a b hadd b b).mpr (Or.inl tbb)
  have hrem : (poset_remove (poset_add s h a b).2 h b).1 = true :=
    (remove_true_iff _ hs1 h b).mpr tbb1
  have hgone := (remove_test _ hs1 h b hrem).1
  refine ⟨hrem, (hgone a).2, ?_, ?_⟩
  · intro r s3 hins x hx
    rcases poset_insert_cases (poset_remove (poset_add s h a b).2 h b).2 h b r with
      ⟨p, n, nid, hp, hname, hn, hnid, hres⟩ | ⟨hres, _⟩ | ⟨hres, _⟩
    · rw [hres] at hins
      simp only [Option.some.injEq, Prod.mk.injEq, true_and] at hins
      subst hins hname
      exact (poset_test_insert _ h p n nid hp (hs2 h p hp) hn hnid).2.1 x hx |>.symm
    · rw [hres] at hins
      simp at hins
    · rw [hres] at hins
      cases hins
  · intro hsize r
    rcases poset_insert_cases (poset_remove (poset_add s h a b).2 h b).2 h b r with
      ⟨_, _, _, _, _, _, _, hres⟩ | ⟨hres, hno⟩ | ⟨hres, p, hp, hfull⟩
    · exact ⟨_, hres⟩
    · exfalso
      apply hno
      rcases poset_remove_cases (poset_add s h a b).2 h b with
        ⟨p1, n, d, hp1, hb, hn, hrm⟩ | ⟨hrm, _⟩
      · rw [hrm]
        refine ⟨_, n, mfind_set_poset _ h p1 _ hp1, hb, ?_⟩
        rw [not_mem_mkeys_iff]
        simp [mfind_merase]
      · rw [hrm] at hrem
        cases hrem
    · exfalso
      simp only [poset_size, hp] at hsize
      rw [PosetInv_length p (hs2 h p hp)] at hsize
      omega

/-- Witness of C15 on the sample run: after `poset_add(7, "a", "d")`,
`poset_remove(7, "d")` and `poset_insert(7, "d")` with the random value 5, the
former id of `d`, the name `d` is unrelated to `a`. -/
theorem C15_remove_then_reinsert_witness :
    Reachable sample_state ∧
      (poset_add sample_state 7 (some "a") (some "d")).1 = true ∧
      (poset_test (poset_remove (poset_add sample_state 7 (some "a") (some "d")).2 7
        (some "d")).2 7 (some "a") (some "d")).1 = false ∧
      (∃ s3, poset_insert (poset_remove (poset_add sample_state 7 (some "a") (some "d")).2 7
        (some "d")).2 7 (some "d") 5 = some (true, s3) ∧
        (poset_test s3 7 (some "a") (some "d")).1 = false) :=
  ⟨sample_state_reachable, by decide,
    (C15_remove_then_reinsert sample_state sample_state_reachable 7 (some "a") (some "d")
      (by decide)).2.1,
    ⟨sample_state, by decide,
      ((C15_remove_then_reinsert sample_state sample_state_reachable 7 (some "a") (some "d")
        (by decide)).2.2.1 5 sample_state (by decide) (some "a") (by decide)).1⟩⟩

/-- C19: In a reachable registry where `poset_add(h, a, b)` returns `true`, the
order read by `poset_test` afterwards is the relation `naive_closure`: the
smallest relation that contains the former order and the pair `(a, b)`, is
reflexive on the bound names and is transitive. -/
theorem C19_single_pass_closure (s : Registry) (hs : Reachable s) (h : number)
    (a b : Option String) (hadd : (poset_add s h a b).1 = true) (x y : Option String) :
    (poset_test (poset_add s h a b).2 h x y).1 = true ↔ naive_closure s h a b x y := by
  have hinv := Reachable_inv s hs
  have hs1 := RegInv_poset_add s hinv h a b
  obtain ⟨taa, tbb, _, _, _⟩ := add_true_pre s hinv h a b hadd
  constructor
  · intro ht
    rcases (add_test_iff s hinv h a b hadd x y).mp ht with t | ⟨t1, t2⟩
    · exact naive_closure.old x y t
    · exact naive_closure.trans x a y (naive_closure.old x a t1)
        (naive_closure.trans a b y naive_closure.pair (naive_closure.old b y t2))
  · intro hc
    induction hc with
    | old x y t => exact (add_test_iff s hinv h a b hadd x y).mpr (Or.inl t)
    | pair => exact (add_test_iff s hinv h a b hadd a b).mpr (Or.inr ⟨taa, tbb⟩)
    | refl x t => exact (add_test_iff s hinv h a b hadd x x).mpr (Or.inl t)
    | trans x y z _ _ ih1 ih2 => exact test_trans _ hs1 h x y z ih1 ih2

/-- Witness of C19 on the sample run: after `poset_add(7, "c", "d")` the pair
`(a, d)` is in the order and in the closure. -/
theorem C19_single_pass_closure_witness :
    Reachable sample_state ∧
      (poset_add sample_state 7 (some "c") (some "d")).1 = true ∧
      (poset_test (poset_add sample_state 7 (some "c") (some "d")).2 7
        (some "a") (some "d")).1 = true ∧
      naive_closure sample_state 7 (some "c") (some "d") (some "a") (some "d") :=
  ⟨sample_state_reachable, by decide, by decide,
    (C19_single_pass_closure sample_state sample_state_reachable 7 (some "c") (some "d")
      (by decide) (some "a") (some "d")).mp (by decide)⟩

/-- C20: In a reachable registry where `poset_add(h, a, b)` returns `true`, the
following `poset_del(h, a, b)` returns `true`; afterwards `poset_test(h, a, b)`
is false, while every other pair `(p, q)` with `p ≤ a` and `b ≤ q` before the
add is still related. The two calls are not an undo: on the sample run, after
`poset_add(7, "c", "d")` and `poset_del(7, "c", "d")` the pair `(a, d)`, which
was unrelated, is related. -/
theorem C20_fresh_relation_removable (s : Registry) (hs : Reachable s) (h : number)
    (a b : Option String) (hadd : (poset_add s h a b).1 = true) :
    (∃ s2, poset_del (poset_add s h a b).2 h a b = some (true, s2) ∧
      (poset_test s2 h a b).1 = false ∧
      ∀ p q : Option String, ¬ (p = a ∧ q = b) → (poset_test s h p a).1 = true →
        (poset_test s h b q).1 = true → (poset_test s2 h p q).1 = true) ∧
    ((poset_test sample_state 7 (some "a") (some "d")).1 = false ∧
      (poset_add sample_state 7 (some "c") (some "d")).1 = true ∧
      (poset_del (poset_add sample_state 7 (some "c") (some "d")).2 7
        (some "c") (some "d")).map (fun r => (r.1, (poset_test r.2 7 (some "a") (some "d")).1)) =
        some (true, true)) := by
  have hinv := Reachable_inv s hs
  have hs1 := RegInv_poset_add s hinv h a b
  obtain ⟨taa, tbb, tab, tba, hab⟩ := add_true_pre s hinv h a b hadd
  have hiff := add_test_iff s hinv h a b hadd
  have tab1 : (poset_test (poset_add s h a b).2 h a b).1 = true :=
    (hiff a b).mpr (Or.inr ⟨taa, tbb⟩)
  have hdel : ∃ s2, poset_del (poset_add s h a b).2 h a b = some (true, s2) := by
    rw [del_true_iff _ hs1 h a b]
    refine ⟨hab, tab1, ?_⟩
    intro m hma hmb t1 t2
    rcases (hiff a m).mp t1 with u1 | ⟨_, u1⟩
    · rcases (hiff m b).mp t2 with u2 | ⟨u2, _⟩
      · have := test_trans s hinv h a m b u1 u2
        rw [tab] at this
        cases this
      · exact hma (test_antisymm s hinv h m a u2 u1)
    · rcases (hiff m b).mp t2 with u2 | ⟨u2, _⟩
      · exact hmb (test_antisymm s hinv h m b u2 u1)
      · have := test_trans s hinv h b m a u1 u2
        rw [tba] at this
        cases this
  obtain ⟨s2, hs2⟩ := hdel
  refine ⟨⟨s2, hs2, ?_, ?_⟩, by decide⟩
  · cases ht : (poset_test s2 h a b).1
    · rfl
    · exact absurd ⟨rfl, rfl⟩ ((del_test_iff _ hs1 h a b s2 hs2 a b).mp ht).2
  · intro p q hpq tpa tbq
    exact (del_test_iff _ hs1 h a b s2 hs2 p q).mpr ⟨(hiff p q).mpr (Or.inr ⟨tpa, tbq⟩), hpq⟩

/-- Witness of C20 on the sample run, for `poset_add(7, "c", "d")`. -/
theorem C20_fresh_relation_removable_witness :
    Reachable sample_state ∧
      (poset_add sample_state 7 (some "c") (some "d")).1 = true ∧
      ∃ s2, poset_del (poset_add sample_state 7 (some "c") (some "d")).2 7
          (some "c") (some "d") = some (true, s2) ∧
        (poset_test s2 7 (some "c") (some "d")).1 = false ∧
        ∀ p q : Option String, ¬ (p = some "c" ∧ q = some "d") →
          (poset_test sample_state 7 p (some "c")).1 = true →
          (poset_test sample_state 7 (some "d") q).1 = true → (poset_test s2 7 p q).1 = true :=
  ⟨sample_state_reachable, by decide,
    (C20_fresh_relation_removable sample_state sample_state_reachable 7 (some "c") (some "d")
      (by decide)).1⟩

/-! ## The last branch of `poset_del`, on any registry -/

/-- A call of `exists_edge` that returns `true` for distinct ids has found the
second id in the vector of the first, and has written nothing. -/
theorem exists_edge_true (s : Registry) (h id1 id2 : number) (hne : id1 ≠ id2)
    (ht : (exists_edge s h id1 id2).1 = true) :
    (exists_edge s h id1 id2).2 = s ∧
      ∃ p v, mfind s h = some p ∧ mfind p.second id1 = some v ∧ id2 ∈ v := by
  have hex : ∃ p v, mfind s h = some p ∧ mfind p.second id1 = some v ∧ id2 ∈ v := by
    unfold exists_edge at ht
    simp only [hne, if_false] at ht
    cases hp : mfind s h with
    | none => simp [hp] at ht
    | some p =>
      cases hv : mfind p.second id1 with
      | none => simp [hp, hv] at ht
      | some v =>
        simp only [hp, hv, List.any_eq_true, beq_iff_eq] at ht
        obtain ⟨e, he, rfl⟩ := ht
        exact ⟨p, v, rfl, hv, he⟩
  refine ⟨?_, hex⟩
  obtain ⟨p, v, hp, hv, _⟩ := hex
  simp [exists_edge, hne, hp, hv]

/-- A call of `exists_edge` on a live handle keeps every vector that is
present: it can only add a key bound to the empty vector. -/
theorem exists_edge_keeps (s : Registry) (h e x id1 : number) (v : List number)
    (hv : ∃ p, mfind s h = some p ∧ mfind p.second id1 = some v) :
    ∃ p, mfind (exists_edge s h e x).2 h = some p ∧ mfind p.second id1 = some v := by
  obtain ⟨p, hp, hpv⟩ := hv
  unfold exists_edge
  by_cases hex : e = x
  · simp only [hex, if_true]
    exact ⟨p, hp, hpv⟩
  · simp only [hex, if_false, hp]
    cases he : mfind p.second e with
    | none =>
      simp only
      refine ⟨{ p with second := minsert num_lt e [] p.second }, ?_, ?_⟩
      · rw [mfind_mupdate]
        simp only [if_true, hp, Option.map_some']
      · have hne : e ≠ id1 := by
          intro e1
          rw [e1, hpv] at he
          cases he
        simp [mfind_minsert, hne, hpv]
    | some w =>
      simp only
      exact ⟨p, hp, hpv⟩

theorem del_scan_keeps (h id2 id1 : number) (v : List number) (vec : List number)
    (s : Registry) (hv : ∃ p, mfind s h = some p ∧ mfind p.second id1 = some v) :
    ∃ p, mfind (del_scan h id2 vec s).2 h = some p ∧ mfind p.second id1 = some v := by
  induction vec generalizing s with
  | nil => exact hv
  | cons e es ih =>
    unfold del_scan
    by_cases he : e = id2
    · simp only [he, ne_eq, not_true_eq_false, if_false]
      exact ih s hv
    · simp only [ne_eq, he, not_false_eq_true, if_true]
      have hk := exists_edge_keeps s h e id2 id1 v hv
      by_cases ht : (exists_edge s h e id2).1 = true
      · simp only [ht, if_true]
        exact hk
      · simp only [ht]
        exact ih _ hk

/-- C18: On every registry, with or without the invariant, `poset_del` returns:
it never ends in `exit(1)`. When the call passes the checks `id1 != id2` and
`exists_edge(id, id1, id2)` and the scan for an element in between, the search
loop finds an index of `id2` in the vector of `id1` and the call returns
`true`. -/
theorem C18_del_no_exit (s : Registry) (h : number) (a b : Option String) :
    (∃ r, poset_del s h a b = some r) ∧
    (∀ p n1 n2 id1 id2, mfind s h = some p → a = some n1 → b = some n2 →
      mfind p.first n1 = some id1 → mfind p.first n2 = some id2 → id1 ≠ id2 →
      (exists_edge s h id1 id2).1 = true →
      (del_scan h id2 (vector_at (exists_edge s h id1 id2).2 h id1)
        (exists_edge s h id1 id2).2).1 = false →
      (∃ i, find_index id2 (vector_at (del_scan h id2
          (vector_at (exists_edge s h id1 id2).2 h id1) (exists_edge s h id1 id2).2).2 h id1) 0 =
          some i) ∧
        ∃ s', poset_del s h a b = some (true, s')) := by
  have hmain : ∀ p n1 n2 id1 id2, mfind s h = some p → a = some n1 → b = some n2 →
      mfind p.first n1 = some id1 → mfind p.first n2 = some id2 → id1 ≠ id2 →
      (exists_edge s h id1 id2).1 = true →
      (del_scan h id2 (vector_at (exists_edge s h id1 id2).2 h id1)
        (exists_edge s h id1 id2).2).1 = false →
      (∃ i, find_index id2 (vector_at (del_scan h id2
          (vector_at (exists_edge s h id1 id2).2 h id1) (exists_edge s h id1 id2).2).2 h id1) 0 =
          some i) ∧
        ∃ s', poset_del s h a b = some (true, s') := by
    intro p n1 n2 id1 id2 hp ha hb hn1 hn2 hne he hscan
    obtain ⟨hsame, p0, v, hp0, hv, hmem⟩ := exists_edge_true s h id1 id2 hne he
    rw [hsame] at hscan ⊢
    obtain ⟨p2, hp2, hv2⟩ := del_scan_keeps h id2 id1 v (vector_at s h id1) s ⟨p0, hp0, hv⟩
    have hvec : vector_at (del_scan h id2 (vector_at s h id1) s).2 h id1 = v := by
      generalize del_scan h id2 (vector_at s h id1) s = r2 at hp2 ⊢
      simp [vector_at, hp2, hv2]
    rw [hvec]
    cases hi : find_index id2 v 0 with
    | none => exact absurd hmem ((find_index_none id2 v 0).mp hi)
    | some i =>
      refine ⟨⟨i, rfl⟩, ?_⟩
      subst ha hb
      simp only [poset_del, hp, hn1, hn2, hne, if_false, hsame, he, Bool.not_true,
        Bool.false_eq_true, hscan, hvec, hi]
      exact ⟨_, rfl⟩
  refine ⟨?_, hmain⟩
  cases a with
  | none => exact ⟨(false, s), by simp [poset_del]⟩
  | some n1 =>
    cases b with
    | none => exact ⟨(false, s), by simp [poset_del]⟩
    | some n2 =>
      cases hp : mfind s h with
      | none => exact ⟨(false, s), by simp [poset_del, hp]⟩
      | some p =>
        cases hn1 : mfind p.first n1 with
        | none => exact ⟨(false, s), by simp [poset_del, hp, hn1]⟩
        | some id1 =>
          cases hn2 : mfind p.first n2 with
          | none => exact ⟨(false, s), by simp [poset_del, hp, hn1, hn2]⟩
          | some id2 =>
            by_cases hne : id1 = id2
            · exact ⟨(false, s), by simp [poset_del, hp, hn1, hn2, hne]⟩
            by_cases he : (exists_edge s h id1 id2).1 = true
            · by_cases hscan : (del_scan h id2 (vector_at (exists_edge s h id1 id2).2 h id1)
                  (exists_edge s h id1 id2).2).1 = true
              · exact ⟨(false, (del_scan h id2 (vector_at (exists_edge s h id1 id2).2 h id1)
                  (exists_edge s h id1 id2).2).2), by
                  simp only [poset_del, hp, hn1, hn2, hne, if_false, he,
                    Bool.not_true, Bool.false_eq_true, hscan, if_true]⟩
              · have hscan' : (del_scan h id2 (vector_at (exists_edge s h id1 id2).2 h id1)
                    (exists_edge s h id1 id2).2).1 = false := by
                  simpa using hscan
                obtain ⟨_, s', hs'⟩ := hmain p n1 n2 id1 id2 hp rfl rfl hn1 hn2 hne he hscan'
                exact ⟨_, hs'⟩
            · exact ⟨(false, (exists_edge s h id1 id2).2), by
                simp only [poset_del, hp, hn1, hn2, hne, if_false, he,
                  Bool.not_false, if_true]⟩

/-- Witness of C18 on a registry that breaks the invariant: the vector of the
id of `a` holds the id 9, which is no key. The call `poset_del(1, "a", "b")`
returns `true`. -/
theorem C18_del_no_exit_witness :
    poset_del [(1, ⟨[("a", 0), ("b", 1)], [(0, [9, 1]), (1, [])]⟩)] 1 (some "a") (some "b") =
        some (true, [(1, ⟨[("a", 0), ("b", 1)], [(0, [9]), (1, []), (9, [])]⟩)]) ∧
      ∃ r, poset_del [(1, ⟨[("a", 0), ("b", 1)], [(0, [9, 1]), (1, [])]⟩)] 1
        (some "a") (some "b") = some r :=
  ⟨by decide,
    (C18_del_no_exit [(1, ⟨[("a", 0), ("b", 1)], [(0, [9, 1]), (1, [])]⟩)] 1
      (some "a") (some "b")).1⟩

/-! ## Calls on one handle and the posets of the other handles -/

theorem exists_edge_frame (s : Registry) (id a b h' : number) (hne : id ≠ h') :
    mfind (exists_edge s id a b).2 h' = mfind s h' := by
  unfold exists_edge
  by_cases hab : a = b
  · simp [hab]
  · simp only [hab, if_false]
    cases hp : mfind s id with
    | none => simp [mfind_minsert, hne]
    | some p =>
      cases hv : mfind p.second a with
      | none => simp [hv, mfind_mupdate, hne]
      | some v => simp [hv]

theorem exists_edge_iso (s1 s2 : Registry) (id a b : number)
    (hsim : mfind s1 id = mfind s2 id) :
    (exists_edge s1 id a b).1 = (exists_edge s2 id a b).1 ∧
      mfind (exists_edge s1 id a b).2 id = mfind (exists_edge s2 id a b).2 id := by
  unfold exists_edge
  by_cases hab : a = b
  · simp [hab, hsim]
  · simp only [hab, if_false, hsim]
    cases hp : mfind s2 id with
    | none => simp [mfind_minsert]
    | some p =>
      cases hv : mfind p.second a with
      | none => simp [hv, mfind_mupdate, hsim, hp]
      | some v => simp [hv, hsim, hp]

theorem push_back_frame (s : Registry) (id k1 k2 h' : number) (hne : id ≠ h') :
    mfind (push_back s id k1 k2) h' = mfind s h' := by
  simp [push_back, mfind_mupdate, hne]

theorem push_back_iso (s1 s2 : Registry) (id k1 k2 : number)
    (hsim : mfind s1 id = mfind s2 id) :
    mfind (push_back s1 id k1 k2) id = mfind (push_back s2 id k1 k2) id := by
  simp [push_back, mfind_mupdate, hsim]

theorem add_inner_frame (id id2 k1 h' : number) (hne : id ≠ h') (ks : List number)
    (s : Registry) : mfind (add_inner id id2 k1 ks s) h' = mfind s h' := by
  induction ks generalizing s with
  | nil => rfl
  | cons k2 ks ih =>
    unfold add_inner
    simp only
    split
    · split
      · rw [ih, exists_edge_frame _ id k1 k2 h' hne, exists_edge_frame _ id id2 k2 h' hne]
      · rw [ih, push_back_frame _ id k1 k2 h' hne, exists_edge_frame _ id k1 k2 h' hne,
          exists_edge_frame _ id id2 k2 h' hne]
    · rw [ih, exists_edge_frame _ id id2 k2 h' hne]

theorem add_inner_iso (id id2 k1 : number) (ks : List number) (s1 s2 : Registry)
    (hsim : mfind s1 id = mfind s2 id) :
    mfind (add_inner id id2 k1 ks s1) id = mfind (add_inner id id2 k1 ks s2) id := by
  induction ks generalizing s1 s2 with
  | nil => exact hsim
  | cons k2 ks ih =>
    unfold add_inner
    simp only
    obtain ⟨e1, m1⟩ := exists_edge_iso s1 s2 id id2 k2 hsim
    obtain ⟨e2, m2⟩ := exists_edge_iso _ _ id k1 k2 m1
    rw [e1]
    split
    · rw [e2]
      split
      · exact ih _ _ m2
      · exact ih _ _ (push_back_iso _ _ id k1 k2 m2)
    · exact ih _ _ m1

theorem second_keys_iso (s1 s2 : Registry) (id : number) (hsim : mfind s1 id = mfind s2 id) :
    second_keys s1 id = second_keys s2 id := by
  simp [second_keys, hsim]

theorem vector_at_iso (s1 s2 : Registry) (id id1 : number)
    (hsim : mfind s1 id = mfind s2 id) : vector_at s1 id id1 = vector_at s2 id id1 := by
  simp [vector_at, hsim]

theorem add_outer_frame (id id1 id2 h' : number) (hne : id ≠ h') (ks : List number)
    (s : Registry) : mfind (add_outer id id1 id2 ks s) h' = mfind s h' := by
  induction ks generalizing s with
  | nil => rfl
  | cons k1 ks ih =>
    unfold add_outer
    simp only
    split
    · rw [ih, add_inner_frame id id2 k1 h' hne, exists_edge_frame _ id k1 id1 h' hne]
    · rw [ih, exists_edge_frame _ id k1 id1 h' hne]

theorem add_outer_iso (id id1 id2 : number) (ks : List number) (s1 s2 : Registry)
    (hsim : mfind s1 id = mfind s2 id) :
    mfind (add_outer id id1 id2 ks s1) id = mfind (add_outer id id1 id2 ks s2) id := by
  induction ks generalizing s1 s2 with
  | nil => exact hsim
  | cons k1 ks ih =>
    unfold add_outer
    simp only
    obtain ⟨e1, m1⟩ := exists_edge_iso s1 s2 id k1 id1 hsim
    rw [e1]
    split
    · rw [second_keys_iso _ _ id m1]
      exact ih _ _ (add_inner_iso id id2 k1 _ _ _ m1)
    · exact ih _ _ m1

theorem del_scan_frame (id id2 h' : number) (hne : id ≠ h') (vec : List number)
    (s : Registry) : mfind (del_scan id id2 vec s).2 h' = mfind s h' := by
  induction vec generalizing s with
  | nil => rfl
  | cons e es ih =>
    unfold del_scan
    split
    · simp only
      split
      · exact exists_edge_frame _ id e id2 h' hne
      · rw [ih, exists_edge_frame _ id e id2 h' hne]
    · exact ih s

theorem del_scan_iso (id id2 : number) (vec : List number) (s1 s2 : Registry)
    (hsim : mfind s1 id = mfind s2 id) :
    (del_scan id id2 vec s1).1 = (del_scan id id2 vec s2).1 ∧
      mfind (del_scan id id2 vec s1).2 id = mfind (del_scan id id2 vec s2).2 id := by
  induction vec generalizing s1 s2 with
  | nil => exact ⟨rfl, hsim⟩
  | cons e es ih =>
    unfold del_scan
    split
    · simp only
      obtain ⟨e1, m1⟩ := exists_edge_iso s1 s2 id e id2 hsim
      rw [e1]
      split
      · exact ⟨rfl, m1⟩
      · exact ih _ _ m1
    · exact ih _ _ hsim

theorem poset_add_frame (s : Registry) (id h' : number) (hne : id ≠ h')
    (a b : Option String) : mfind (poset_add s id a b).2 h' = mfind s h' := by
  cases a with
  | none => simp [poset_add]
  | some n1 =>
    cases b with
    | none => simp [poset_add]
    | some n2 =>
      cases hp : mfind s id with
      | none => simp [poset_add, hp]
      | some p =>
        cases hn1 : mfind p.first n1 with
        | none => simp [poset_add, hp, hn1]
        | some id1 =>
          cases hn2 : mfind p.first n2 with
          | none => simp [poset_add, hp, hn1, hn2]
          | some id2 =>
            simp only [poset_add, hp, hn1, hn2]
            have f1 := exists_edge_frame s id id2 id1 h' hne
            have f2 := exists_edge_frame (exists_edge s id id2 id1).2 id id1 id2 h' hne
            by_cases c1 : (exists_edge s id id2 id1).1 = true
            · simp only [c1, if_true]
              exact f1
            · simp only [c1, Bool.false_eq_true, if_false]
              by_cases c2 : (exists_edge (exists_edge s id id2 id1).2 id id1 id2).1 = true
              · simp only [c2, if_true]
                rw [f2, f1]
              · simp only [c2, Bool.false_eq_true, if_false]
                rw [add_outer_frame id id1 id2 h' hne, f2, f1]

theorem poset_add_iso (s1 s2 : Registry) (id : number) (hsim : mfind s1 id = mfind s2 id)
    (a b : Option String) : view id (poset_add s1 id a b) = view id (poset_add s2 id a b) := by
  cases a with
  | none => simp [poset_add, view, hsim]
  | some n1 =>
    cases b with
    | none => simp [poset_add, view, hsim]
    | some n2 =>
      cases hp : mfind s2 id with
      | none => simp [poset_add, view, hsim, hp]
      | some p =>
        have hp1 : mfind s1 id = some p := hsim.trans hp
        cases hn1 : mfind p.first n1 with
        | none => simp [poset_add, view, hp1, hp, hn1]
        | some id1 =>
          cases hn2 : mfind p.first n2 with
          | none => simp [poset_add, view, hp1, hp, hn1, hn2]
          | some id2 =>
            simp only [poset_add, hp1, hp, hn1, hn2, view]
            obtain ⟨e1, m1⟩ := exists_edge_iso s1 s2 id id2 id1 hsim
            obtain ⟨e2, m2⟩ := exists_edge_iso _ _ id id1 id2 m1
            rw [e1]
            by_cases c1 : (exists_edge s2 id id2 id1).1 = true
            · simp only [c1, if_true, m1]
            · simp only [c1, Bool.false_eq_true, if_false]
              rw [e2]
              by_cases c2 : (exists_edge (exists_edge s2 id id2 id1).2 id id1 id2).1 = true
              · simp only [c2, if_true, m2]
              · simp only [c2, Bool.false_eq_true, if_false]
                rw [second_keys_iso _ _ id m2, add_outer_iso id id1 id2 _ _ _ m2]

theorem poset_test_frame (s : Registry) (id h' : number) (hne : id ≠ h')
    (a b : Option String) : mfind (poset_test s id a b).2 h' = mfind s h' := by
  cases a with
  | none => simp [poset_test]
  | some n1 =>
    cases b with
    | none => simp [poset_test]
    | some n2 =>
      cases hp : mfind s id with
      | none => simp [poset_test, hp]
      | some p =>
        cases hn1 : mfind p.first n1 with
        | none => simp [poset_test, hp, hn1]
        | some id1 =>
          cases hn2 : mfind p.first n2 with
          | none => simp [poset_test, hp, hn1, hn2]
          | some id2 =>
            simp only [poset_test, hp, hn1, hn2]
            exact exists_edge_frame s id id1 id2 h' hne

theorem poset_test_iso (s1 s2 : Registry) (id : number) (hsim : mfind s1 id = mfind s2 id)
    (a b : Option String) :
    view id (poset_test s1 id a b) = view id (poset_test s2 id a b) := by
  cases a with
  | none => simp [poset_test, view, hsim]
  | some n1 =>
    cases b with
    | none => simp [poset_test, view, hsim]
    | some n2 =>
      cases hp : mfind s2 id with
      | none => simp [poset_test, view, hsim, hp]
      | some p =>
        have hp1 : mfind s1 id = some p := hsim.trans hp
        cases hn1 : mfind p.first n1 with
        | none => simp [poset_test, view, hp1, hp, hn1]
        | some id1 =>
          cases hn2 : mfind p.first n2 with
          | none => simp [poset_test, view, hp1, hp, hn1, hn2]
          | some id2 =>
            simp only [poset_test, hp1, hp, hn1, hn2, view]
            obtain ⟨e1, m1⟩ := exists_edge_iso s1 s2 id id1 id2 hsim
            rw [e1, m1]

theorem poset_del_frame (s : Registry) (id h' : number) (hne : id ≠ h')
    (a b : Option String) (res : Bool × Registry) (hres : poset_del s id a b = some res) :
    mfind res.2 h' = mfind s h' := by
  cases a with
  | none =>
    simp only [poset_del, Option.some.injEq] at hres
    rw [← hres]
  | some n1 =>
    cases b with
    | none =>
      simp only [poset_del, Option.some.injEq] at hres
      rw [← hres]
    | some n2 =>
      cases hp : mfind s id with
      | none =>
        simp only [poset_del, hp, Option.some.injEq] at hres
        rw [← hres]
      | some p =>
        cases hn1 : mfind p.first n1 with
        | none =>
          simp only [poset_del, hp, hn1, Option.some.injEq] at hres
          rw [← hres]
        | some id1 =>
          cases hn2 : mfind p.first n2 with
          | none =>
            simp only [poset_del, hp, hn1, hn2, Option.some.injEq] at hres
            rw [← hres]
          | some id2 =>
            simp only [poset_del, hp, hn1, hn2] at hres
            have f1 := exists_edge_frame s id id1 id2 h' hne
            have f2 := del_scan_frame id id2 h' hne
              (vector_at (exists_edge s id id1 id2).2 id id1) (exists_edge s id id1 id2).2
            by_cases c0 : id1 = id2
            · simp only [c0, if_true, Option.some.injEq] at hres
              rw [← hres]
            simp only [c0, if_false] at hres
            by_cases c1 : (exists_edge s id id1 id2).1 = true
            · simp only [c1, Bool.not_true, Bool.false_eq_true, if_false] at hres
              by_cases c2 : (del_scan id id2 (vector_at (exists_edge s id id1 id2).2 id id1)
                  (exists_edge s id id1 id2).2).1 = true
              · simp only [c2, if_true, Option.some.injEq] at hres
                rw [← hres, f2, f1]
              · simp only [c2, Bool.false_eq_true, if_false] at hres
                split at hres
                · simp only [Option.some.injEq] at hres
                  rw [← hres]
                  simp only [mfind_mupdate, hne, if_false]
                  rw [f2, f1]
                · cases hres
            · simp only [c1, Bool.not_false, if_true, Option.some.injEq] at hres
              rw [← hres, f1]

theorem poset_del_iso (s1 s2 : Registry) (id : number) (hsim : mfind s1 id = mfind s2 id)
    (a b : Option String) :
    (poset_del s1 id a b).map (view id) = (poset_del s2 id a b).map (view id) := by
  cases a with
  | none => simp [poset_del, view, hsim]
  | some n1 =>
    cases b with
    | none => simp [poset_del, view, hsim]
    | some n2 =>
      cases hp : mfind s2 id with
      | none => simp [poset_del, view, hsim, hp]
      | some p =>
        have hp1 : mfind s1 id = some p := hsim.trans hp
        cases hn1 : mfind p.first n1 with
        | none => simp [poset_del, view, hp1, hp, hn1]
        | some id1 =>
          cases hn2 : mfind p.first n2 with
          | none => simp [poset_del, view, hp1, hp, hn1, hn2]
          | some id2 =>
            simp only [poset_del, hp1, hp, hn1, hn2]
            by_cases c0 : id1 = id2
            · simp [c0, view, hsim]
            simp only [c0, if_false]
            obtain ⟨e1, m1⟩ := exists_edge_iso s1 s2 id id1 id2 hsim
            rw [e1]
            by_cases c1 : (exists_edge s2 id id1 id2).1 = true
            · simp only [c1, Bool.not_true, Bool.false_eq_true, if_false]
              rw [vector_at_iso _ _ id id1 m1]
              obtain ⟨e2, m2⟩ := del_scan_iso id id2
                (vector_at (exists_edge s2 id id1 id2).2 id id1) _ _ m1
              rw [e2]
              by_cases c2 : (del_scan id id2 (vector_at (exists_edge s2 id id1 id2).2 id id1)
                  (exists_edge s2 id id1 id2).2).1 = true
              · simp only [c2, if_true, Option.map_some', view, m2]
              · simp only [c2, Bool.false_eq_true, if_false]
                rw [vector_at_iso _ _ id id1 m2]
                split
                · simp only [Option.map_some', view, mfind_mupdate, if_true, m2]
                · rfl
            · simp only [c1, Bool.not_false, if_true, Option.map_some', view, m1]

theorem poset_insert_frame (s : Registry) (id h' : number) (hne : id ≠ h')
    (a : Option String) (r : number) (res : Bool × Registry)
    (hres : poset_insert s id a r = some res) : mfind res.2 h' = mfind s h' := by
  rcases poset_insert_cases s id a r with
    ⟨p, n, nid, _, _, _, _, h1⟩ | ⟨h1, _⟩ | ⟨h1, _⟩
  · rw [h1, Option.some.injEq] at hres
    rw [← hres]
    exact mfind_set_poset_ne s id h' _ hne
  · rw [h1, Option.some.injEq] at hres
    rw [← hres]
  · rw [h1] at hres
    cases hres

theorem poset_insert_iso (s1 s2 : Registry) (id : number) (hsim : mfind s1 id = mfind s2 id)
    (a : Option String) (r : number) :
    (poset_insert s1 id a r).map (view id) = (poset_insert s2 id a r).map (view id) := by
  cases a with
  | none => simp [poset_insert, view, hsim]
  | some n =>
    cases hp : mfind s2 id with
    | none => simp [poset_insert, view, hsim, hp]
    | some p =>
      have hp1 : mfind s1 id = some p := hsim.trans hp
      simp only [poset_insert, hp1, hp]
      split
      · simp [view, hp1, hp]
      · cases probe p.second (p.second.length + 1) (r % WORD) with
        | none => rfl
        | some nid => simp [view, mfind_mupdate, hp1, hp]

theorem poset_remove_frame (s : Registry) (id h' : number) (hne : id ≠ h')
    (a : Option String) : mfind (poset_remove s id a).2 h' = mfind s h' := by
  rcases poset_remove_cases s id a with ⟨p, n, d, _, _, _, h1⟩ | ⟨h1, _⟩
  · rw [h1]
    exact mfind_set_poset_ne s id h' _ hne
  · rw [h1]

theorem poset_remove_iso (s1 s2 : Registry) (id : number) (hsim : mfind s1 id = mfind s2 id)
    (a : Option String) :
    view id (poset_remove s1 id a) = view id (poset_remove s2 id a) := by
  cases a with
  | none => simp [poset_remove, view, hsim]
  | some n =>
    cases hp : mfind s2 id with
    | none => simp [poset_remove, view, hsim, hp]
    | some p =>
      have hp1 : mfind s1 id = some p := hsim.trans hp
      cases hn : mfind p.first n with
      | none => simp [poset_remove, view, hp1, hp, hn]
      | some d => simp [poset_remove, view, mfind_mupdate, hp1, hp, hn]

theorem poset_clear_frame (s : Registry) (id h' : number) (hne : id ≠ h') :
    mfind (poset_clear s id) h' = mfind s h' := by
  unfold poset_clear
  cases hp : mfind s id with
  | none => rfl
  | some p => simp [mfind_mupdate, hne]

theorem poset_clear_iso (s1 s2 : Registry) (id : number) (hsim : mfind s1 id = mfind s2 id) :
    mfind (poset_clear s1 id) id = mfind (poset_clear s2 id) id := by
  unfold poset_clear
  cases hp : mfind s2 id with
  | none => simp [hsim, hp]
  | some p => simp [hsim, hp, mfind_mupdate]

/-- C16: On every registry and for distinct handles `h` and `h'`, a call of
`poset_insert`, `poset_remove`, `poset_add`, `poset_del`, `poset_test`,
`poset_clear` or `poset_delete` addressed to `h` leaves the binding of `h'` as
it was (the same poset, or none); `poset_size` writes nothing. The value
returned by a call on `h` and the poset it leaves under `h` are the same on
every registry that binds `h` to the same poset, whatever the other handles
hold. -/
theorem C16_handle_isolation (s : Registry) (h h' : number) (hne : h ≠ h')
    (a b : Option String) (r : number) :
    ((∀ res, poset_insert s h a r = some res → mfind res.2 h' = mfind s h') ∧
      mfind (poset_remove s h a).2 h' = mfind s h' ∧
      mfind (poset_add s h a b).2 h' = mfind s h' ∧
      (∀ res, poset_del s h a b = some res → mfind res.2 h' = mfind s h') ∧
      mfind (poset_test s h a b).2 h' = mfind s h' ∧
      mfind (poset_clear s h) h' = mfind s h' ∧
      mfind (poset_delete s h) h' = mfind s h') ∧
    (∀ s2 : Registry, mfind s2 h = mfind s h →
      (poset_insert s2 h a r).map (view h) = (poset_insert s h a r).map (view h) ∧
      view h (poset_remove s2 h a) = view h (poset_remove s h a) ∧
      view h (poset_add s2 h a b) = view h (poset_add s h a b) ∧
      (poset_del s2 h a b).map (view h) = (poset_del s h a b).map (view h) ∧
      view h (poset_test s2 h a b) = view h (poset_test s h a b) ∧
      poset_size s2 h = poset_size s h ∧
      mfind (poset_clear s2 h) h = mfind (poset_clear s h) h ∧
      mfind (poset_delete s2 h) h = mfind (poset_delete s h) h) := by
  refine ⟨⟨?_, ?_, ?_, ?_, ?_, ?_, ?_⟩, ?_⟩
  · exact fun res hres => poset_insert_frame s h h' hne a r res hres
  · exact poset_remove_frame s h h' hne a
  · exact poset_add_frame s h h' hne a b
  · exact fun res hres => poset_del_frame s h h' hne a b res hres
  · exact poset_test_frame s h h' hne a b
  · exact poset_clear_frame s h h' hne
  · simp [poset_delete, mfind_merase, hne]
  · intro s2 hsim
    refine ⟨poset_insert_iso s2 s h hsim a r, poset_remove_iso s2 s h hsim a,
      poset_add_iso s2 s h hsim a b, poset_del_iso s2 s h hsim a b,
      poset_test_iso s2 s h hsim a b, ?_, poset_clear_iso s2 s h hsim, ?_⟩
    · simp [poset_size, hsim]
    · simp [poset_delete, mfind_merase]

/-- Witness of C16 on a registry with the posets `1` and `2`, both with an
element named `a`: removing `a` from the poset `1` leaves the poset `2` as it
is, and `poset_test(1, "a", "a")` has the same value when the poset `2` is
absent. -/
theorem C16_handle_isolation_witness :
    (1 : number) ≠ 2 ∧
      (poset_remove twin_state 1 (some "a")).1 = true ∧
      mfind (poset_remove twin_state 1 (some "a")).2 2 = mfind twin_state 2 ∧
      view 1 (poset_test [(1, ⟨[("a", 0)], [(0, [])]⟩)] 1 (some "a") (some "a")) =
        view 1 (poset_test twin_state 1 (some "a") (some "a")) :=
  ⟨by decide, by decide,
    (C16_handle_isolation twin_state 1 2 (by decide) (some "a") (some "a") 0).1.2.1,
    ((C16_handle_isolation twin_state 1 2 (by decide) (some "a") (some "a") 0).2
      [(1, ⟨[("a", 0)], [(0, [])]⟩)] (by decide)).2.2.2.2.1⟩

end jnp1
